import Mathlib

/-!
# ARMv8 NEON explorer: kernels and their scalar references

A shallow embedding of the numeric kernels of the repository
(`src/simd_ops.c`, `examples/rgb_to_gray.c`, `examples/box_blur.c`,
`examples/histogram.c`, `examples/sobel_edge.c`, `examples/fft_example.c`,
`examples/matrix_multiply.c`, `tests/test_basic_ops.c`) together with the
properties the specification states about them.

Conventions of the embedding

* A C pointer to a buffer is a function from element offsets to values
  (`Buf`).  A store is a pointwise update, so every write the code performs
  is visible, also one outside the intended range.
* A NEON register of `W` lanes is a function `Fin W → α` (`Vec`).
* Machine integers are `Nat` / `Int` with explicit reduction modulo `2^w`
  wherever the machine operation wraps.
* A counted loop `for (i = lo; i < hi; i++)` is `forRange lo hi`; a strided
  loop `for (x = lo; x < hi; x += step)` is `forStep lo hi step`.
* Where a signed expression can overflow (the twiddle index of the FFT, the
  `int32_t` statements of the tail loops of `simd_add_s32`, `simd_mul_s32`
  and `simd_dot_product_s32`) the function returns an `Option`, `none`
  standing for undefined behaviour.  The lanes of the NEON instructions wrap.
* Float arithmetic of the FFT is taken in a commutative ring, that is, exactly.
* The float kernels and the matrix product are written over a type with an
  addition, a multiplication and a zero of which no law is assumed; a theorem
  that needs exact arithmetic asks for a commutative ring, and `binary32`
  evaluates the kernels with float32 rounding on integer values.
* Library and hardware functions without a definition in the repository
  (`sqrtf`, the estimate of `vrsqrteq_f32`) are parameters of the kernels
  that call them; `sqrt` on an integer argument is `Nat.sqrt`.
* Where a property is about the memory a kernel reads or writes, the offsets
  are collected in program order by the same loops (`neon_sobel_reads`,
  `elementwise_reads`, `elementwise_writes`).
-/

namespace NeonExplorer

/-! ## Memory, registers and loops -/

/-- A buffer addressed by element offset from its base pointer. -/
abbrev Buf (α : Type) := Nat → α

/-- A vector register with `W` lanes. -/
abbrev Vec (W : Nat) (α : Type) := Fin W → α

/-- The loop `body i; body (i+1); ...` executed `n` times starting at index `i`. -/
def forLoop {σ : Type} : Nat → Nat → (Nat → σ → σ) → σ → σ
  | 0, _, _, s => s
  | n + 1, i, body, s => forLoop n (i + 1) body (body i s)

/-- The C loop `for (i = lo; i < hi; i++) body`. -/
def forRange {σ : Type} (lo hi : Nat) (body : Nat → σ → σ) (s : σ) : σ :=
  forLoop (hi - lo) lo body s

/-- The C loop `for (x = lo; x < hi; x += step) body` with `step > 0`: it runs
`⌈(hi - lo) / step⌉` times, the `t`-th iteration at `x = lo + step * t`. -/
def forStep {σ : Type} (lo hi step : Nat) (body : Nat → σ → σ) (s : σ) : σ :=
  forLoop ((hi - lo + step - 1) / step) 0 (fun t => body (lo + step * t)) s

/-- The loop `forLoop` for a body that can fail. -/
def forLoopM {σ : Type} : Nat → Nat → (Nat → σ → Option σ) → σ → Option σ
  | 0, _, _, s => some s
  | n + 1, i, body, s => (body i s).bind (forLoopM n (i + 1) body)

/-- The C loop `for (i = lo; i < hi; i++) body` for a body that can fail. -/
def forRangeM {σ : Type} (lo hi : Nat) (body : Nat → σ → Option σ) (s : σ) : Option σ :=
  forLoopM (hi - lo) lo body s

/-- The C loop `for (x = lo; x < hi; x += step) body` for a body that can fail. -/
def forStepM {σ : Type} (lo hi step : Nat) (body : Nat → σ → Option σ) (s : σ) : Option σ :=
  forLoopM ((hi - lo + step - 1) / step) 0 (fun t => body (lo + step * t)) s

/-- The scalar store `p[i] = v`. -/
def store {α : Type} (p : Buf α) (i : Nat) (v : α) : Buf α :=
  fun j => if j = i then v else p j

/-- The intrinsics `vld1_*` / `vld1q_*`: load `W` consecutive elements starting at `off`. -/
def vld1 {α : Type} (W : Nat) (p : Buf α) (off : Nat) : Vec W α :=
  fun l => p (off + l.val)

/-- The intrinsics `vst1_*` / `vst1q_*`: store the `W` lanes to `off, ..., off + W - 1`. -/
def vst1 {α : Type} {W : Nat} (p : Buf α) (off : Nat) (v : Vec W α) : Buf α :=
  fun j => if h : off ≤ j ∧ j < off + W then v ⟨j - off, by omega⟩ else p j

/-! ## Machine integers -/

/-- Reduction of an integer to `int32_t` (two's complement wrap-around). -/
def wrapS32 (x : Int) : Int := (x + 2147483648) % 4294967296 - 2147483648

/-- Reduction of an integer to `int16_t` (two's complement wrap-around). -/
def wrapS16 (x : Int) : Int := (x + 32768) % 65536 - 32768

/-- The values of `int32_t`, which is `int` on the target: a signed addition or
multiplication whose exact result lies outside this range has undefined behaviour. -/
def in_int32 (x : Int) : Prop := -2147483648 ≤ x ∧ x ≤ 2147483647

instance (x : Int) : Decidable (in_int32 x) := by
  unfold in_int32
  infer_instance

/-- Reduction of a natural number to `uint8_t`. -/
def wrapU8 (x : Nat) : Nat := x % 256

/-- Reduction of a natural number to `uint16_t`. -/
def wrapU16 (x : Nat) : Nat := x % 65536

/-! ## Elementwise addition (`src/simd_ops.c`) -/

/-- The intrinsic `vaddq_s32`: lane-wise addition modulo `2^32`. -/
def vaddq_s32 (va vb : Vec 4 Int) : Vec 4 Int := fun l => wrapS32 (va l + vb l)

/-- The intrinsic `vaddq_s16`: lane-wise addition modulo `2^16`. -/
def vaddq_s16 (va vb : Vec 8 Int) : Vec 8 Int := fun l => wrapS16 (va l + vb l)

/-- The intrinsic `vaddq_u8`: lane-wise addition modulo `2^8`. -/
def vaddq_u8 (va vb : Vec 16 Nat) : Vec 16 Nat := fun l => wrapU8 (va l + vb l)

/-- The function `simd_add_s32` of `simd_ops.c`; the result is the buffer `c` after the call,
`c` its contents before.  The lanes of `vaddq_s32` wrap; the tail statement
`c[i] = a[i] + b[i]` adds two `int32_t` in `int`, which is undefined when the sum
overflows: the result is then `none`. -/
def simd_add_s32 (a b c : Buf Int) (len : Nat) : Option (Buf Int) :=
  let vec_size := len / 4
  let c1 := forRange 0 vec_size (fun i c =>
    let va := vld1 4 a (i * 4)
    let vb := vld1 4 b (i * 4)
    let vc := vaddq_s32 va vb
    vst1 c (i * 4) vc) c
  forRangeM (vec_size * 4) len (fun i c =>
    if in_int32 (a i + b i) then some (store c i (a i + b i)) else none) c1

/-- The function `simd_add_s16` of `simd_ops.c`. -/
def simd_add_s16 (a b c : Buf Int) (len : Nat) : Buf Int :=
  let vec_size := len / 8
  let c1 := forRange 0 vec_size (fun i c =>
    let va := vld1 8 a (i * 8)
    let vb := vld1 8 b (i * 8)
    let vc := vaddq_s16 va vb
    vst1 c (i * 8) vc) c
  forRange (vec_size * 8) len (fun i c => store c i (wrapS16 (a i + b i))) c1

/-- The function `simd_add_u8` of `simd_ops.c`. -/
def simd_add_u8 (a b c : Buf Nat) (len : Nat) : Buf Nat :=
  let vec_size := len / 16
  let c1 := forRange 0 vec_size (fun i c =>
    let va := vld1 16 a (i * 16)
    let vb := vld1 16 b (i * 16)
    let vc := vaddq_u8 va vb
    vst1 c (i * 16) vc) c
  forRange (vec_size * 16) len (fun i c => store c i (wrapU8 (a i + b i))) c1

/-- The one-element-at-a-time scalar path at element type `int32_t` in the words of the
specification: every `c[i]` with `i < len` receives the wrap-around sum of `a[i]` and
`b[i]` modulo `2^32`. -/
def scalar_add_s32_spec (a b c : Buf Int) (len : Nat) : Buf Int :=
  forRange 0 len (fun i c => store c i (wrapS32 (a i + b i))) c

/-- The scalar reference loop at element type `int16_t`. -/
def scalar_add_s16_spec (a b c : Buf Int) (len : Nat) : Buf Int :=
  forRange 0 len (fun i c => store c i (wrapS16 (a i + b i))) c

/-- The scalar reference loop at element type `uint8_t`. -/
def scalar_add_u8_spec (a b c : Buf Nat) (len : Nat) : Buf Nat :=
  forRange 0 len (fun i c => store c i (wrapU8 (a i + b i))) c

/-! ## Integer dot product (`src/simd_ops.c`) -/

/-- The intrinsic `vdupq_n_s32`: all four lanes set to `x`. -/
def vdupq_n_s32 (x : Int) : Vec 4 Int := fun _ => x

/-- The intrinsic `vmlaq_s32`: lane-wise multiply-accumulate `acc + va * vb` modulo `2^32`. -/
def vmlaq_s32 (acc va vb : Vec 4 Int) : Vec 4 Int := fun l => wrapS32 (acc l + va l * vb l)

/-- The intrinsics `vget_low_*` on a four-lane register: lanes 0 and 1. -/
def vget_low4 {α : Type} (v : Vec 4 α) : Vec 2 α := fun l => v ⟨l.val, by omega⟩

/-- The intrinsics `vget_high_*` on a four-lane register: lanes 2 and 3. -/
def vget_high4 {α : Type} (v : Vec 4 α) : Vec 2 α := fun l => v ⟨l.val + 2, by omega⟩

/-- The intrinsic `vadd_s32`: lane-wise addition of two-lane registers modulo `2^32`. -/
def vadd_s32 (va vb : Vec 2 Int) : Vec 2 Int := fun l => wrapS32 (va l + vb l)

/-- The intrinsic `vpadd_s32`: pairwise addition, lane 0 from the first operand and lane 1
from the second. -/
def vpadd_s32 (va vb : Vec 2 Int) : Vec 2 Int :=
  fun l => if l.val = 0 then wrapS32 (va 0 + va 1) else wrapS32 (vb 0 + vb 1)

/-- The function `simd_dot_product_s32` of `simd_ops.c`.  The lanes of `vmlaq_s32`,
`vadd_s32` and `vpadd_s32` wrap; the tail statement `sum += a[i] * b[i]` multiplies and
adds in `int`, which is undefined when the product or the sum overflows: the result is
then `none`. -/
def simd_dot_product_s32 (a b : Buf Int) (len : Nat) : Option Int :=
  let sum_vec0 := vdupq_n_s32 0
  let vec_size := len / 4
  let sum_vec := forRange 0 vec_size (fun i sum_vec =>
    let va := vld1 4 a (i * 4)
    let vb := vld1 4 b (i * 4)
    vmlaq_s32 sum_vec va vb) sum_vec0
  let sum_2 := vadd_s32 (vget_low4 sum_vec) (vget_high4 sum_vec)
  let sum_2 := vpadd_s32 sum_2 sum_2
  let sum := sum_2 0
  forRangeM (vec_size * 4) len (fun i sum =>
    if in_int32 (a i * b i) ∧ in_int32 (sum + a i * b i) then some (sum + a i * b i)
    else none) sum

/-- The scalar left-to-right accumulation at element type `int32_t` in the words of the
specification: the products are added one after the other with 32-bit wrap-around. -/
def scalar_dot_product_s32_spec (a b : Buf Int) (len : Nat) : Int :=
  forRange 0 len (fun i sum => wrapS32 (sum + wrapS32 (a i * b i))) 0

/-! ## RGB to grayscale (`src/simd_ops.c`, `examples/rgb_to_gray.c`) -/

/-- Reduction of a natural number to `uint32_t`. -/
def wrapU32 (x : Nat) : Nat := x % 4294967296

/-- The intrinsic `vdup_n_u8`: all eight lanes set to `x`. -/
def vdup_n_u8 (x : Nat) : Vec 8 Nat := fun _ => x

/-- The intrinsic `vld3_u8`: de-interleaving load of 24 bytes; lane `l` of register `ch` is the
byte at `off + 3 * l + ch`. -/
def vld3_u8 (p : Buf Nat) (off : Nat) : Fin 3 → Vec 8 Nat :=
  fun ch l => p (off + 3 * l.val + ch.val)

/-- The intrinsic `vmull_u8`: widening lane-wise product, each result a 16-bit lane. -/
def vmull_u8 (va vb : Vec 8 Nat) : Vec 8 Nat := fun l => wrapU16 (va l * vb l)

/-- The intrinsic `vaddq_u16`: lane-wise addition modulo `2^16`. -/
def vaddq_u16 (va vb : Vec 8 Nat) : Vec 8 Nat := fun l => wrapU16 (va l + vb l)

/-- The intrinsic `vshrn_n_u16`: shift each 16-bit lane right by `n` and keep the low 8 bits. -/
def vshrn_n_u16 (v : Vec 8 Nat) (n : Nat) : Vec 8 Nat := fun l => wrapU8 (v l >>> n)

/-- The function `simd_rgb_to_gray` of `simd_ops.c`; the result is the buffer `gray` after the
call. -/
def simd_rgb_to_gray (rgb gray : Buf Nat) (pixel_count : Nat) : Buf Nat :=
  let r_coeff := 77
  let g_coeff := 150
  let b_coeff := 29
  let vr_coeff := vdup_n_u8 r_coeff
  let vg_coeff := vdup_n_u8 g_coeff
  let vb_coeff := vdup_n_u8 b_coeff
  let vec_size := pixel_count / 8
  let gray1 := forRange 0 vec_size (fun i gray =>
    let rgb_pixels := vld3_u8 rgb (i * 24)
    let r_channel := rgb_pixels 0
    let g_channel := rgb_pixels 1
    let b_channel := rgb_pixels 2
    let r_contrib := vmull_u8 r_channel vr_coeff
    let g_contrib := vmull_u8 g_channel vg_coeff
    let b_contrib := vmull_u8 b_channel vb_coeff
    let sum := vaddq_u16 r_contrib g_contrib
    let sum := vaddq_u16 sum b_contrib
    let gray_pixels := vshrn_n_u16 sum 8
    vst1 gray (i * 8) gray_pixels) gray
  forRange (vec_size * 8) pixel_count (fun i gray =>
    let gray_val := wrapU16
      ((rgb (i * 3 + 0) * r_coeff + rgb (i * 3 + 1) * g_coeff + rgb (i * 3 + 2) * b_coeff) >>> 8)
    store gray i (wrapU8 gray_val)) gray1

/-- The function `neon_rgb_to_gray` of `examples/rgb_to_gray.c` (the same text as
`simd_rgb_to_gray`). -/
def neon_rgb_to_gray (rgb gray : Buf Nat) (pixel_count : Nat) : Buf Nat :=
  let r_coeff := 77
  let g_coeff := 150
  let b_coeff := 29
  let vr_coeff := vdup_n_u8 r_coeff
  let vg_coeff := vdup_n_u8 g_coeff
  let vb_coeff := vdup_n_u8 b_coeff
  let vec_size := pixel_count / 8
  let gray1 := forRange 0 vec_size (fun i gray =>
    let rgb_pixels := vld3_u8 rgb (i * 24)
    let r_channel := rgb_pixels 0
    let g_channel := rgb_pixels 1
    let b_channel := rgb_pixels 2
    let r_contrib := vmull_u8 r_channel vr_coeff
    let g_contrib := vmull_u8 g_channel vg_coeff
    let b_contrib := vmull_u8 b_channel vb_coeff
    let sum := vaddq_u16 r_contrib g_contrib
    let sum := vaddq_u16 sum b_contrib
    let gray_pixels := vshrn_n_u16 sum 8
    vst1 gray (i * 8) gray_pixels) gray
  forRange (vec_size * 8) pixel_count (fun i gray =>
    let gray_val := wrapU16
      ((rgb (i * 3 + 0) * r_coeff + rgb (i * 3 + 1) * g_coeff + rgb (i * 3 + 2) * b_coeff) >>> 8)
    store gray i (wrapU8 gray_val)) gray1

/-- The function `scalar_rgb_to_gray` of `examples/rgb_to_gray.c`: `uint32_t` arithmetic, the
result cast to `uint8_t`. -/
def scalar_rgb_to_gray (rgb gray : Buf Nat) (pixel_count : Nat) : Buf Nat :=
  forRange 0 pixel_count (fun i gray =>
    let r := rgb (i * 3 + 0)
    let g := rgb (i * 3 + 1)
    let b := rgb (i * 3 + 2)
    store gray i (wrapU8 (wrapU32 (wrapU32 (wrapU32 (r * 77) + wrapU32 (g * 150))
      + wrapU32 (b * 29)) >>> 8))) gray

/-! ## 3x3 box blur (`src/simd_ops.c`, `examples/box_blur.c`)

Image dimensions are `int` in the source; the embedding takes them as natural numbers, which
is exact for `width ≥ 1` and `height ≥ 1` (the loop bounds `height - 1`, `width - 1`,
`width - 8` are only compared with loop variables that start at 1, and
`width - (width - 1) % 8` is at least 1).  The kernel offsets `ky, kx ∈ {-1, 0, 1}` are the
loop indices `0, 1, 2` minus one. -/

/-- The intrinsic `vdupq_n_u16`: all eight 16-bit lanes set to `x`. -/
def vdupq_n_u16 (x : Nat) : Vec 8 Nat := fun _ => x

/-- The intrinsic `vaddw_u8`: add the widened bytes of `v` to the 16-bit lanes of `sum`. -/
def vaddw_u8 (sum v : Vec 8 Nat) : Vec 8 Nat := fun l => wrapU16 (sum l + v l)

/-- The intrinsic `vmulq_n_u16`: multiply each 16-bit lane by the scalar `n`, modulo `2^16`. -/
def vmulq_n_u16 (v : Vec 8 Nat) (n : Nat) : Vec 8 Nat := fun l => wrapU16 (v l * n)

/-- The accumulation of the 3x3 neighbourhood for the eight pixels `x, ..., x + 7` of row `y`
(the two inner loops of the 8-wide path). -/
def blur_sum_vec (input : Buf Nat) (width y x : Nat) : Vec 8 Nat :=
  forRange 0 3 (fun ky sum =>
    forRange 0 3 (fun kx sum =>
      let neighborhood := vld1 8 input ((y + ky - 1) * width + (x + kx - 1))
      vaddw_u8 sum neighborhood) sum) (vdupq_n_u16 0)

/-- The accumulation of the 3x3 neighbourhood of pixel `(y, x)` in a `uint16_t` (the two inner
loops of the tail path). -/
def blur_sum_u16 (input : Buf Nat) (width y x : Nat) : Nat :=
  forRange 0 3 (fun ky sum =>
    forRange 0 3 (fun kx sum =>
      wrapU16 (sum + input ((y + ky - 1) * width + (x + kx - 1)))) sum) 0

/-- The accumulation of the 3x3 neighbourhood of pixel `(y, x)` in a `uint32_t` (the two inner
loops of the scalar reference). -/
def blur_sum_u32 (input : Buf Nat) (width y x : Nat) : Nat :=
  forRange 0 3 (fun ky sum =>
    forRange 0 3 (fun kx sum =>
      wrapU32 (sum + input ((y + ky - 1) * width + (x + kx - 1)))) sum) 0

/-- The first loop nest of `simd_blur_gray_3x3` / `neon_blur_gray_3x3` (the two functions have
the same text): for each interior row the 8-wide loop, then the tail loop. -/
def neon_blur_rows (input output : Buf Nat) (width height : Nat) : Buf Nat :=
  forRange 1 (height - 1) (fun y output =>
    let output := forStep 1 (width - 8) 8 (fun x output =>
      let sum := blur_sum_vec input width y x
      let scaled := vmulq_n_u16 sum 28
      let result := vshrn_n_u16 scaled 8
      vst1 output (y * width + x) result) output
    forRange (width - (width - 1) % 8) (width - 1) (fun x output =>
      let sum := blur_sum_u16 input width y x
      store output (y * width + x) (wrapU8 (sum / 9))) output) output

/-- The first loop nest of `scalar_blur_gray_3x3`. -/
def scalar_blur_rows (input output : Buf Nat) (width height : Nat) : Buf Nat :=
  forRange 1 (height - 1) (fun y output =>
    forRange 1 (width - 1) (fun x output =>
      let sum := blur_sum_u32 input width y x
      store output (y * width + x) (wrapU8 (sum / 9))) output) output

/-- The two border loops that end `scalar_blur_gray_3x3`, `simd_blur_gray_3x3` and
`neon_blur_gray_3x3` (the same text in the three functions): top and bottom row, then left
and right column. -/
def blur_copy_border (input output : Buf Nat) (width height : Nat) : Buf Nat :=
  let output := forRange 0 width (fun x output =>
    let output := store output x (input x)
    store output ((height - 1) * width + x) (input ((height - 1) * width + x))) output
  forRange 1 (height - 1) (fun y output =>
    let output := store output (y * width) (input (y * width))
    store output (y * width + width - 1) (input (y * width + width - 1))) output

/-- The function `simd_blur_gray_3x3` of `simd_ops.c`; the result is the buffer `output` after
the call, `output` its contents before. -/
def simd_blur_gray_3x3 (input output : Buf Nat) (width height : Nat) : Buf Nat :=
  blur_copy_border input (neon_blur_rows input output width height) width height

/-- The function `neon_blur_gray_3x3` of `examples/box_blur.c`. -/
def neon_blur_gray_3x3 (input output : Buf Nat) (width height : Nat) : Buf Nat :=
  blur_copy_border input (neon_blur_rows input output width height) width height

/-- The function `scalar_blur_gray_3x3` of `examples/box_blur.c`. -/
def scalar_blur_gray_3x3 (input output : Buf Nat) (width height : Nat) : Buf Nat :=
  blur_copy_border input (scalar_blur_rows input output width height) width height

/-- The offsets of the interior pixels of a `width × height` image: rows `1 .. height - 2`,
columns `1 .. width - 2`. -/
def IsInterior (width height p : Nat) : Prop :=
  ∃ y x, 1 ≤ y ∧ y + 1 < height ∧ 1 ≤ x ∧ x + 1 < width ∧ p = y * width + x

/-! ## Histogram (`examples/histogram.c`) -/

/-- The call `memset(p, 0, n * sizeof *p)`: the first `n` elements set to zero. -/
def memset_zero (p : Buf Nat) (n : Nat) : Buf Nat := fun i => if i < n then 0 else p i

/-- The function `scalar_histogram` of `examples/histogram.c`; the result is the buffer
`histogram` (of `uint32_t`) after the call, `histogram` its contents before. -/
def scalar_histogram (image histogram : Buf Nat) (size : Nat) : Buf Nat :=
  let histogram := memset_zero histogram 256
  forRange 0 size (fun i histogram =>
    store histogram (image i) (wrapU32 (histogram (image i) + 1))) histogram

/-- The intrinsic `vget_low_u8` on a sixteen-lane register: lanes 0 to 7. -/
def vget_low16 {α : Type} (v : Vec 16 α) : Vec 8 α := fun l => v ⟨l.val, by omega⟩

/-- The intrinsic `vget_high_u8` on a sixteen-lane register: lanes 8 to 15. -/
def vget_high16 {α : Type} (v : Vec 16 α) : Vec 8 α := fun l => v ⟨l.val + 8, by omega⟩

/-- The statement `local_hist[k][v]++` on the `uint16_t local_hist[4][256]` array: the counter
is incremented modulo `2^16`. -/
def incr16 (local_hist : Nat → Buf Nat) (k v : Nat) : Nat → Buf Nat :=
  fun k2 v2 => if k2 = k ∧ v2 = v then wrapU16 (local_hist k v + 1) else local_hist k2 v2

/-- The function `neon_histogram` of `examples/histogram.c`.  The local array `values` is
written in full by the two stores before it is read; the unused locals `low1`, `low2`, `high1`
and `high2` are left out. -/
def neon_histogram (image histogram : Buf Nat) (size : Nat) : Buf Nat :=
  let histogram := memset_zero histogram 256
  let chunks := size / 16
  let local_hist : Nat → Buf Nat := fun _ _ => 0
  let local_hist := forRange 0 chunks (fun i local_hist =>
    let pixels := vld1 16 image (i * 16)
    let low := vget_low16 pixels
    let high := vget_high16 pixels
    let values : Buf Nat := fun _ => 0
    let values := vst1 values 0 low
    let values := vst1 values 8 high
    forRange 0 4 (fun j local_hist =>
      let local_hist := incr16 local_hist 0 (values j)
      let local_hist := incr16 local_hist 1 (values (j + 4))
      let local_hist := incr16 local_hist 2 (values (j + 8))
      incr16 local_hist 3 (values (j + 12))) local_hist) local_hist
  let local_hist := forRange (chunks * 16) size (fun i local_hist =>
    incr16 local_hist 0 (image i)) local_hist
  forRange 0 256 (fun i histogram =>
    store histogram i
      (wrapU32 (local_hist 0 i + local_hist 1 i + local_hist 2 i + local_hist 3 i))) histogram

/-- The sum of the 256 bins of a histogram. -/
def histogram_total (histogram : Buf Nat) : Nat := ∑ v ∈ Finset.range 256, histogram v

/-- The number of times the byte `v` contributes to the partial histogram `t` of
`neon_histogram`: lane positions `4 t .. 4 t + 3` of each full 16-byte chunk, and for `t = 0`
also the tail. -/
def neon_local_count (image : Buf Nat) (size t v : Nat) : Nat :=
  (∑ i ∈ Finset.range (size / 16), ∑ j ∈ Finset.range 4,
      if image (i * 16 + (j + 4 * t)) = v then 1 else 0)
    + ∑ i ∈ Finset.range (size - size / 16 * 16),
        if t = 0 ∧ image (size / 16 * 16 + i) = v then 1 else 0

/-- The number of indices `i < size` with `image[i] = v`. -/
def pixel_count_eq (image : Buf Nat) (size v : Nat) : Nat :=
  ∑ i ∈ Finset.range size, if image i = v then 1 else 0

/-! ## Radix-2 FFT (`examples/fft_example.c`)

The components `re`, `im` of `complex_t` are `float` in the source; the embedding takes them
in an arbitrary commutative ring `R` (exact arithmetic).  The lengths and loop variables are
`int`; the only `int` expression that can leave the range of `int` for a power-of-two length
`n ≤ 2^30` is the product `j * n` of the twiddle index `j * n / m`, whose overflow is undefined
behaviour: the embedding returns `none` for it. -/

/-- The type `complex_t` of `fft_example.c`. -/
structure complex_t (R : Type) where
  re : R
  im : R

/-- The function `complex_add`. -/
def complex_add {R : Type} [CommRing R] (a b : complex_t R) : complex_t R :=
  { re := a.re + b.re, im := a.im + b.im }

/-- The function `complex_sub`. -/
def complex_sub {R : Type} [CommRing R] (a b : complex_t R) : complex_t R :=
  { re := a.re - b.re, im := a.im - b.im }

/-- The function `complex_mul`. -/
def complex_mul {R : Type} [CommRing R] (a b : complex_t R) : complex_t R :=
  { re := a.re * b.re - a.im * b.im, im := a.re * b.im + a.im * b.re }

/-- The function `bit_reverse`: `bits` times `result = (result << 1) | (x & 1); x >>= 1`.  The
state of the loop is the pair `(result, x)`. -/
def bit_reverse (x bits : Nat) : Nat :=
  (forRange 0 bits (fun _ s => (((s.1 <<< 1) ||| (s.2 &&& 1)), s.2 >>> 1)) (0, x)).1

/-- The loop `while (temp > 1) { bits++; temp >>= 1; }`, with the number of iterations bounded
by `fuel`; `temp` iterations are always enough. -/
def count_bits : Nat → Nat → Nat → Nat
  | 0, _, bits => bits
  | fuel + 1, temp, bits => if temp > 1 then count_bits fuel (temp >>> 1) (bits + 1) else bits

/-- The function `bit_reverse_array`; the result is the array after the call. -/
def bit_reverse_array {α : Type} (array : Buf α) (n : Nat) : Buf α :=
  let bits := count_bits n n 0
  forRange 0 n (fun i array =>
    let rev := bit_reverse i bits
    if i < rev then
      let tmp := array i
      let array := store array i (array rev)
      store array rev tmp
    else array) array

/-- The largest value of `int`. -/
def INT_MAX : Nat := 2147483647

/-- The `int` expression `j * n / m` that indexes the twiddle table; the product `j * n` must
fit in an `int`. -/
def twiddle_index (j n m : Nat) : Option Nat :=
  if j * n ≤ INT_MAX then some (j * n / m) else none

/-- One scalar butterfly on `x[k + j]` and `x[k + j + m2]` with the twiddle factor `w`. -/
def butterfly {R : Type} [CommRing R] (x : Buf (complex_t R)) (k j m2 : Nat) (w : complex_t R) :
    Buf (complex_t R) :=
  let t := complex_mul (x (k + j + m2)) w
  let u := x (k + j)
  let x := store x (k + j) (complex_add u t)
  store x (k + j + m2) (complex_sub u t)

/-- The function `fft_scalar`; the result is the array `x` after the call, or `none` when the
twiddle index overflows.  The bound `stage <= log2f(n)` is `stage ≤ ⌊log2 n⌋`. -/
def fft_scalar {R : Type} [CommRing R] (x : Buf (complex_t R)) (n : Nat)
    (twiddle : Buf (complex_t R)) : Option (Buf (complex_t R)) :=
  let x := bit_reverse_array x n
  forRangeM 1 (count_bits n n 0 + 1) (fun stage x =>
    let m := 1 <<< stage
    let m2 := m >>> 1
    forStepM 0 n m (fun k x =>
      forRangeM 0 m2 (fun j x =>
        (twiddle_index j n m).map (fun idx => butterfly x k j m2 (twiddle idx))) x) x) x

/-- The load `vld1q_f32((float*)&p[i])` from an array of `complex_t`: the four floats
`p[i].re, p[i].im, p[i+1].re, p[i+1].im`. -/
def vld1q_f32_complex {R : Type} (p : Buf (complex_t R)) (i : Nat) : Vec 4 R :=
  fun l => if l.val = 0 then (p i).re else if l.val = 1 then (p i).im
    else if l.val = 2 then (p (i + 1)).re else (p (i + 1)).im

/-- The store `vst1q_f32((float*)&p[i], v)` to an array of `complex_t`. -/
def vst1q_f32_complex {R : Type} (p : Buf (complex_t R)) (i : Nat) (v : Vec 4 R) :
    Buf (complex_t R) :=
  store (store p i { re := v 0, im := v 1 }) (i + 1) { re := v 2, im := v 3 }

/-- The intrinsic `vext_f32(a, b, 1)`: lanes 1 of `a` and 0 of `b`. -/
def vext_f32_1 {R : Type} (a b : Vec 2 R) : Vec 2 R := fun l => if l.val = 0 then a 1 else b 0

/-- The intrinsic `vcombine_f32`: the lanes of `lo` followed by the lanes of `hi`. -/
def vcombine_f32 {R : Type} (lo hi : Vec 2 R) : Vec 4 R :=
  fun l => if h : l.val < 2 then lo ⟨l.val, h⟩ else hi ⟨l.val - 2, by omega⟩

/-- The exclusive-or of every lane with the bit pattern of `-0.0f` (`veorq_u32` between the two
`vreinterpretq`): the sign of every lane is flipped. -/
def veorq_sign {R : Type} [CommRing R] (v : Vec 4 R) : Vec 4 R := fun l => -v l

/-- The intrinsic `vmulq_f32`. -/
def vmulq_f32 {R : Type} [Mul R] (a b : Vec 4 R) : Vec 4 R := fun l => a l * b l

/-- The intrinsic `vaddq_f32`. -/
def vaddq_f32 {R : Type} [Add R] (a b : Vec 4 R) : Vec 4 R := fun l => a l + b l

/-- The intrinsic `vsubq_f32`. -/
def vsubq_f32 {R : Type} [Sub R] (a b : Vec 4 R) : Vec 4 R := fun l => a l - b l

/-- The intrinsic `vtrn1q_f32`: lanes `a0, b0, a2, b2`. -/
def vtrn1q_f32 {R : Type} (a b : Vec 4 R) : Vec 4 R :=
  fun l => if l.val = 0 then a 0 else if l.val = 1 then b 0 else if l.val = 2 then a 2 else b 2

/-- The two butterflies that `fft_neon` computes at once, on `x[k+j], x[k+j+1]` and
`x[k+j+m2], x[k+j+m2+1]`, with the four floats loaded at `&twiddle[idx]`. -/
def butterfly_pair_neon {R : Type} [CommRing R] (x : Buf (complex_t R)) (k j m2 idx : Nat)
    (twiddle : Buf (complex_t R)) : Buf (complex_t R) :=
  let tw := vld1q_f32_complex twiddle idx
  let a := vld1q_f32_complex x (k + j)
  let b := vld1q_f32_complex x (k + j + m2)
  let tw_flip := vcombine_f32 (vext_f32_1 (vget_low4 tw) (vget_high4 tw))
    (vext_f32_1 (vget_low4 tw) (vget_high4 tw))
  let tw_conj := veorq_sign tw_flip
  let prod1 := vmulq_f32 b tw
  let prod2 := vmulq_f32 b tw_conj
  let prod := vtrn1q_f32 prod1 prod2
  let sum := vaddq_f32 a prod
  let diff := vsubq_f32 a prod
  let x := vst1q_f32_complex x (k + j) sum
  vst1q_f32_complex x (k + j + m2) diff

/-- The function `fft_neon`; the result is the array `x` after the call, or `none` when the
twiddle index overflows. -/
def fft_neon {R : Type} [CommRing R] (x : Buf (complex_t R)) (n : Nat)
    (twiddle : Buf (complex_t R)) : Option (Buf (complex_t R)) :=
  let x := bit_reverse_array x n
  forRangeM 1 (count_bits n n 0 + 1) (fun stage x =>
    let m := 1 <<< stage
    let m2 := m >>> 1
    forStepM 0 n m (fun k x =>
      forStepM 0 m2 2 (fun j x =>
        if j + 1 < m2 then
          (twiddle_index j n m).map (fun idx => butterfly_pair_neon x k j m2 idx twiddle)
        else
          (twiddle_index j n m).map (fun idx => butterfly x k j m2 (twiddle idx))) x) x) x

/-- The unit impulse `x[0] = (1, 0)`, `x[i] = (0, 0)` for `i > 0`. -/
def impulse {R : Type} [CommRing R] : Buf (complex_t R) :=
  fun i => if i = 0 then { re := 1, im := 0 } else { re := 0, im := 0 }

/-- The signal `[0, 1, 0, 0, ...]` with integer components. -/
def shifted_impulse : Buf (complex_t Int) :=
  fun i => if i = 1 then { re := 1, im := 0 } else { re := 0, im := 0 }

/-- The exact twiddle table `e^{-2 pi i k / 4}`, `k = 0, 1`, of a transform of length 4:
`(1, 0)` and `(0, -1)`. -/
def twiddle4 : Buf (complex_t Int) :=
  fun k => if k = 0 then { re := 1, im := 0 } else { re := 0, im := -1 }

/-- One stage of `fft_scalar` (the body of the stage loop) with the twiddle index `j * n / m`
taken in the natural numbers, that is, when the product does not overflow. -/
def fft_stage {R : Type} [CommRing R] (x : Buf (complex_t R)) (n : Nat)
    (twiddle : Buf (complex_t R)) (stage : Nat) : Buf (complex_t R) :=
  let m := 1 <<< stage
  let m2 := m >>> 1
  forStep 0 n m (fun k x =>
    forRange 0 m2 (fun j x => butterfly x k j m2 (twiddle (j * n / m))) x) x

/-- The signal with `(1, 0)` in the bins below `c` and `(0, 0)` from `c` on. -/
def ones_below {R : Type} [CommRing R] (c : Nat) : Buf (complex_t R) :=
  fun i => if i < c then { re := 1, im := 0 } else { re := 0, im := 0 }

/-- A `complex_t` with real components read as a complex number. -/
def toComplex (c : complex_t ℝ) : ℂ := { re := c.re, im := c.im }

/-! ## Elementwise float kernels and integer products (`src/simd_ops.c`)

The `float` kernels are written over a type `F` with an addition, a multiplication and a
zero of which no law is assumed: every float32 operation of the source is one application
of the corresponding operation of `F`, so two results that are equal here are produced by
the same operations on the same operands in the same order. -/

/-- The function `simd_add_f32`. -/
def simd_add_f32 {F : Type} [Add F] (a b c : Buf F) (len : Nat) : Buf F :=
  let vec_size := len / 4
  let c1 := forRange 0 vec_size (fun i c =>
    let va := vld1 4 a (i * 4)
    let vb := vld1 4 b (i * 4)
    let vc := vaddq_f32 va vb
    vst1 c (i * 4) vc) c
  forRange (vec_size * 4) len (fun i c => store c i (a i + b i)) c1

/-- The function `simd_mul_f32`. -/
def simd_mul_f32 {F : Type} [Mul F] (a b c : Buf F) (len : Nat) : Buf F :=
  let vec_size := len / 4
  let c1 := forRange 0 vec_size (fun i c =>
    let va := vld1 4 a (i * 4)
    let vb := vld1 4 b (i * 4)
    let vc := vmulq_f32 va vb
    vst1 c (i * 4) vc) c
  forRange (vec_size * 4) len (fun i c => store c i (a i * b i)) c1

/-- The intrinsic `vmulq_s32`: four lanes, each the low 32 bits of the product. -/
def vmulq_s32 (va vb : Vec 4 Int) : Vec 4 Int := fun l => wrapS32 (va l * vb l)

/-- The intrinsic `vmulq_s16`: eight lanes, each the low 16 bits of the product. -/
def vmulq_s16 (va vb : Vec 8 Int) : Vec 8 Int := fun l => wrapS16 (va l * vb l)

/-- The function `simd_mul_s32`.  The lanes of `vmulq_s32` wrap; the tail statement
`c[i] = a[i] * b[i]` multiplies two `int32_t` in `int`, which is undefined when the
product overflows: the result is then `none`. -/
def simd_mul_s32 (a b c : Buf Int) (len : Nat) : Option (Buf Int) :=
  let vec_size := len / 4
  let c1 := forRange 0 vec_size (fun i c =>
    let va := vld1 4 a (i * 4)
    let vb := vld1 4 b (i * 4)
    let vc := vmulq_s32 va vb
    vst1 c (i * 4) vc) c
  forRangeM (vec_size * 4) len (fun i c =>
    if in_int32 (a i * b i) then some (store c i (a i * b i)) else none) c1

/-- The function `simd_mul_s16`; the tail product is computed in `int` and converted to
`int16_t` by the store. -/
def simd_mul_s16 (a b c : Buf Int) (len : Nat) : Buf Int :=
  let vec_size := len / 8
  let c1 := forRange 0 vec_size (fun i c =>
    let va := vld1 8 a (i * 8)
    let vb := vld1 8 b (i * 8)
    let vc := vmulq_s16 va vb
    vst1 c (i * 8) vc) c
  forRange (vec_size * 8) len (fun i c => store c i (wrapS16 (a i * b i))) c1

/-- The scalar elementwise product in the words of the specification: every `c[i]` with
`i < len` receives the product truncated to `int32_t` (its low 32 bits). -/
def scalar_mul_s32_spec (a b c : Buf Int) (len : Nat) : Buf Int :=
  forRange 0 len (fun i c => store c i (wrapS32 (a i * b i))) c

/-- The scalar elementwise product truncated to `int16_t`, one element at a time. -/
def scalar_mul_s16_spec (a b c : Buf Int) (len : Nat) : Buf Int :=
  forRange 0 len (fun i c => store c i (wrapS16 (a i * b i))) c

/-- The reference `scalar_add_f32` of `tests/test_basic_ops.c`. -/
def scalar_add_f32 {F : Type} [Add F] (a b c : Buf F) (len : Nat) : Buf F :=
  forRange 0 len (fun i c => store c i (a i + b i)) c

/-- The reference `scalar_mul_f32` of `tests/test_basic_ops.c`. -/
def scalar_mul_f32 {F : Type} [Mul F] (a b c : Buf F) (len : Nat) : Buf F :=
  forRange 0 len (fun i c => store c i (a i * b i)) c

/-! ## Float dot product (`src/simd_ops.c`, `tests/test_basic_ops.c`) -/

/-- The intrinsic `vdupq_n_f32`. -/
def vdupq_n_f32 {F : Type} (x : F) : Vec 4 F := fun _ => x

/-- The intrinsic `vmlaq_f32`: `acc + va * vb` lane by lane. -/
def vmlaq_f32 {F : Type} [Add F] [Mul F] (acc va vb : Vec 4 F) : Vec 4 F :=
  fun l => acc l + va l * vb l

/-- The intrinsic `vadd_f32` on two lanes. -/
def vadd_f32 {F : Type} [Add F] (va vb : Vec 2 F) : Vec 2 F := fun l => va l + vb l

/-- The intrinsic `vpadd_f32`: lane 0 is the sum of the two lanes of `va`, lane 1 the sum
of the two lanes of `vb`. -/
def vpadd_f32 {F : Type} [Add F] (va vb : Vec 2 F) : Vec 2 F :=
  fun l => if l.val = 0 then va 0 + va 1 else vb 0 + vb 1

/-- The function `simd_dot_product_f32`. -/
def simd_dot_product_f32 {F : Type} [Add F] [Mul F] [Zero F] (a b : Buf F) (len : Nat) : F :=
  let sum_vec := vdupq_n_f32 (0 : F)
  let vec_size := len / 4
  let sum_vec := forRange 0 vec_size (fun i sum_vec =>
    let va := vld1 4 a (i * 4)
    let vb := vld1 4 b (i * 4)
    vmlaq_f32 sum_vec va vb) sum_vec
  let sum_2 := vadd_f32 (vget_low4 sum_vec) (vget_high4 sum_vec)
  let sum_2 := vpadd_f32 sum_2 sum_2
  let sum := sum_2 0
  forRange (vec_size * 4) len (fun i sum => sum + a i * b i) sum

/-- The reference `scalar_dot_product_f32` of `tests/test_basic_ops.c`. -/
def scalar_dot_product_f32 {F : Type} [Add F] [Mul F] [Zero F] (a b : Buf F) (len : Nat) : F :=
  forRange 0 len (fun i sum => sum + a i * b i) (0 : F)

/-! ## Binary32 arithmetic on integer values

To evaluate the float kernels on concrete inputs, `binary32` holds a float32 number whose
value is an integer. The sum and the product of two such numbers are integers, rounded to
the nearest number with a 24-bit significand, ties to even (the default IEEE-754 rounding
of `float` addition and multiplication); magnitudes stay below `2^128`, so no operation
overflows. -/

/-- A float32 number with an integer value. -/
structure binary32 where
  /-- The value of the number. -/
  val : Int
deriving DecidableEq

/-- The spacing of float32 numbers around the magnitude `m`: 1 below `2^24`, doubling with
every further binary digit. -/
def binary32_ulp : Nat → Nat → Nat
  | 0, _ => 1
  | fuel + 1, m => if m < 16777216 then 1 else 2 * binary32_ulp fuel (m / 2)

/-- Round an integer to the nearest float32 number, ties to the even significand. -/
def binary32_round (x : Int) : Int :=
  let m := x.natAbs
  let q := binary32_ulp 128 m
  let lo := m / q
  let r := m % q
  let up := if q < 2 * r ∨ (2 * r = q ∧ lo % 2 = 1) then lo + 1 else lo
  if x < 0 then -((up * q : Nat) : Int) else ((up * q : Nat) : Int)

instance : Add binary32 := ⟨fun x y => ⟨binary32_round (x.val + y.val)⟩⟩

instance : Mul binary32 := ⟨fun x y => ⟨binary32_round (x.val * y.val)⟩⟩

instance : Zero binary32 := ⟨⟨0⟩⟩

/-- The array `[2^24, 1, 0, 0, -2^24, 0, 0, 0]`. -/
def cancel_a : Buf binary32 :=
  fun i => if i = 0 then ⟨16777216⟩ else if i = 1 then ⟨1⟩ else if i = 4 then ⟨-16777216⟩ else ⟨0⟩

/-- The array of ones. -/
def cancel_b : Buf binary32 := fun _ => ⟨1⟩

/-! ## Matrix multiplication (`examples/matrix_multiply.c`)

A matrix is its row-major data buffer with its two dimensions. The multiplication functions
return the result matrix together with a flag that is `true` when the error message was
printed. Element operations are those of a type `F` as for the float kernels. -/

/-- The struct `matrix_t`. -/
structure matrix_t (F : Type) where
  /-- The elements, row after row. -/
  data : Buf F
  /-- The number of rows. -/
  rows : Nat
  /-- The number of columns. -/
  cols : Nat

/-- The function `matrix_multiply_scalar`. -/
def matrix_multiply_scalar {F : Type} [Add F] [Mul F] [Zero F] (a b c : matrix_t F) :
    matrix_t F × Bool :=
  if a.cols ≠ b.rows ∨ c.rows ≠ a.rows ∨ c.cols ≠ b.cols then
    (c, true)
  else
    let data := forRange 0 a.rows (fun i data =>
      forRange 0 b.cols (fun j data =>
        let sum := forRange 0 a.cols (fun k sum =>
          sum + a.data (i * a.cols + k) * b.data (k * b.cols + j)) (0 : F)
        store data (i * c.cols + j) sum) data) c.data
    ({ c with data := data }, false)

/-- The function `matrix_multiply_neon`. The column loop advances by 4; the iteration that
finds fewer than 4 columns left runs the scalar remainder and breaks, and it is the last
iteration of the loop in any case, since the next column index is past `b.cols`. -/
def matrix_multiply_neon {F : Type} [Add F] [Mul F] [Zero F] (a b c : matrix_t F) :
    matrix_t F × Bool :=
  if a.cols ≠ b.rows ∨ c.rows ≠ a.rows ∨ c.cols ≠ b.cols then
    (c, true)
  else
    let data := forRange 0 a.rows (fun i data =>
      forStep 0 b.cols 4 (fun j data =>
        if j + 4 > b.cols then
          forRange j b.cols (fun jj data =>
            let sum := forRange 0 a.cols (fun k sum =>
              sum + a.data (i * a.cols + k) * b.data (k * b.cols + jj)) (0 : F)
            store data (i * c.cols + jj) sum) data
        else
          let sum_vec := forRange 0 a.cols (fun k sum_vec =>
            let a_elem := vdupq_n_f32 (a.data (i * a.cols + k))
            let b_elems := vld1 4 b.data (k * b.cols + j)
            vmlaq_f32 sum_vec a_elem b_elems) (vdupq_n_f32 (0 : F))
          vst1 data (i * c.cols + j) sum_vec) data) c.data
    ({ c with data := data }, false)

/-- The element `(i, j)` of a product as the text of the claims describes it: the sum of
`A[i][k] * B[k][j]` accumulated from 0 in ascending `k`. -/
def matrix_entry_spec {F : Type} [Add F] [Mul F] [Zero F] (a b : matrix_t F) (i j : Nat) : F :=
  forLoop a.cols 0 (fun k sum => sum + a.data (i * a.cols + k) * b.data (k * b.cols + j)) (0 : F)

/-! ## FFT command line (`examples/fft_example.c`, `main`) -/

/-- The size handling at the start of `main` of the FFT example: `have_arg` tells whether a
size was given on the command line, `arg` is its value, and `log2_size` the value the
program computed for `(int)log2f(fft_size)`. The result is `none` when the shift
`1 << log2_size` overflows `int`; else it is the exit status 1 when the error message is
printed, or the size the program goes on with. -/
def fft_main_size (have_arg : Bool) (arg log2_size : Nat) : Option (Except Nat Nat) :=
  let fft_size := 1024
  if have_arg then
    let fft_size := arg
    if log2_size ≤ 30 then
      if fft_size ≠ 1 <<< log2_size then some (Except.error 1) else some (Except.ok fft_size)
    else none
  else some (Except.ok fft_size)

/-- A twiddle table whose entries are all 1: the entry 0 of every table that
`generate_twiddle_factors` fills is `cos 0 = 1`, `sin 0 = 0`. -/
def twiddle_one : Buf (complex_t Int) := fun _ => { re := 1, im := 0 }

/-- The signal `1, 2, 3, 4, ...` with zero imaginary parts. -/
def ramp : Buf (complex_t Int) := fun i => { re := (i : Int) + 1, im := 0 }

/-- A 2 x 3 matrix with the entries 1, 2, ..., 6. -/
def example_a : matrix_t Int := { data := fun q => (q : Int) + 1, rows := 2, cols := 3 }

/-- A 3 x 5 matrix with the entries 0, 1, ..., 14: one column group of 4 and a remainder
of one column. -/
def example_b : matrix_t Int := { data := fun q => (q : Int), rows := 3, cols := 5 }

/-- A 2 x 5 result matrix filled with 99. -/
def example_c : matrix_t Int := { data := fun _ => 99, rows := 2, cols := 5 }

/-- The 2 x 2 identity matrix. -/
def example_identity : matrix_t Int :=
  { data := fun q => if q = 0 ∨ q = 3 then 1 else 0, rows := 2, cols := 2 }

/-- A 2 x 2 matrix with the entries 5, 6, 7, 8. -/
def example_m : matrix_t Int := { data := fun q => (q : Int) + 5, rows := 2, cols := 2 }

/-- A 2 x 2 result matrix filled with 99. -/
def example_c2 : matrix_t Int := { data := fun _ => 99, rows := 2, cols := 2 }

/-! ## Sobel edge detection (`examples/sobel_edge.c`)

Dimensions are natural numbers as for the box blur. The gradients are `int` in the scalar
code and in the tail (at most `4 * 255` in magnitude, no overflow) and `int16_t` lanes in the
8-wide loop. The call `sqrt(gx * gx + gy * gy)` converted to `int` is the integer square
root `Nat.sqrt`: the argument is an integer below `2^22`, exactly representable as a
`double`, and the correctly rounded square root of such a number, truncated, is the floor
of the real square root. -/

/-- The table `sobel_x`. -/
def sobel_x (r c : Nat) : Int :=
  match r, c with
  | 0, 0 => -1 | 0, 1 => 0 | 0, 2 => 1
  | 1, 0 => -2 | 1, 1 => 0 | 1, 2 => 2
  | 2, 0 => -1 | 2, 1 => 0 | 2, 2 => 1
  | _, _ => 0

/-- The table `sobel_y`. -/
def sobel_y (r c : Nat) : Int :=
  match r, c with
  | 0, 0 => -1 | 0, 1 => -2 | 0, 2 => -1
  | 1, 0 => 0 | 1, 1 => 0 | 1, 2 => 0
  | 2, 0 => 1 | 2, 1 => 2 | 2, 2 => 1
  | _, _ => 0

/-- The two kernel loops of `scalar_sobel_edge` at pixel `(y, x)`: the pair `(gx, gy)`. -/
def scalar_sobel_gradient (input : Buf Nat) (width y x : Nat) : Int × Int :=
  forRange 0 3 (fun ky g =>
    forRange 0 3 (fun kx g =>
      let pixel : Int := (input ((y + ky - 1) * width + (x + kx - 1)) : Nat)
      (g.1 + pixel * sobel_x ky kx, g.2 + pixel * sobel_y ky kx)) g) ((0 : Int), (0 : Int))

/-- The magnitude of `scalar_sobel_edge`: `sqrt(gx * gx + gy * gy)` converted to `int`, then
clamped to 255. -/
def scalar_sobel_magnitude (g : Int × Int) : Nat :=
  let magnitude := Nat.sqrt (g.1 * g.1 + g.2 * g.2).toNat
  if magnitude > 255 then 255 else magnitude

/-- The first loop nest of `scalar_sobel_edge`. -/
def scalar_sobel_rows (input output : Buf Nat) (width height : Nat) : Buf Nat :=
  forRange 1 (height - 1) (fun y output =>
    forRange 1 (width - 1) (fun x output =>
      let magnitude := scalar_sobel_magnitude (scalar_sobel_gradient input width y x)
      store output (y * width + x) (wrapU8 magnitude)) output) output

/-- The two border loops that end `scalar_sobel_edge` and `neon_sobel_edge` (the same text in
both): top and bottom row, then left and right column, set to 0. -/
def sobel_zero_border (output : Buf Nat) (width height : Nat) : Buf Nat :=
  let output := forRange 0 width (fun x output =>
    let output := store output x 0
    store output ((height - 1) * width + x) 0) output
  forRange 1 (height - 1) (fun y output =>
    let output := store output (y * width) 0
    store output (y * width + width - 1) 0) output

/-- The function `scalar_sobel_edge`; the result is the buffer `output` after the call. -/
def scalar_sobel_edge (input output : Buf Nat) (width height : Nat) : Buf Nat :=
  sobel_zero_border (scalar_sobel_rows input output width height) width height

/-- The intrinsic `vext_u8(a, b, n)`: the lanes `n .. 7` of `a` followed by the lanes
`0 .. n - 1` of `b`. -/
def vext_u8 (a b : Vec 8 Nat) (n : Nat) : Vec 8 Nat :=
  fun l => if h : l.val + n < 8 then a ⟨l.val + n, h⟩
    else b ⟨(l.val + n - 8) % 8, Nat.mod_lt _ (by decide)⟩

/-- The intrinsic `vmovl_u8`: each byte zero-extended to a 16-bit lane. -/
def vmovl_u8 (v : Vec 8 Nat) : Vec 8 Nat := fun l => v l

/-- The intrinsic `vreinterpretq_s16_u16`: the same 16 bits read as a signed number. -/
def vreinterpretq_s16_u16 (v : Vec 8 Nat) : Vec 8 Int := fun l => wrapS16 (v l : Nat)

/-- The intrinsic `vnegq_s16`. -/
def vnegq_s16 (v : Vec 8 Int) : Vec 8 Int := fun l => wrapS16 (-v l)

/-- The intrinsic `vsubq_s16`: lane-wise subtraction modulo `2^16`. -/
def vsubq_s16 (va vb : Vec 8 Int) : Vec 8 Int := fun l => wrapS16 (va l - vb l)

/-- The intrinsic `vshlq_n_s16`: lane-wise shift left by `n` bits, modulo `2^16`. -/
def vshlq_n_s16 (v : Vec 8 Int) (n : Nat) : Vec 8 Int := fun l => wrapS16 (v l * 2 ^ n)

/-- The intrinsic `vabsq_s16`: lane-wise absolute value (of `-2^15` it is `-2^15`). -/
def vabsq_s16 (v : Vec 8 Int) : Vec 8 Int := fun l => wrapS16 ((v l).natAbs : Nat)

/-- The intrinsic `vshrq_n_s16`: lane-wise arithmetic shift right by `n` bits. -/
def vshrq_n_s16 (v : Vec 8 Int) (n : Nat) : Vec 8 Int := fun l => v l >>> n

/-- The intrinsic `vqmovun_s16`: each signed 16-bit lane saturated to `0 .. 255`. -/
def vqmovun_s16 (v : Vec 8 Int) : Vec 8 Nat :=
  fun l => if v l < 0 then 0 else if v l > 255 then 255 else (v l).toNat

/-- The body of the 8-wide loop of `neon_sobel_edge` for the pixels `x, ..., x + 7` of row
`y`: the eight result bytes. -/
def neon_sobel_vec (input : Buf Nat) (width y x : Nat) : Vec 8 Nat :=
  let top_row := vld1 16 input ((y - 1) * width + (x - 1))
  let mid_row := vld1 16 input (y * width + (x - 1))
  let bot_row := vld1 16 input ((y + 1) * width + (x - 1))
  let top_left := vget_low16 top_row
  let top_right := vext_u8 (vget_low16 top_row) (vget_high16 top_row) 1
  let top_more_right := vext_u8 (vget_low16 top_row) (vget_high16 top_row) 2
  let mid_left := vget_low16 mid_row
  let mid_more_right := vext_u8 (vget_low16 mid_row) (vget_high16 mid_row) 2
  let bot_left := vget_low16 bot_row
  let bot_right := vext_u8 (vget_low16 bot_row) (vget_high16 bot_row) 1
  let bot_more_right := vext_u8 (vget_low16 bot_row) (vget_high16 bot_row) 2
  let top_left_16 := vreinterpretq_s16_u16 (vmovl_u8 top_left)
  let top_right_16 := vreinterpretq_s16_u16 (vmovl_u8 top_right)
  let top_more_right_16 := vreinterpretq_s16_u16 (vmovl_u8 top_more_right)
  let mid_left_16 := vreinterpretq_s16_u16 (vmovl_u8 mid_left)
  let mid_more_right_16 := vreinterpretq_s16_u16 (vmovl_u8 mid_more_right)
  let bot_left_16 := vreinterpretq_s16_u16 (vmovl_u8 bot_left)
  let bot_right_16 := vreinterpretq_s16_u16 (vmovl_u8 bot_right)
  let bot_more_right_16 := vreinterpretq_s16_u16 (vmovl_u8 bot_more_right)
  let gx := vnegq_s16 top_left_16
  let gx := vaddq_s16 gx top_more_right_16
  let gx := vsubq_s16 gx (vshlq_n_s16 mid_left_16 1)
  let gx := vaddq_s16 gx (vshlq_n_s16 mid_more_right_16 1)
  let gx := vsubq_s16 gx bot_left_16
  let gx := vaddq_s16 gx bot_more_right_16
  let gy := vnegq_s16 top_left_16
  let gy := vsubq_s16 gy (vshlq_n_s16 top_right_16 1)
  let gy := vsubq_s16 gy top_more_right_16
  let gy := vaddq_s16 gy bot_left_16
  let gy := vaddq_s16 gy (vshlq_n_s16 bot_right_16 1)
  let gy := vaddq_s16 gy bot_more_right_16
  let abs_gx := vabsq_s16 gx
  let abs_gy := vabsq_s16 gy
  let sum := vaddq_s16 abs_gx abs_gy
  let sum := vshrq_n_s16 sum 1
  vqmovun_s16 sum

/-- The body of the tail loop of `neon_sobel_edge` at pixel `(y, x)`: the stored byte. -/
def neon_sobel_tail (input : Buf Nat) (width y x : Nat) : Nat :=
  let gx : Int := 0
  let gy : Int := 0
  let gx := gx - (input ((y - 1) * width + (x - 1)) : Nat)
  let gx := gx + (input ((y - 1) * width + (x + 1)) : Nat)
  let gx := gx - 2 * (input (y * width + (x - 1)) : Nat)
  let gx := gx + 2 * (input (y * width + (x + 1)) : Nat)
  let gx := gx - (input ((y + 1) * width + (x - 1)) : Nat)
  let gx := gx + (input ((y + 1) * width + (x + 1)) : Nat)
  let gy := gy - (input ((y - 1) * width + (x - 1)) : Nat)
  let gy := gy - 2 * (input ((y - 1) * width + x) : Nat)
  let gy := gy - (input ((y - 1) * width + (x + 1)) : Nat)
  let gy := gy + (input ((y + 1) * width + (x - 1)) : Nat)
  let gy := gy + 2 * (input ((y + 1) * width + x) : Nat)
  let gy := gy + (input ((y + 1) * width + (x + 1)) : Nat)
  let magnitude := (gx.natAbs + gy.natAbs) >>> 1
  let magnitude := if magnitude > 255 then 255 else magnitude
  wrapU8 magnitude

/-- The first loop nest of `neon_sobel_edge`: for each interior row the 8-wide loop, then the
tail loop. -/
def neon_sobel_rows (input output : Buf Nat) (width height : Nat) : Buf Nat :=
  forRange 1 (height - 1) (fun y output =>
    let output := forStep 1 (width - 9) 8 (fun x output =>
      vst1 output (y * width + x) (neon_sobel_vec input width y x)) output
    forRange (width - (width - 1) % 8) (width - 1) (fun x output =>
      store output (y * width + x) (neon_sobel_tail input width y x)) output) output

/-- The function `neon_sobel_edge`; the result is the buffer `output` after the call. -/
def neon_sobel_edge (input output : Buf Nat) (width height : Nat) : Buf Nat :=
  sobel_zero_border (neon_sobel_rows input output width height) width height

/-- A 3 x 3 image whose right column is 25 and whose other pixels are 0. -/
def edge_image_3 : Buf Nat := fun p => if p % 3 = 2 then 25 else 0

/-- An 11 x 3 image whose columns 5 to 10 are 25 and whose columns 0 to 4 are 0. -/
def edge_image_11 : Buf Nat := fun p => if p % 11 ≥ 5 then 25 else 0

/-- The image of the given width that is 0 everywhere except for the value `v` at pixel
`(py, px)`. -/
def single_pixel_image (width py px v : Nat) : Buf Nat :=
  fun p => if p = py * width + px then v else 0

/-! ## Comparisons, square root and interleaving (`src/simd_ops.c`)

The float comparisons `>` and `==` are an order relation and a Boolean equality test on the
type `F` of which no law is assumed. The reciprocal square root estimate of `vrsqrteq_f32`
and the library function `sqrtf` are parameters of `simd_sqrt_f32`, as are the constants
`3.0f` and `0.5f`. -/

/-- The intrinsic `vcgtq_f32`: a lane is all ones where `va > vb`, else zero. -/
def vcgtq_f32 {F : Type} [LT F] [DecidableRel (fun (x y : F) => x < y)] (va vb : Vec 4 F) :
    Vec 4 Nat :=
  fun l => if va l > vb l then 4294967295 else 0

/-- The intrinsic `vceqq_f32`: a lane is all ones where `va == vb`, else zero. -/
def vceqq_f32 {F : Type} [BEq F] (va vb : Vec 4 F) : Vec 4 Nat :=
  fun l => if va l == vb l then 4294967295 else 0

/-- The function `simd_cmpgt_f32`. -/
def simd_cmpgt_f32 {F : Type} [LT F] [DecidableRel (fun (x y : F) => x < y)]
    (a b : Buf F) (result : Buf Nat) (len : Nat) : Buf Nat :=
  let vec_size := len / 4
  let result := forRange 0 vec_size (fun i result =>
    let va := vld1 4 a (i * 4)
    let vb := vld1 4 b (i * 4)
    let vcmp := vcgtq_f32 va vb
    vst1 result (i * 4) vcmp) result
  forRange (vec_size * 4) len (fun i result =>
    store result i (if a i > b i then 4294967295 else 0)) result

/-- The function `simd_cmpeq_f32`. -/
def simd_cmpeq_f32 {F : Type} [BEq F] (a b : Buf F) (result : Buf Nat) (len : Nat) : Buf Nat :=
  let vec_size := len / 4
  let result := forRange 0 vec_size (fun i result =>
    let va := vld1 4 a (i * 4)
    let vb := vld1 4 b (i * 4)
    let vcmp := vceqq_f32 va vb
    vst1 result (i * 4) vcmp) result
  forRange (vec_size * 4) len (fun i result =>
    store result i (if a i == b i then 4294967295 else 0)) result

/-- The intrinsic `vrsqrteq_f32`, the estimate of one lane being `rsqrte`. -/
def vrsqrteq_f32 {F : Type} (rsqrte : F → F) (v : Vec 4 F) : Vec 4 F := fun l => rsqrte (v l)

/-- The function `simd_sqrt_f32`. -/
def simd_sqrt_f32 {F : Type} [Mul F] [Sub F] (rsqrte sqrtf : F → F) (three half : F)
    (a c : Buf F) (len : Nat) : Buf F :=
  let vec_size := len / 4
  let c := forRange 0 vec_size (fun i c =>
    let va := vld1 4 a (i * 4)
    let vrsqrte := vrsqrteq_f32 rsqrte va
    let vrsqrte_x2 := vmulq_f32 vrsqrte vrsqrte
    let vrsqrte_x2_times_a := vmulq_f32 va vrsqrte_x2
    let vthree_minus := vsubq_f32 (vdupq_n_f32 three) vrsqrte_x2_times_a
    let vbetter_rsqrte := vmulq_f32 vrsqrte (vmulq_f32 vthree_minus (vdupq_n_f32 half))
    let vc := vmulq_f32 va vbetter_rsqrte
    vst1 c (i * 4) vc) c
  forRange (vec_size * 4) len (fun i c => store c i (sqrtf (a i))) c

/-- The approximation as the text of the claims describes it: the estimate `r` of the
reciprocal square root of `x`, one Newton-Raphson step `r * ((3 - x * r^2) / 2)`, and the
result `x` times the improved estimate. -/
def sqrt_newton_spec {F : Type} [Mul F] [Sub F] (rsqrte : F → F) (three half : F) (x : F) : F :=
  x * (rsqrte x * ((three - x * (rsqrte x * rsqrte x)) * half))

/-- The expressions built from the inputs with the operations of `simd_sqrt_f32`. -/
inductive sqrt_term where
  | input (i : Nat) : sqrt_term
  | three : sqrt_term
  | half : sqrt_term
  | mul (x y : sqrt_term) : sqrt_term
  | sub (x y : sqrt_term) : sqrt_term
  | rsqrte (x : sqrt_term) : sqrt_term
  | sqrtf (x : sqrt_term) : sqrt_term
deriving DecidableEq

instance : Mul sqrt_term := ⟨sqrt_term.mul⟩

instance : Sub sqrt_term := ⟨sqrt_term.sub⟩

/-- The intrinsic `vdup_lane_f32`: both lanes set to the lane `lane` of `v`. -/
def vdup_lane_f32 {F : Type} (v : Vec 2 F) (lane : Fin 2) : Vec 2 F := fun _ => v lane

/-- The intrinsic `vzip1_f32`: lane 0 of `a`, then lane 0 of `b`. -/
def vzip1_f32 {F : Type} (a b : Vec 2 F) : Vec 2 F := fun l => if l.val = 0 then a 0 else b 0

/-- The function `simd_interleave_even_f32`. -/
def simd_interleave_even_f32 {F : Type} (a b c : Buf F) (len : Nat) : Buf F :=
  let vec_pairs := len / 4
  let c := forRange 0 vec_pairs (fun i c =>
    let va := vld1 4 a (i * 4)
    let vb := vld1 4 b (i * 4)
    let va_even := vget_low4 va
    let vb_even := vget_low4 vb
    let va_0 := vdup_lane_f32 va_even 0
    let vb_0 := vdup_lane_f32 vb_even 0
    let vinterleave_0 := vzip1_f32 va_0 vb_0
    let va_2 := vdup_lane_f32 va_even 1
    let vb_2 := vdup_lane_f32 vb_even 1
    let vinterleave_2 := vzip1_f32 va_2 vb_2
    let c := vst1 c (i * 4) vinterleave_0
    vst1 c (i * 4 + 2) vinterleave_2) c
  let remaining_start := vec_pairs * 4
  forRange (remaining_start / 2) (len / 2) (fun i c =>
    let c := store c (i * 2) (a i)
    store c (i * 2 + 1) (b i)) c

/-- The function `simd_interleave_odd_f32`. -/
def simd_interleave_odd_f32 {F : Type} (a b c : Buf F) (len : Nat) : Buf F :=
  let vec_pairs := len / 4
  let c := forRange 0 vec_pairs (fun i c =>
    let va := vld1 4 a (i * 4)
    let vb := vld1 4 b (i * 4)
    let va_odd := vget_high4 va
    let vb_odd := vget_high4 vb
    let va_1 := vdup_lane_f32 va_odd 0
    let vb_1 := vdup_lane_f32 vb_odd 0
    let vinterleave_1 := vzip1_f32 va_1 vb_1
    let va_3 := vdup_lane_f32 va_odd 1
    let vb_3 := vdup_lane_f32 vb_odd 1
    let vinterleave_3 := vzip1_f32 va_3 vb_3
    let c := vst1 c (i * 4) vinterleave_1
    vst1 c (i * 4 + 2) vinterleave_3) c
  let remaining_start := vec_pairs * 4
  forRange (remaining_start / 2) (len / 2) (fun i c =>
    if 2 * i + 1 < len then
      let c := store c (i * 2) (a (2 * i + 1))
      store c (i * 2 + 1) (b (2 * i + 1))
    else c) c

/-- The response of the kernel `[-1 0 1; -2 0 2; -1 0 1]` on the 3 x 3 neighbourhood of
pixel `(y, x)`, as the text of the claims describes `Gx`. -/
def sobel_gx_spec (input : Buf Nat) (width y x : Nat) : Int :=
  -(input ((y - 1) * width + (x - 1)) : Int) + (input ((y - 1) * width + (x + 1)) : Int)
    - 2 * (input (y * width + (x - 1)) : Int) + 2 * (input (y * width + (x + 1)) : Int)
    - (input ((y + 1) * width + (x - 1)) : Int) + (input ((y + 1) * width + (x + 1)) : Int)

/-- The response of the kernel `[-1 -2 -1; 0 0 0; 1 2 1]` on the 3 x 3 neighbourhood of
pixel `(y, x)`, as the text of the claims describes `Gy`. -/
def sobel_gy_spec (input : Buf Nat) (width y x : Nat) : Int :=
  -(input ((y - 1) * width + (x - 1)) : Int) - 2 * (input ((y - 1) * width + x) : Int)
    - (input ((y - 1) * width + (x + 1)) : Int)
    + (input ((y + 1) * width + (x - 1)) : Int) + 2 * (input ((y + 1) * width + x) : Int)
    + (input ((y + 1) * width + (x + 1)) : Int)

/-- The sum of the nine pixels of the 3 x 3 neighbourhood of pixel `(y, x)`, as the text of
the claims describes `S`. -/
def neighbourhood_sum_spec (input : Buf Nat) (width y x : Nat) : Nat :=
  input ((y - 1) * width + (x - 1)) + input ((y - 1) * width + x)
    + input ((y - 1) * width + (x + 1))
    + input (y * width + (x - 1)) + input (y * width + x) + input (y * width + (x + 1))
    + input ((y + 1) * width + (x - 1)) + input ((y + 1) * width + x)
    + input ((y + 1) * width + (x + 1))

/-- The indices of `input` that `neon_sobel_edge` reads, in program order: in each interior
row the three 16-byte loads `vld1q_u8` of every iteration of the 8-wide loop, then the
twelve element reads of every iteration of the tail loop. The border loops read nothing. -/
def neon_sobel_reads (width height : Nat) : List Nat :=
  forRange 1 (height - 1) (fun y reads =>
    let reads := forStep 1 (width - 9) 8 (fun x reads =>
      reads ++ (List.range 16).map (fun l => (y - 1) * width + (x - 1) + l)
        ++ (List.range 16).map (fun l => y * width + (x - 1) + l)
        ++ (List.range 16).map (fun l => (y + 1) * width + (x - 1) + l)) reads
    forRange (width - (width - 1) % 8) (width - 1) (fun x reads =>
      reads ++ [(y - 1) * width + (x - 1), (y - 1) * width + (x + 1),
        y * width + (x - 1), y * width + (x + 1),
        (y + 1) * width + (x - 1), (y + 1) * width + (x + 1),
        (y - 1) * width + (x - 1), (y - 1) * width + x, (y - 1) * width + (x + 1),
        (y + 1) * width + (x - 1), (y + 1) * width + x, (y + 1) * width + (x + 1)]) reads) []

/-- The columns of an interior row that `neon_sobel_edge` stores to: the columns
`1 .. 8 * n` of the `n` lane groups of the loop `for (x = 1; x < width - 9; x += 8)` and
the columns of the tail loop `for (x = width - (width - 1) % 8; x < width - 1; x++)`. -/
def neon_sobel_writes_column (width x : Nat) : Prop :=
  (1 ≤ x ∧ x ≤ 8 * ((width - 9 - 1 + 8 - 1) / 8))
    ∨ (width - (width - 1) % 8 ≤ x ∧ x + 1 < width)

instance (width x : Nat) : Decidable (neon_sobel_writes_column width x) := by
  unfold neon_sobel_writes_column
  infer_instance

/-- The columns of an interior row that `simd_blur_gray_3x3` / `neon_blur_gray_3x3` stores
to: the columns `1 .. 8 * n` of the `n` lane groups of the loop
`for (x = 1; x < width - 8; x += 8)` and the columns of the tail loop
`for (x = width - (width - 1) % 8; x < width - 1; x++)`. -/
def neon_blur_writes_column (width x : Nat) : Prop :=
  (1 ≤ x ∧ x ≤ 8 * ((width - 8 - 1 + 8 - 1) / 8))
    ∨ (width - (width - 1) % 8 ≤ x ∧ x + 1 < width)

instance (width x : Nat) : Decidable (neon_blur_writes_column width x) := by
  unfold neon_blur_writes_column
  infer_instance

/-! ## Memory accesses of the elementwise kernels (`src/simd_ops.c`)

The kernels `simd_add_f32`, `simd_add_s32`, `simd_add_s16`, `simd_add_u8`, `simd_mul_f32`,
`simd_mul_s32` and `simd_mul_s16` are one loop structure with `W` lanes per register:
`W` is 4 for `float` and `int32_t`, 8 for `int16_t` and 16 for `uint8_t`. -/

/-- The value `x` lies between `(1 - 2^-24)^k * A` and `(1 + 2^-24)^k * A`: it is what
at most `k` successive roundings to float32 can make of the exact non-negative value
`A`. -/
def within_roundings (k : Nat) (A x : ℚ) : Prop :=
  (1 - 1 / 16777216) ^ k * A ≤ x ∧ x ≤ (1 + 1 / 16777216) ^ k * A

/-- The array `[2^24, 1, 1, 1, 1, ...]`. -/
def absorb_a : Buf binary32 := fun i => if i = 0 then ⟨16777216⟩ else ⟨1⟩

/-! # Properties -/

/-! ## Generic facts about loops that fill a buffer -/

theorem forLoop_succ_last {σ : Type} (n i : Nat) (body : Nat → σ → σ) (s : σ) :
    forLoop (n + 1) i body s = body (i + n) (forLoop n i body s) := by
  induction n generalizing i s with
  | zero => rfl
  | succ n ih =>
    have h := ih (i + 1) (body i s)
    simp only [forLoop] at h ⊢
    rw [h]
    have e : i + 1 + n = i + (n + 1) := by omega
    rw [e]

/-- A loop of scalar stores `c[i] = f i` for `i = lo, ..., lo + n - 1`. -/
theorem forLoop_store {α : Type} (f : Nat → α) (n lo : Nat) (c : Buf α) :
    forLoop n lo (fun i c => store c i (f i)) c
      = fun j => if lo ≤ j ∧ j < lo + n then f j else c j := by
  induction n generalizing lo c with
  | zero =>
    funext j
    simp only [forLoop]
    rw [if_neg (by omega)]
  | succ n ih =>
    funext j
    simp only [forLoop]
    rw [ih]
    simp only [store]
    by_cases h1 : lo + 1 ≤ j ∧ j < lo + 1 + n
    · rw [if_pos h1, if_pos (by omega)]
    · rw [if_neg h1]
      by_cases h2 : j = lo
      · rw [if_pos h2, if_pos (by omega), h2]
      · rw [if_neg h2, if_neg (by omega)]

/-- A loop of `W`-lane stores at offsets `i * W`, the lanes of iteration `i` holding
`f (i * W + l)`. -/
theorem forLoop_vst1 {α : Type} {W : Nat} (f : Nat → α) (g : Nat → Vec W α)
    (hg : ∀ i (l : Fin W), g i l = f (i * W + l.val)) (n lo : Nat) (c : Buf α) :
    forLoop n lo (fun i c => vst1 c (i * W) (g i)) c
      = fun j => if lo * W ≤ j ∧ j < (lo + n) * W then f j else c j := by
  induction n generalizing lo c with
  | zero =>
    funext j
    simp only [forLoop]
    rw [if_neg (by simp only [Nat.add_zero]; omega)]
  | succ n ih =>
    funext j
    simp only [forLoop]
    rw [ih]
    have e1 : (lo + 1) * W = lo * W + W := by ring
    have e2 : (lo + 1 + n) * W = lo * W + W + n * W := by ring
    have e3 : (lo + (n + 1)) * W = lo * W + W + n * W := by ring
    rw [e1, e2, e3]
    beta_reduce
    by_cases h1 : lo * W + W ≤ j ∧ j < lo * W + W + n * W
    · rw [if_pos h1, if_pos (by omega)]
    · rw [if_neg h1]
      simp only [vst1]
      by_cases h2 : lo * W ≤ j ∧ j < lo * W + W
      · rw [dif_pos h2, if_pos (by omega), hg]
        congr 1
        simp only
        omega
      · rw [dif_neg h2, if_neg (by omega)]

/-- The chunk/tail pattern of the kernels: `len / W` full lane groups whose lanes hold `f`,
then a scalar tail from `len / W * W` to `len` that stores `f2`. -/
theorem chunked_fill2 {α : Type} {W : Nat} (f f2 : Nat → α) (g : Nat → Vec W α)
    (hg : ∀ i (l : Fin W), g i l = f (i * W + l.val)) (len : Nat) (c : Buf α) :
    forRange (len / W * W) len (fun i c => store c i (f2 i))
        (forRange 0 (len / W) (fun i c => vst1 c (i * W) (g i)) c)
      = fun j => if j < len / W * W then f j else if j < len then f2 j else c j := by
  unfold forRange
  rw [forLoop_vst1 f g hg, forLoop_store]
  have hle : len / W * W ≤ len := Nat.div_mul_le_self len W
  funext j
  simp only [Nat.sub_zero, Nat.zero_mul, Nat.zero_add, Nat.zero_le, true_and]
  by_cases h1 : len / W * W ≤ j ∧ j < len / W * W + (len - len / W * W)
  · rw [if_pos h1, if_neg (by omega), if_pos (by omega)]
  · rw [if_neg h1]
    by_cases h2 : j < len / W * W
    · simp only [if_pos h2]
    · simp only [if_neg h2]
      rw [if_neg (by omega)]

/-- The chunk/tail pattern when lane groups and tail store the same function of the index. -/
theorem chunked_fill {α : Type} {W : Nat} (f : Nat → α) (g : Nat → Vec W α)
    (hg : ∀ i (l : Fin W), g i l = f (i * W + l.val)) (len : Nat) (c : Buf α) :
    forRange (len / W * W) len (fun i c => store c i (f i))
        (forRange 0 (len / W) (fun i c => vst1 c (i * W) (g i)) c)
      = fun j => if j < len then f j else c j := by
  rw [chunked_fill2 f f g hg]
  have hle : len / W * W ≤ len := Nat.div_mul_le_self len W
  funext j
  by_cases h2 : j < len / W * W
  · rw [if_pos h2, if_pos (by omega)]
  · rw [if_neg h2]

/-- A loop whose iterations all succeed is the loop of the successful results. -/
theorem forLoopM_eq_some {σ : Type} (body : Nat → σ → Option σ) (pbody : Nat → σ → σ)
    (n lo : Nat) (h : ∀ i s, lo ≤ i → i < lo + n → body i s = some (pbody i s)) (s : σ) :
    forLoopM n lo body s = some (forLoop n lo pbody s) := by
  induction n generalizing lo s with
  | zero => rfl
  | succ n ih =>
    simp only [forLoopM, forLoop]
    rw [h lo s (by omega) (by omega)]
    exact ih (lo + 1) (fun i s h1 h2 => h i s (by omega) (by omega)) _

/-- A loop with an iteration that fails in every state fails. -/
theorem forLoopM_eq_none {σ : Type} (body : Nat → σ → Option σ) (n lo i0 : Nat)
    (h0 : lo ≤ i0) (h1 : i0 < lo + n) (hnone : ∀ s, body i0 s = none) (s : σ) :
    forLoopM n lo body s = none := by
  induction n generalizing lo s with
  | zero => omega
  | succ n ih =>
    simp only [forLoopM]
    by_cases e : i0 = lo
    · rw [← e, hnone]
      rfl
    · cases hb : body lo s with
      | none => rfl
      | some s2 => exact ih (lo + 1) (by omega) (by omega) s2

/-! ## Elementwise addition -/

/-- The values of `int32_t` are fixed by the reduction to `int32_t`. -/
theorem wrapS32_of_in_int32 (x : Int) (h : in_int32 x) : wrapS32 x = x := by
  unfold in_int32 at h
  unfold wrapS32
  omega

/-- A loop of guarded stores all of whose guards hold stores every value. -/
theorem forLoopM_store_some {α : Type} (ok : Nat → Prop) [DecidablePred ok] (f : Nat → α)
    (n lo : Nat) (c : Buf α) (h : ∀ i, lo ≤ i → i < lo + n → ok i) :
    forLoopM n lo (fun i c => if ok i then some (store c i (f i)) else none) c
      = some (forLoop n lo (fun i c => store c i (f i)) c) :=
  forLoopM_eq_some _ (fun i c => store c i (f i)) n lo
    (fun i _ h1 h2 => if_pos (h i h1 h2)) c

/-- A loop of guarded stores one of whose guards fails has no result. -/
theorem forLoopM_store_none {α : Type} (ok : Nat → Prop) [DecidablePred ok] (f : Nat → α)
    (n lo i0 : Nat) (c : Buf α) (h0 : lo ≤ i0) (h1 : i0 < lo + n) (h : ¬ok i0) :
    forLoopM n lo (fun i c => if ok i then some (store c i (f i)) else none) c = none :=
  forLoopM_eq_none _ n lo i0 h0 h1 (fun _ => if_neg h) c

/-- When no sum of the tail overflows, `simd_add_s32` stores the wrap-around sum at every
index below `len` and keeps the rest of `c`. -/
theorem simd_add_s32_eq_some (a b c : Buf Int) (len : Nat)
    (h : ∀ j, len / 4 * 4 ≤ j → j < len → in_int32 (a j + b j)) :
    simd_add_s32 a b c len = some (fun j => if j < len then wrapS32 (a j + b j) else c j) := by
  unfold simd_add_s32 forRangeM
  have hle : len / 4 * 4 ≤ len := Nat.div_mul_le_self len 4
  rw [forLoopM_store_some (fun i => in_int32 (a i + b i)) (fun i => a i + b i) _ _ _
    (fun i h1 h2 => h i h1 (by omega))]
  refine congrArg some (Eq.trans (chunked_fill2 (fun j => wrapS32 (a j + b j))
    (fun j => a j + b j) (fun i => vaddq_s32 (vld1 4 a (i * 4)) (vld1 4 b (i * 4)))
    (fun _ _ => rfl) len c) ?_)
  funext j
  by_cases h1 : j < len / 4 * 4
  · rw [if_pos h1, if_pos (by omega)]
  · rw [if_neg h1]
    by_cases h2 : j < len
    · rw [if_pos h2, if_pos h2, wrapS32_of_in_int32 _ (h j (by omega) h2)]
    · rw [if_neg h2, if_neg h2]

/-- When a sum of the tail overflows, the call of `simd_add_s32` is undefined. -/
theorem simd_add_s32_eq_none (a b c : Buf Int) (len j : Nat) (h1 : len / 4 * 4 ≤ j)
    (h2 : j < len) (h : ¬in_int32 (a j + b j)) : simd_add_s32 a b c len = none := by
  unfold simd_add_s32 forRangeM
  exact forLoopM_store_none (fun i => in_int32 (a i + b i)) (fun i => a i + b i) _ _ j _
    h1 (by omega) h

theorem simd_add_s16_eq (a b c : Buf Int) (len : Nat) :
    simd_add_s16 a b c len = fun j => if j < len then wrapS16 (a j + b j) else c j :=
  chunked_fill (fun j => wrapS16 (a j + b j))
    (fun i => vaddq_s16 (vld1 8 a (i * 8)) (vld1 8 b (i * 8))) (fun _ _ => rfl) len c

theorem simd_add_u8_eq (a b c : Buf Nat) (len : Nat) :
    simd_add_u8 a b c len = fun j => if j < len then wrapU8 (a j + b j) else c j :=
  chunked_fill (fun j => wrapU8 (a j + b j))
    (fun i => vaddq_u8 (vld1 16 a (i * 16)) (vld1 16 b (i * 16))) (fun _ _ => rfl) len c

theorem scalar_fill {α : Type} (f : Nat → α) (len : Nat) (c : Buf α) :
    forRange 0 len (fun i c => store c i (f i)) c = fun j => if j < len then f j else c j := by
  unfold forRange
  rw [forLoop_store]
  funext j
  simp only [Nat.sub_zero, Nat.zero_add, Nat.zero_le, true_and]

/-- The kernels `simd_add_s16` and `simd_add_u8` store the wrap-around sum of the scalar
loop at every index below `len`, and so does every defined call of `simd_add_s32`, which
is defined when no sum of its tail overflows. -/
theorem simd_add_defined_matches_scalar (len i : Nat) (hi : i < len)
    (a32 b32 c32 a16 b16 c16 : Buf Int) (a8 b8 c8 : Buf Nat)
    (h32 : ∀ j, len / 4 * 4 ≤ j → j < len → in_int32 (a32 j + b32 j)) :
    ((simd_add_s32 a32 b32 c32 len).map (fun c => c i)
        = some ((a32 i + b32 i + 2 ^ 31) % 2 ^ 32 - 2 ^ 31)
      ∧ (simd_add_s32 a32 b32 c32 len).map (fun c => c i)
        = some (scalar_add_s32_spec a32 b32 c32 len i))
    ∧ (simd_add_s16 a16 b16 c16 len i = (a16 i + b16 i + 2 ^ 15) % 2 ^ 16 - 2 ^ 15
      ∧ simd_add_s16 a16 b16 c16 len i = scalar_add_s16_spec a16 b16 c16 len i)
    ∧ (simd_add_u8 a8 b8 c8 len i = (a8 i + b8 i) % 2 ^ 8
      ∧ simd_add_u8 a8 b8 c8 len i = scalar_add_u8_spec a8 b8 c8 len i) := by
  rw [simd_add_s32_eq_some _ _ _ _ h32, simd_add_s16_eq, simd_add_u8_eq]
  unfold scalar_add_s32_spec scalar_add_s16_spec scalar_add_u8_spec
  rw [scalar_fill, scalar_fill, scalar_fill]
  simp only [Option.map_some', if_pos hi, wrapS32, wrapS16, wrapU8]
  norm_num

/-- C1 (failing input). Length 21, `a[k] = 2147483647` and `b[k] = k` for every `k`: the
index 20 lies in the tail of `simd_add_s32`, where the statement `c[20] = a[20] + b[20]`
adds `2147483647 + 20` in `int`; the sum overflows, so the call has no defined result,
where the claim asks for the wrap-around sum `-2147483629`, the value of the scalar loop
modulo `2^32`. With length 24 the same operands at the same index 20 lie in a lane group,
and `vaddq_s32` leaves the wrap-around sum `-2147483629` there. -/
theorem simd_add_s32_tail_overflow :
    simd_add_s32 (fun _ => 2147483647) (fun k => k) (fun _ => 0) 21 = none
    ∧ scalar_add_s32_spec (fun _ => 2147483647) (fun k => k) (fun _ => 0) 21 20 = -2147483629
    ∧ (simd_add_s32 (fun _ => 2147483647) (fun k => k) (fun _ => 0) 24).map (fun c => c 20)
        = some (-2147483629) := by
  refine ⟨?_, ?_, ?_⟩
  · exact simd_add_s32_eq_none _ _ _ 21 20 (by decide) (by decide) (by decide)
  · unfold scalar_add_s32_spec
    rw [scalar_fill]
    decide
  · rw [simd_add_s32_eq_some _ _ _ 24 (fun j h1 h2 => absurd h2 (by omega))]
    decide

/-! ## Integer dot product -/

theorem wrapS32_idem (x : Int) : wrapS32 (wrapS32 x) = wrapS32 x := by
  unfold wrapS32; omega

theorem wrapS32_add_left (x y : Int) : wrapS32 (wrapS32 x + y) = wrapS32 (x + y) := by
  unfold wrapS32; omega

theorem wrapS32_add_right (x y : Int) : wrapS32 (x + wrapS32 y) = wrapS32 (x + y) := by
  unfold wrapS32; omega

/-- The scalar accumulation loop computes the exact sum reduced modulo `2^32`. -/
theorem forLoop_acc_s32 (f : Nat → Int) (n lo : Nat) (s : Int) :
    wrapS32 (forLoop n lo (fun i sum => wrapS32 (sum + wrapS32 (f i))) s)
      = wrapS32 (s + ∑ i ∈ Finset.range n, f (lo + i)) := by
  induction n with
  | zero => simp [forLoop]
  | succ n ih =>
    rw [forLoop_succ_last, Finset.sum_range_succ, wrapS32_idem, wrapS32_add_right,
      ← wrapS32_add_left, ih, wrapS32_add_left, add_assoc]

theorem forLoop_acc_s32_fix (f : Nat → Int) (n lo : Nat) (s : Int) (hs : wrapS32 s = s) :
    wrapS32 (forLoop n lo (fun i sum => wrapS32 (sum + wrapS32 (f i))) s)
      = forLoop n lo (fun i sum => wrapS32 (sum + wrapS32 (f i))) s := by
  cases n with
  | zero => simpa [forLoop] using hs
  | succ n => rw [forLoop_succ_last, wrapS32_idem]

/-- Lane `l` of the accumulator after `n` multiply-accumulate steps. -/
theorem forLoop_vmlaq_s32 (a b : Buf Int) (n : Nat) (l : Fin 4) :
    forLoop n 0 (fun i sum_vec => vmlaq_s32 sum_vec (vld1 4 a (i * 4)) (vld1 4 b (i * 4)))
        (vdupq_n_s32 0) l
      = wrapS32 (∑ i ∈ Finset.range n, a (i * 4 + l.val) * b (i * 4 + l.val)) := by
  induction n with
  | zero => simp [forLoop, vdupq_n_s32, wrapS32]
  | succ n ih =>
    rw [forLoop_succ_last, Finset.sum_range_succ]
    simp only [vmlaq_s32, vld1, Nat.zero_add]
    rw [ih, wrapS32_add_left]

/-- Regrouping the first `4 * n` terms of a sum by lane. -/
theorem sum_by_lane (f : Nat → Int) (n : Nat) :
    ∑ i ∈ Finset.range (n * 4), f i
      = (∑ i ∈ Finset.range n, f (i * 4 + 0)) + (∑ i ∈ Finset.range n, f (i * 4 + 1))
        + (∑ i ∈ Finset.range n, f (i * 4 + 2)) + (∑ i ∈ Finset.range n, f (i * 4 + 3)) := by
  induction n with
  | zero => simp
  | succ n ih =>
    have e : (n + 1) * 4 = n * 4 + 1 + 1 + 1 + 1 := by ring
    rw [e]
    simp only [Finset.sum_range_succ]
    rw [ih]
    simp only [Nat.add_zero, Nat.add_assoc]
    ring

/-- The value of `sum` when `simd_dot_product_s32` enters its tail loop: the sum of the
products of the lane groups, reduced modulo `2^32`. -/
theorem simd_dot_product_s32_lanes (a b : Buf Int) (n : Nat) :
    vpadd_s32
        (vadd_s32
          (vget_low4 (forLoop n 0
            (fun i sum_vec => vmlaq_s32 sum_vec (vld1 4 a (i * 4)) (vld1 4 b (i * 4)))
            (vdupq_n_s32 0)))
          (vget_high4 (forLoop n 0
            (fun i sum_vec => vmlaq_s32 sum_vec (vld1 4 a (i * 4)) (vld1 4 b (i * 4)))
            (vdupq_n_s32 0))))
        (vadd_s32
          (vget_low4 (forLoop n 0
            (fun i sum_vec => vmlaq_s32 sum_vec (vld1 4 a (i * 4)) (vld1 4 b (i * 4)))
            (vdupq_n_s32 0)))
          (vget_high4 (forLoop n 0
            (fun i sum_vec => vmlaq_s32 sum_vec (vld1 4 a (i * 4)) (vld1 4 b (i * 4)))
            (vdupq_n_s32 0)))) 0
      = wrapS32 (∑ i ∈ Finset.range (n * 4), a i * b i) := by
  rw [sum_by_lane (fun i => a i * b i)]
  simp only [vpadd_s32, vadd_s32, vget_low4, vget_high4]
  simp only [forLoop_vmlaq_s32]
  simp only [Fin.val_zero, Fin.val_one, if_true, Fin.isValue]
  generalize (∑ i ∈ Finset.range n, a (i * 4 + 0) * b (i * 4 + 0)) = s0
  generalize (∑ i ∈ Finset.range n, a (i * 4 + 1) * b (i * 4 + 1)) = s1
  generalize (∑ i ∈ Finset.range n, a (i * 4 + 2) * b (i * 4 + 2)) = s2
  generalize (∑ i ∈ Finset.range n, a (i * 4 + 3) * b (i * 4 + 3)) = s3
  unfold wrapS32
  omega

/-- A loop of `sum += f i` in `int` none of whose products and sums overflows returns the
exact sum. -/
theorem forLoopM_acc_some (f : Nat → Int) (n lo : Nat) (s : Int)
    (h : ∀ k, k < n →
      in_int32 (f (lo + k)) ∧ in_int32 (s + ∑ t ∈ Finset.range (k + 1), f (lo + t))) :
    forLoopM n lo (fun i sum =>
        if in_int32 (f i) ∧ in_int32 (sum + f i) then some (sum + f i) else none) s
      = some (s + ∑ t ∈ Finset.range n, f (lo + t)) := by
  induction n generalizing lo s with
  | zero => simp [forLoopM]
  | succ n ih =>
    have h0 := h 0 (by omega)
    simp only [Finset.sum_range_one, Nat.add_zero, zero_add] at h0
    simp only [forLoopM]
    rw [if_pos h0]
    simp only [Option.some_bind]
    rw [ih (lo + 1) (s + f lo)]
    · rw [Finset.sum_range_succ' _ n]
      simp only [Nat.add_zero]
      congr 1
      have e : ∀ t, lo + 1 + t = lo + (t + 1) := fun t => by omega
      simp only [e]
      ring
    · intro k hk
      have hk1 := h (k + 1) (by omega)
      rw [Finset.sum_range_succ' _ (k + 1)] at hk1
      simp only [Nat.add_zero] at hk1
      have e : ∀ t, lo + 1 + t = lo + (t + 1) := fun t => by omega
      simp only [e]
      refine ⟨hk1.1, ?_⟩
      have e2 : s + f lo + ∑ t ∈ Finset.range (k + 1), f (lo + (t + 1))
          = s + (∑ t ∈ Finset.range (k + 1), f (lo + (t + 1)) + f lo) := by ring
      rw [e2]
      exact hk1.2

/-- When no product and no partial sum of the tail overflows, `simd_dot_product_s32`
returns the exact sum of the products reduced modulo `2^32`. -/
theorem simd_dot_product_s32_eq_some (a b : Buf Int) (len : Nat)
    (h : ∀ k, k < len - len / 4 * 4 →
      in_int32 (a (len / 4 * 4 + k) * b (len / 4 * 4 + k))
      ∧ in_int32 (wrapS32 (∑ i ∈ Finset.range (len / 4 * 4), a i * b i)
          + ∑ t ∈ Finset.range (k + 1), a (len / 4 * 4 + t) * b (len / 4 * 4 + t))) :
    simd_dot_product_s32 a b len = some (wrapS32 (∑ i ∈ Finset.range len, a i * b i)) := by
  unfold simd_dot_product_s32 forRangeM forRange
  simp only [Nat.sub_zero]
  have hle : len / 4 * 4 ≤ len := Nat.div_mul_le_self len 4
  have hsplit : ∑ i ∈ Finset.range len, a i * b i
      = ∑ i ∈ Finset.range (len / 4 * 4), a i * b i
        + ∑ i ∈ Finset.range (len - len / 4 * 4), a (len / 4 * 4 + i) * b (len / 4 * 4 + i) := by
    rw [← Finset.sum_range_add]
    congr 2
    omega
  rw [simd_dot_product_s32_lanes, forLoopM_acc_some (fun i => a i * b i) _ _ _ h, hsplit]
  congr 1
  rw [← wrapS32_add_left]
  refine (wrapS32_of_in_int32 _ ?_).symm
  cases hn : len - len / 4 * 4 with
  | zero =>
    simp only [Finset.range_zero, Finset.sum_empty, add_zero]
    unfold in_int32 wrapS32
    omega
  | succ m =>
    have hm := (h m (by omega)).2
    exact hm

/-- When a product of the tail overflows, the call of `simd_dot_product_s32` is
undefined. -/
theorem simd_dot_product_s32_eq_none (a b : Buf Int) (len j : Nat) (h1 : len / 4 * 4 ≤ j)
    (h2 : j < len) (h : ¬in_int32 (a j * b j)) : simd_dot_product_s32 a b len = none := by
  unfold simd_dot_product_s32 forRangeM
  exact forLoopM_eq_none _ _ _ j h1 (by omega) (fun _ => if_neg (fun hc => h hc.1)) _

theorem scalar_dot_product_s32_spec_eq (a b : Buf Int) (len : Nat) :
    scalar_dot_product_s32_spec a b len = wrapS32 (∑ i ∈ Finset.range len, a i * b i) := by
  unfold scalar_dot_product_s32_spec forRange
  rw [← forLoop_acc_s32_fix (fun i => a i * b i) _ _ _ (by decide), forLoop_acc_s32]
  simp

/-- For a length that is a multiple of 4 there is no tail: `simd_dot_product_s32` returns
the scalar sum with 32-bit wrap-around for every input; length 0 gives 0. -/
theorem simd_dot_product_s32_lane_groups (a b : Buf Int) (len : Nat) (h4 : len % 4 = 0) :
    simd_dot_product_s32 a b len = some (scalar_dot_product_s32_spec a b len)
    ∧ simd_dot_product_s32 a b len
        = some (((∑ i ∈ Finset.range len, a i * b i) + 2 ^ 31) % 2 ^ 32 - 2 ^ 31)
    ∧ simd_dot_product_s32 a b 0 = some 0 := by
  have e : simd_dot_product_s32 a b len
      = some (wrapS32 (∑ i ∈ Finset.range len, a i * b i)) :=
    simd_dot_product_s32_eq_some a b len (fun k hk => absurd hk (by omega))
  refine ⟨?_, ?_, ?_⟩
  · rw [e, scalar_dot_product_s32_spec_eq]
  · rw [e]
    unfold wrapS32
    norm_num
  · rw [simd_dot_product_s32_eq_some a b 0 (fun k hk => absurd hk (by omega))]
    simp [wrapS32]

/-- C2 (failing input). Length 1, `a[0] = b[0] = 65536`: the only element lies in the tail
of `simd_dot_product_s32`, where `sum += a[0] * b[0]` multiplies `65536 * 65536` in `int`;
the product `2^32` overflows, so the call has no defined result, where the claim asks for
the sum with 32-bit wrap-around, which is 0. With length 4 the same operands lie in a lane
group and `vmlaq_s32` wraps: the result is 0. Length 2, `a = [2147483647, 1]`,
`b = [1, 1]`: the products fit, the sum `2147483647 + 1` overflows in the tail, where the
claim asks for `-2147483648`. -/
theorem simd_dot_product_s32_tail_overflow :
    simd_dot_product_s32 (fun _ => 65536) (fun _ => 65536) 1 = none
    ∧ scalar_dot_product_s32_spec (fun _ => 65536) (fun _ => 65536) 1 = 0
    ∧ simd_dot_product_s32 (fun _ => 65536) (fun _ => 65536) 4 = some 0
    ∧ simd_dot_product_s32 (fun k => if k = 0 then 2147483647 else 1) (fun _ => 1) 2 = none
    ∧ scalar_dot_product_s32_spec (fun k => if k = 0 then 2147483647 else 1) (fun _ => 1) 2
        = -2147483648 := by
  decide

/-! ## RGB to grayscale -/

/-- The value of one vector lane of the grayscale kernels, as a function of the pixel index. -/
theorem simd_rgb_to_gray_eq (rgb gray : Buf Nat) (pixel_count : Nat) :
    simd_rgb_to_gray rgb gray pixel_count
      = fun j =>
          if j < pixel_count / 8 * 8 then
            wrapU8 (wrapU16 (wrapU16 (wrapU16 (rgb (j * 3 + 0) * 77) + wrapU16 (rgb (j * 3 + 1) * 150))
              + wrapU16 (rgb (j * 3 + 2) * 29)) >>> 8)
          else if j < pixel_count then
            wrapU8 (wrapU16 ((rgb (j * 3 + 0) * 77 + rgb (j * 3 + 1) * 150
              + rgb (j * 3 + 2) * 29) >>> 8))
          else gray j := by
  unfold simd_rgb_to_gray
  refine chunked_fill2 _ _ _ ?_ pixel_count gray
  intro i l
  simp only [vshrn_n_u16, vaddq_u16, vmull_u8, vld3_u8, vdup_n_u8, Fin.val_zero, Fin.val_one,
    Fin.val_two]
  have e0 : i * 24 + 3 * l.val + 0 = (i * 8 + l.val) * 3 + 0 := by omega
  have e1 : i * 24 + 3 * l.val + 1 = (i * 8 + l.val) * 3 + 1 := by omega
  have e2 : i * 24 + 3 * l.val + 2 = (i * 8 + l.val) * 3 + 2 := by omega
  rw [e0, e1, e2]

theorem neon_rgb_to_gray_eq_simd (rgb gray : Buf Nat) (pixel_count : Nat) :
    neon_rgb_to_gray rgb gray pixel_count = simd_rgb_to_gray rgb gray pixel_count := rfl

theorem scalar_rgb_to_gray_eq (rgb gray : Buf Nat) (pixel_count : Nat) :
    scalar_rgb_to_gray rgb gray pixel_count
      = fun j =>
          if j < pixel_count then
            wrapU8 (wrapU32 (wrapU32 (wrapU32 (rgb (j * 3 + 0) * 77) + wrapU32 (rgb (j * 3 + 1) * 150))
              + wrapU32 (rgb (j * 3 + 2) * 29)) >>> 8)
          else gray j := by
  unfold scalar_rgb_to_gray
  exact scalar_fill _ pixel_count gray

/-- The three formulas agree on bytes: no 16-bit lane and no 32-bit word wraps. -/
theorem gray_formulas (r g b : Nat) (hr : r < 256) (hg : g < 256) (hb : b < 256) :
    wrapU8 (wrapU16 (wrapU16 (wrapU16 (r * 77) + wrapU16 (g * 150)) + wrapU16 (b * 29)) >>> 8)
      = (77 * r + 150 * g + 29 * b) >>> 8
    ∧ wrapU8 (wrapU16 ((r * 77 + g * 150 + b * 29) >>> 8)) = (77 * r + 150 * g + 29 * b) >>> 8
    ∧ wrapU8 (wrapU32 (wrapU32 (wrapU32 (r * 77) + wrapU32 (g * 150)) + wrapU32 (b * 29)) >>> 8)
      = (77 * r + 150 * g + 29 * b) >>> 8 := by
  have e : r * 77 + g * 150 + b * 29 = 77 * r + 150 * g + 29 * b := by omega
  have hq : (77 * r + 150 * g + 29 * b) / 256 < 256 := by omega
  simp only [wrapU8, wrapU16, wrapU32, Nat.shiftRight_eq_div_pow]
  norm_num only
  rw [Nat.mod_eq_of_lt (show r * 77 < 65536 by omega),
    Nat.mod_eq_of_lt (show g * 150 < 65536 by omega),
    Nat.mod_eq_of_lt (show b * 29 < 65536 by omega),
    Nat.mod_eq_of_lt (show r * 77 + g * 150 < 65536 by omega),
    Nat.mod_eq_of_lt (show r * 77 + g * 150 + b * 29 < 65536 by omega),
    Nat.mod_eq_of_lt (show r * 77 < 4294967296 by omega),
    Nat.mod_eq_of_lt (show g * 150 < 4294967296 by omega),
    Nat.mod_eq_of_lt (show b * 29 < 4294967296 by omega),
    Nat.mod_eq_of_lt (show r * 77 + g * 150 < 4294967296 by omega),
    Nat.mod_eq_of_lt (show r * 77 + g * 150 + b * 29 < 4294967296 by omega), e,
    Nat.mod_eq_of_lt (show (77 * r + 150 * g + 29 * b) / 256 < 65536 by omega),
    Nat.mod_eq_of_lt hq]
  exact ⟨rfl, rfl, rfl⟩

/-- C3. For every pixel count (multiple of 8 or not) and every RGB buffer of bytes, the vector
paths `neon_rgb_to_gray` and `simd_rgb_to_gray` and the scalar `scalar_rgb_to_gray` store the
same byte for every pixel `i < pixel_count`, namely `(77 R + 150 G + 29 B) >> 8`, for pixels in
8-pixel lane groups and for tail pixels alike. -/
theorem rgb_to_gray_matches_scalar (rgb gray gray2 : Buf Nat) (pixel_count i : Nat)
    (hbytes : ∀ k, k < 3 * pixel_count → rgb k < 256) (hi : i < pixel_count) :
    neon_rgb_to_gray rgb gray pixel_count i = scalar_rgb_to_gray rgb gray2 pixel_count i
    ∧ simd_rgb_to_gray rgb gray pixel_count i = scalar_rgb_to_gray rgb gray2 pixel_count i
    ∧ scalar_rgb_to_gray rgb gray2 pixel_count i
        = (77 * rgb (3 * i) + 150 * rgb (3 * i + 1) + 29 * rgb (3 * i + 2)) >>> 8 := by
  have hr := hbytes (i * 3 + 0) (by omega)
  have hg := hbytes (i * 3 + 1) (by omega)
  have hb := hbytes (i * 3 + 2) (by omega)
  obtain ⟨h16, htail, h32⟩ := gray_formulas _ _ _ hr hg hb
  have e : 3 * i = i * 3 := by omega
  have hsimd : simd_rgb_to_gray rgb gray pixel_count i
      = (77 * rgb (i * 3 + 0) + 150 * rgb (i * 3 + 1) + 29 * rgb (i * 3 + 2)) >>> 8 := by
    rw [simd_rgb_to_gray_eq]
    by_cases h : i < pixel_count / 8 * 8
    · simp only [if_pos h, h16]
    · simp only [if_neg h, if_pos hi, htail]
  have hscalar : scalar_rgb_to_gray rgb gray2 pixel_count i
      = (77 * rgb (i * 3 + 0) + 150 * rgb (i * 3 + 1) + 29 * rgb (i * 3 + 2)) >>> 8 := by
    rw [scalar_rgb_to_gray_eq]
    simp only [if_pos hi, h32]
  rw [neon_rgb_to_gray_eq_simd, hsimd, hscalar, e]
  exact ⟨rfl, rfl, rfl⟩

/-- Witness for C3: eleven white-to-dark pixels, pixel 9 in the tail. -/
theorem rgb_to_gray_matches_scalar_witness :
    ((∀ k, k < 3 * 11 → (fun j => 255 - j) k < 256) ∧ 9 < 11)
    ∧ (neon_rgb_to_gray (fun j => 255 - j) (fun _ => 0) 11 9
        = scalar_rgb_to_gray (fun j => 255 - j) (fun _ => 1) 11 9
      ∧ simd_rgb_to_gray (fun j => 255 - j) (fun _ => 0) 11 9
        = scalar_rgb_to_gray (fun j => 255 - j) (fun _ => 1) 11 9
      ∧ scalar_rgb_to_gray (fun j => 255 - j) (fun _ => 1) 11 9 = 227) :=
  have h := rgb_to_gray_matches_scalar (fun j => 255 - j) (fun _ => 0) (fun _ => 1) 11 9
      (fun k _ => by show 255 - k < 256; omega) (by decide)
  ⟨⟨fun k _ => by show 255 - k < 256; omega, by decide⟩, h.1, h.2.1, h.2.2.trans (by decide)⟩

/-! ## Box blur: frame facts -/

theorem store_same {α : Type} (p : Buf α) (i : Nat) (v : α) : store p i v i = v := by
  simp [store]

theorem store_other {α : Type} (p : Buf α) (i j : Nat) (v : α) (h : j ≠ i) :
    store p i v j = p j := by
  simp [store, h]

theorem vst1_outside {α : Type} {W : Nat} (p : Buf α) (off j : Nat) (v : Vec W α)
    (h : ¬(off ≤ j ∧ j < off + W)) : vst1 p off v j = p j := by
  simp only [vst1]
  rw [dif_neg h]

/-- A loop whose iterations change a buffer only inside `S` changes it only inside `S`. -/
theorem forLoop_frame {α : Type} (S : Nat → Prop) (body : Nat → Buf α → Buf α) (n lo : Nat)
    (h : ∀ i out p, lo ≤ i → i < lo + n → ¬S p → body i out p = out p)
    (out : Buf α) (p : Nat) (hp : ¬S p) : forLoop n lo body out p = out p := by
  induction n with
  | zero => rfl
  | succ n ih =>
    rw [forLoop_succ_last, h _ _ _ (by omega) (by omega) hp]
    exact ih (fun i out p h1 h2 h3 => h i out p h1 (by omega) h3)

/-- A row-major offset determines its row and column. -/
theorem row_col_unique (w a b c d : Nat) (hb : b < w) (hd : d < w)
    (h : a * w + b = c * w + d) : a = c ∧ b = d := by
  have hw : 0 < w := by omega
  have h1 : (b + a * w) / w = a := by
    rw [Nat.add_mul_div_right b a hw, Nat.div_eq_of_lt hb, Nat.zero_add]
  have h2 : (d + c * w) / w = c := by
    rw [Nat.add_mul_div_right d c hw, Nat.div_eq_of_lt hd, Nat.zero_add]
  have h3 : b + a * w = d + c * w := by omega
  rw [h3, h2] at h1
  subst h1
  exact ⟨rfl, by omega⟩

/-- A border position is not an interior position. -/
theorem border_not_interior (width height y x : Nat) (hx : x < width)
    (hb : y = 0 ∨ y = height - 1 ∨ x = 0 ∨ x = width - 1) :
    ¬IsInterior width height (y * width + x) := by
  rintro ⟨y2, x2, h1, h2, h3, h4, h5⟩
  obtain ⟨e1, e2⟩ := row_col_unique width y x y2 x2 hx (by omega) h5
  omega

/-- The 8-wide stores and the tail stores of the vector blur change interior pixels only. -/
theorem neon_blur_rows_frame (input output : Buf Nat) (width height p : Nat)
    (hp : ¬IsInterior width height p) :
    neon_blur_rows input output width height p = output p := by
  unfold neon_blur_rows forRange
  refine forLoop_frame (IsInterior width height) _ _ _ ?_ output p hp
  intro y out q hy1 hy2 hq
  simp only
  rw [forLoop_frame (IsInterior width height) _ _ _ ?_ _ q hq]
  · unfold forStep
    refine forLoop_frame (IsInterior width height) _ _ _ ?_ out q hq
    intro t out2 r _ ht hr
    apply vst1_outside
    intro hin
    exact hr ⟨y, 1 + 8 * t + (r - (y * width + (1 + 8 * t))), hy1, by omega, by omega, by omega,
      by omega⟩
  · intro x out2 r hx1 hx2 hr
    apply store_other
    intro e
    exact hr ⟨y, x, hy1, by omega, by omega, by omega, e⟩

/-- The stores of the scalar blur change interior pixels only. -/
theorem scalar_blur_rows_frame (input output : Buf Nat) (width height p : Nat)
    (hp : ¬IsInterior width height p) :
    scalar_blur_rows input output width height p = output p := by
  unfold scalar_blur_rows forRange
  refine forLoop_frame (IsInterior width height) _ _ _ ?_ output p hp
  intro y out q hy1 hy2 hq
  refine forLoop_frame (IsInterior width height) _ _ _ ?_ out q hq
  intro x out2 r hx1 hx2 hr
  apply store_other
  intro e
  exact hr ⟨y, x, hy1, by omega, hx1, by omega, e⟩

/-! ## Box blur: the border copy -/

/-- A loop of pairs of copies `out[f1 i] = input[f1 i]; out[f2 i] = input[f2 i]` keeps every
position that already agrees with the input. -/
theorem copy_loop_keeps {α : Type} (input : Buf α) (f1 f2 : Nat → Nat) (n lo : Nat)
    (out : Buf α) (p : Nat) (h : out p = input p) :
    forLoop n lo (fun i out => store (store out (f1 i) (input (f1 i))) (f2 i) (input (f2 i)))
      out p = input p := by
  induction n generalizing lo out with
  | zero => exact h
  | succ n ih =>
    simp only [forLoop]
    apply ih
    simp only [store]
    split
    · next e => rw [e]
    · split
      · next e => rw [e]
      · exact h

/-- A loop of pairs of copies makes both targets of every iteration agree with the input. -/
theorem copy_loop_sets {α : Type} (input : Buf α) (f1 f2 : Nat → Nat) (n lo : Nat)
    (out : Buf α) (i : Nat) (h1 : lo ≤ i) (h2 : i < lo + n) :
    forLoop n lo (fun i out => store (store out (f1 i) (input (f1 i))) (f2 i) (input (f2 i)))
        out (f1 i) = input (f1 i)
    ∧ forLoop n lo (fun i out => store (store out (f1 i) (input (f1 i))) (f2 i) (input (f2 i)))
        out (f2 i) = input (f2 i) := by
  induction n generalizing lo out with
  | zero => omega
  | succ n ih =>
    simp only [forLoop]
    by_cases e : i = lo
    · subst e
      constructor
      · apply copy_loop_keeps
        simp only [store]
        split
        · next e => rw [e]
        · simp
      · apply copy_loop_keeps
        simp [store]
    · exact ih (lo + 1) _ (by omega) (by omega)

/-- After the border loops every border pixel holds the input pixel, whatever the buffer held
before. -/
theorem blur_copy_border_spec (input output : Buf Nat) (width height y x : Nat)
    (hh : 0 < height) (hy : y < height) (hx : x < width)
    (hb : y = 0 ∨ y = height - 1 ∨ x = 0 ∨ x = width - 1) :
    blur_copy_border input output width height (y * width + x) = input (y * width + x) := by
  unfold blur_copy_border forRange
  simp only [Nat.sub_zero]
  by_cases hrow : y = 0 ∨ y = height - 1
  · apply copy_loop_keeps input (fun y => y * width) (fun y => y * width + width - 1)
    have h := copy_loop_sets input (fun x => x) (fun x => (height - 1) * width + x) width 0
      output x (by omega) (by omega)
    rcases hrow with e | e
    · subst e
      simpa using h.1
    · subst e
      exact h.2
  · have h := copy_loop_sets input (fun y => y * width) (fun y => y * width + width - 1)
      (height - 1 - 1) 1
      (forLoop width 0 (fun x output => store (store output x (input x))
        ((height - 1) * width + x) (input ((height - 1) * width + x))) output)
      y (by omega) (by omega)
    rcases hb with e | e | e | e
    · exact absurd (Or.inl e) hrow
    · exact absurd (Or.inr e) hrow
    · subst e
      exact h.1
    · subst e
      have e2 : y * width + (width - 1) = y * width + width - 1 := by omega
      rw [e2]
      exact h.2

/-- C4 (failing input). On the 10x3 image whose 30 pixels are all 255 the vector blur stores
`(2295 * 28) >> 8 = 251` at the interior pixel (1, 1) while the scalar blur stores
`2295 / 9 = 255`: the two paths differ by 4 intensity levels. -/
theorem blur_paths_differ_by_four :
    neon_blur_gray_3x3 (fun _ => 255) (fun _ => 0) 10 3 11 = 251
    ∧ simd_blur_gray_3x3 (fun _ => 255) (fun _ => 0) 10 3 11 = 251
    ∧ scalar_blur_gray_3x3 (fun _ => 255) (fun _ => 0) 10 3 11 = 255 := by
  decide

/-- C5. For every width > 0, height > 0 and every input image, after `scalar_blur_gray_3x3`,
`simd_blur_gray_3x3` and `neon_blur_gray_3x3` every border pixel of the output (first row, last
row, first column, last column) equals the input pixel at the same position; and the 8-wide
stores and the tail stores of the vector path (like the stores of the scalar path) leave every
border position as it was before the call. -/
theorem blur_border_equals_input (input output : Buf Nat) (width height y x : Nat)
    (hw : 0 < width) (hh : 0 < height) (hy : y < height) (hx : x < width)
    (hb : y = 0 ∨ y = height - 1 ∨ x = 0 ∨ x = width - 1) :
    (scalar_blur_gray_3x3 input output width height (y * width + x) = input (y * width + x)
      ∧ simd_blur_gray_3x3 input output width height (y * width + x) = input (y * width + x)
      ∧ neon_blur_gray_3x3 input output width height (y * width + x) = input (y * width + x))
    ∧ neon_blur_rows input output width height (y * width + x) = output (y * width + x)
    ∧ scalar_blur_rows input output width height (y * width + x) = output (y * width + x) := by
  have _ := hw
  refine ⟨⟨?_, ?_, ?_⟩, ?_, ?_⟩
  · exact blur_copy_border_spec input _ width height y x hh hy hx hb
  · exact blur_copy_border_spec input _ width height y x hh hy hx hb
  · exact blur_copy_border_spec input _ width height y x hh hy hx hb
  · exact neon_blur_rows_frame input output width height _
      (border_not_interior width height y x hx hb)
  · exact scalar_blur_rows_frame input output width height _
      (border_not_interior width height y x hx hb)

/-- Witness for C5: the 12x4 image with pixel values 0, 1, 2, ..., the right-border pixel (2, 11)
next to the last tail store. -/
theorem blur_border_equals_input_witness :
    (0 < 12 ∧ 0 < 4 ∧ 2 < 4 ∧ 11 < 12 ∧ (2 = 0 ∨ 2 = 4 - 1 ∨ 11 = 0 ∨ 11 = 12 - 1))
    ∧ ((scalar_blur_gray_3x3 (fun i => i) (fun _ => 7) 12 4 (2 * 12 + 11) = 35
      ∧ simd_blur_gray_3x3 (fun i => i) (fun _ => 7) 12 4 (2 * 12 + 11) = 35
      ∧ neon_blur_gray_3x3 (fun i => i) (fun _ => 7) 12 4 (2 * 12 + 11) = 35)
    ∧ neon_blur_rows (fun i => i) (fun _ => 7) 12 4 (2 * 12 + 11) = 7
    ∧ scalar_blur_rows (fun i => i) (fun _ => 7) 12 4 (2 * 12 + 11) = 7) :=
  ⟨by decide, blur_border_equals_input (fun i => i) (fun _ => 7) 12 4 2 11
    (by decide) (by decide) (by decide) (by decide) (by decide)⟩

/-! ## Histogram -/

/-- A loop whose iterations add `d i` modulo `m` to an observed counter adds the sum of the
`d i` modulo `m`. -/
theorem forLoop_mod_counts {σ : Type} (obs : σ → Nat) (m : Nat) (hm : 0 < m) (d : Nat → Nat)
    (body : Nat → σ → σ)
    (n lo : Nat)
    (hbody : ∀ i s, lo ≤ i → i < lo + n → obs s < m → obs (body i s) = (obs s + d i) % m)
    (s : σ) (hs : obs s < m) :
    obs (forLoop n lo body s) = (obs s + ∑ i ∈ Finset.range n, d (lo + i)) % m := by
  induction n with
  | zero => simp [forLoop, Nat.mod_eq_of_lt hs]
  | succ n ih =>
    have ih2 := ih (fun i s h1 h2 h3 => hbody i s h1 (by omega) h3)
    rw [forLoop_succ_last, hbody _ _ (by omega) (by omega) (by rw [ih2]; exact Nat.mod_lt _ hm),
      ih2, Finset.sum_range_succ, Nat.mod_add_mod, Nat.add_assoc]

/-- The four increments of one inner iteration of `neon_histogram`. -/
theorem hist_inner_body (values : Buf Nat) (j : Nat) (lh : Nat → Buf Nat) (t v : Nat)
    (ht : t < 4) (hlt : lh t v < 65536) :
    incr16 (incr16 (incr16 (incr16 lh 0 (values j)) 1 (values (j + 4))) 2 (values (j + 8))) 3
        (values (j + 12)) t v
      = (lh t v + if values (j + 4 * t) = v then 1 else 0) % 65536 := by
  have h0 : lh t v % 65536 = lh t v := Nat.mod_eq_of_lt hlt
  by_cases h : values (j + 4 * t) = v
  · interval_cases t <;> simp_all [incr16, wrapU16]
  · have h2 : ¬v = values (j + 4 * t) := fun e => h e.symm
    interval_cases t <;> simp_all [incr16, wrapU16] <;> omega

/-- The local array `values` holds the sixteen bytes of the chunk. -/
theorem hist_values (image : Buf Nat) (i k : Nat) (hk : k < 16) :
    vst1 (vst1 (fun _ => 0) 0 (vget_low16 (vld1 16 image (i * 16)))) 8
        (vget_high16 (vld1 16 image (i * 16))) k = image (i * 16 + k) := by
  simp only [vst1, vget_low16, vget_high16, vld1]
  by_cases h : 8 ≤ k
  · rw [dif_pos ⟨h, by omega⟩]
    show image (i * 16 + (k - 8 + 8)) = image (i * 16 + k)
    congr 1
    omega
  · rw [dif_neg (by omega), dif_pos ⟨by omega, by omega⟩]
    rfl

/-- The partial histograms of `neon_histogram` after the chunk loop. -/
theorem neon_chunk_hist (image : Buf Nat) (chunks t v : Nat) (ht : t < 4) :
    forRange 0 chunks (fun i local_hist =>
          forRange 0 4 (fun j local_hist =>
            incr16 (incr16 (incr16 (incr16 local_hist 0
              ((vst1 (vst1 (fun _ => 0) 0 (vget_low16 (vld1 16 image (i * 16)))) 8
                (vget_high16 (vld1 16 image (i * 16)))) j))
              1 ((vst1 (vst1 (fun _ => 0) 0 (vget_low16 (vld1 16 image (i * 16)))) 8
                (vget_high16 (vld1 16 image (i * 16)))) (j + 4)))
              2 ((vst1 (vst1 (fun _ => 0) 0 (vget_low16 (vld1 16 image (i * 16)))) 8
                (vget_high16 (vld1 16 image (i * 16)))) (j + 8)))
              3 ((vst1 (vst1 (fun _ => 0) 0 (vget_low16 (vld1 16 image (i * 16)))) 8
                (vget_high16 (vld1 16 image (i * 16)))) (j + 12))) local_hist)
          (fun _ _ => 0) t v
      = (∑ i ∈ Finset.range chunks, ∑ j ∈ Finset.range 4,
          if image (i * 16 + (j + 4 * t)) = v then 1 else 0) % 65536 := by
  unfold forRange
  simp only [Nat.sub_zero]
  rw [forLoop_mod_counts (fun lh : Nat → Buf Nat => lh t v) 65536 (by decide)
    (fun i => ∑ j ∈ Finset.range 4, if image (i * 16 + (j + 4 * t)) = v then 1 else 0)]
  · simp only [Nat.zero_add]
  · intro i s _ _ hs
    rw [forLoop_mod_counts (fun lh : Nat → Buf Nat => lh t v) 65536 (by decide)
      (fun j => if image (i * 16 + (j + 4 * t)) = v then 1 else 0)]
    · simp only [Nat.zero_add]
    · intro j s2 _ hj hs2
      rw [hist_inner_body _ j s2 t v ht hs2, hist_values image i (j + 4 * t) (by omega)]
    · exact hs
  · simp

/-- The partial histograms of `neon_histogram` after the chunk loop and the tail loop. -/
theorem neon_local_hist (image : Buf Nat) (size t v : Nat) (ht : t < 4) :
    forRange (size / 16 * 16) size (fun i local_hist => incr16 local_hist 0 (image i))
        (forRange 0 (size / 16) (fun i local_hist =>
          forRange 0 4 (fun j local_hist =>
            incr16 (incr16 (incr16 (incr16 local_hist 0
              ((vst1 (vst1 (fun _ => 0) 0 (vget_low16 (vld1 16 image (i * 16)))) 8
                (vget_high16 (vld1 16 image (i * 16)))) j))
              1 ((vst1 (vst1 (fun _ => 0) 0 (vget_low16 (vld1 16 image (i * 16)))) 8
                (vget_high16 (vld1 16 image (i * 16)))) (j + 4)))
              2 ((vst1 (vst1 (fun _ => 0) 0 (vget_low16 (vld1 16 image (i * 16)))) 8
                (vget_high16 (vld1 16 image (i * 16)))) (j + 8)))
              3 ((vst1 (vst1 (fun _ => 0) 0 (vget_low16 (vld1 16 image (i * 16)))) 8
                (vget_high16 (vld1 16 image (i * 16)))) (j + 12))) local_hist)
          (fun _ _ => 0)) t v
      = neon_local_count image size t v % 65536 := by
  have hc := neon_chunk_hist image (size / 16) t v ht
  unfold neon_local_count
  rw [forRange, forLoop_mod_counts (fun lh : Nat → Buf Nat => lh t v) 65536 (by decide)
    (fun i => if t = 0 ∧ image i = v then 1 else 0)]
  · simp only [hc, Nat.mod_add_mod]
  · intro i s _ _ hs
    simp only [incr16, wrapU16]
    by_cases h : t = 0 ∧ v = image i
    · obtain ⟨h1, h2⟩ := h
      subst h1 h2
      simp
    · rw [if_neg h, if_neg (by intro h2; exact h ⟨h2.1, h2.2.symm⟩), Nat.add_zero,
        Nat.mod_eq_of_lt hs]
  · simp only [hc]
    exact Nat.mod_lt _ (show 0 < 65536 by decide)

/-- Every bin of `neon_histogram` is the sum of the four 16-bit partial counts. -/
theorem neon_histogram_bin (image histogram : Buf Nat) (size v : Nat) (hv : v < 256) :
    neon_histogram image histogram size v
      = wrapU32 (neon_local_count image size 0 v % 65536 + neon_local_count image size 1 v % 65536
          + neon_local_count image size 2 v % 65536 + neon_local_count image size 3 v % 65536) := by
  unfold neon_histogram
  dsimp only
  rw [scalar_fill]
  simp only [if_pos hv]
  rw [neon_local_hist image size 0 v (by decide), neon_local_hist image size 1 v (by decide),
    neon_local_hist image size 2 v (by decide), neon_local_hist image size 3 v (by decide)]

/-- Every bin of `scalar_histogram` is the number of occurrences of the byte, modulo `2^32`. -/
theorem scalar_histogram_bin (image histogram : Buf Nat) (size v : Nat) (hv : v < 256) :
    scalar_histogram image histogram size v = pixel_count_eq image size v % 4294967296 := by
  unfold scalar_histogram pixel_count_eq forRange
  rw [forLoop_mod_counts (fun h : Buf Nat => h v) 4294967296 (by decide)
    (fun i => if image i = v then 1 else 0)]
  · simp only [memset_zero, if_pos hv, Nat.sub_zero, Nat.zero_add]
  · intro i s _ _ hs
    simp only [store, wrapU32]
    by_cases h : v = image i
    · subst h
      simp
    · rw [if_neg h, if_neg (fun e => h e.symm), Nat.add_zero, Nat.mod_eq_of_lt hs]
  · simp only [memset_zero, if_pos hv]
    decide

theorem pixel_count_eq_le (image : Buf Nat) (size v : Nat) : pixel_count_eq image size v ≤ size := by
  unfold pixel_count_eq
  calc ∑ i ∈ Finset.range size, (if image i = v then 1 else 0)
      ≤ ∑ _i ∈ Finset.range size, 1 := Finset.sum_le_sum (fun i _ => by split <;> omega)
    _ = size := by simp

/-- The bins of `scalar_histogram` add up to the number of pixels (for an image of bytes and a
size that fits the 32-bit counters). -/
theorem scalar_histogram_total (image histogram : Buf Nat) (size : Nat)
    (hbytes : ∀ i, i < size → image i < 256) (hsize : size < 4294967296) :
    histogram_total (scalar_histogram image histogram size) = size := by
  unfold histogram_total
  have h1 : ∀ v ∈ Finset.range 256,
      scalar_histogram image histogram size v = pixel_count_eq image size v := by
    intro v hv
    rw [scalar_histogram_bin image histogram size v (Finset.mem_range.mp hv)]
    exact Nat.mod_eq_of_lt (lt_of_le_of_lt (pixel_count_eq_le image size v) hsize)
  rw [Finset.sum_congr rfl h1]
  unfold pixel_count_eq
  rw [Finset.sum_comm]
  have h2 : ∀ i ∈ Finset.range size,
      (∑ v ∈ Finset.range 256, if image i = v then 1 else 0) = 1 := by
    intro i hi
    rw [Finset.sum_ite_eq, if_pos (Finset.mem_range.mpr (hbytes i (Finset.mem_range.mp hi)))]
  rw [Finset.sum_congr rfl h2]
  simp

theorem neon_local_count_black (t v : Nat) :
    neon_local_count (fun _ => 0) 262144 t v = if v = 0 then 65536 else 0 := by
  unfold neon_local_count
  have e1 : 262144 / 16 = 16384 := by decide
  have e2 : 262144 - 16384 * 16 = 0 := by decide
  rw [e1, e2]
  by_cases h : v = 0
  · subst h
    simp only [if_true, Finset.sum_const, Finset.card_range, smul_eq_mul, Finset.range_zero,
      Finset.card_empty, Nat.zero_mul]
  · have h2 : ¬(0 = v) := fun e => h e.symm
    simp only [h, h2, if_false, and_false, Finset.sum_const_zero, Nat.add_zero]

theorem pixel_count_eq_black (v : Nat) :
    pixel_count_eq (fun _ => 0) 262144 v = if v = 0 then 262144 else 0 := by
  unfold pixel_count_eq
  by_cases h : v = 0
  · subst h
    simp only [if_true, Finset.sum_const, Finset.card_range, smul_eq_mul]
  · have h2 : ¬(0 = v) := fun e => h e.symm
    simp only [h, h2, if_false, Finset.sum_const_zero]

/-- C6 (failing input). On the all-black 512x512 image (262144 pixels of value 0) every one of
the four 16-bit partial counters of value 0 reaches 65536 and wraps to 0, so `neon_histogram`
leaves 0 in bin 0 while `scalar_histogram` leaves 262144. -/
theorem histogram_paths_differ_on_black_image :
    neon_histogram (fun _ => 0) (fun _ => 0) 262144 0 = 0
    ∧ scalar_histogram (fun _ => 0) (fun _ => 0) 262144 0 = 262144 := by
  constructor
  · rw [neon_histogram_bin _ _ _ _ (by decide), neon_local_count_black,
      neon_local_count_black, neon_local_count_black, neon_local_count_black]
    rfl
  · rw [scalar_histogram_bin _ _ _ _ (by decide), pixel_count_eq_black]
    rfl

/-- C7 (failing input). On the all-black 512x512 image the 256 bins of `neon_histogram` add up
to 0, not to the 262144 pixels of the image; the bins of `scalar_histogram` add up to 262144. -/
theorem neon_histogram_total_on_black_image :
    histogram_total (neon_histogram (fun _ => 0) (fun _ => 0) 262144) = 0
    ∧ histogram_total (scalar_histogram (fun _ => 0) (fun _ => 0) 262144) = 262144 := by
  constructor
  · unfold histogram_total
    apply Finset.sum_eq_zero
    intro v hv
    rw [neon_histogram_bin _ _ _ _ (Finset.mem_range.mp hv), neon_local_count_black,
      neon_local_count_black, neon_local_count_black, neon_local_count_black]
    split <;> rfl
  · exact scalar_histogram_total _ _ _ (fun _ _ => by decide) (by decide)

/-! ## FFT: loops that can fail -/

/-- The twiddle index of stage 16 overflows at `j = 16384` for `n = 131072`. -/
theorem twiddle_index_overflow : twiddle_index 16384 131072 65536 = none := by
  decide

/-- C8 (failing input). For the power of two `n = 131072 = 2^17` (any signal, any twiddle
table) `fft_scalar` reaches stage 16, block `k = 0`, butterfly `j = 16384`, where the product
`j * n = 2^31` of the twiddle index `j * n / m` does not fit in an `int`: the call has no
defined result, so it does not leave the DFT in `x`. -/
theorem fft_scalar_overflow {R : Type} [CommRing R] (x twiddle : Buf (complex_t R)) :
    fft_scalar x 131072 twiddle = none := by
  unfold fft_scalar forRangeM
  refine forLoopM_eq_none _ _ 1 16 (by decide) (by decide) ?_ _
  intro s
  unfold forStepM
  refine forLoopM_eq_none _ _ 0 0 (by decide) (by decide) ?_ _
  intro s2
  refine forLoopM_eq_none _ _ 0 16384 (by decide) (by decide) ?_ _
  intro s3
  have h : twiddle_index 16384 131072 (1 <<< 16) = none := twiddle_index_overflow
  simp only [h, Option.map_none']

/-- C10 (failing input). For `n = 131072 = 2^17` and the unit impulse, neither `fft_scalar` nor
`fft_neon` has a defined result: both reach stage 16, block 0, `j = 16384`, where `j * n`
overflows `int`. -/
theorem fft_impulse_overflow {R : Type} [CommRing R] (twiddle : Buf (complex_t R)) :
    fft_scalar impulse 131072 twiddle = none ∧ fft_neon impulse 131072 twiddle = none := by
  constructor
  · unfold fft_scalar forRangeM
    refine forLoopM_eq_none _ _ 1 16 (by decide) (by decide) ?_ _
    intro s
    unfold forStepM
    refine forLoopM_eq_none _ _ 0 0 (by decide) (by decide) ?_ _
    intro s2
    refine forLoopM_eq_none _ _ 0 16384 (by decide) (by decide) ?_ _
    intro s3
    have h : twiddle_index 16384 131072 (1 <<< 16) = none := twiddle_index_overflow
    simp only [h, Option.map_none']
  · unfold fft_neon forRangeM
    refine forLoopM_eq_none _ _ 1 16 (by decide) (by decide) ?_ _
    intro s
    unfold forStepM
    refine forLoopM_eq_none _ _ 0 0 (by decide) (by decide) ?_ _
    intro s2
    refine forLoopM_eq_none _ _ 0 8192 (by decide) (by decide) ?_ _
    intro s3
    have h : twiddle_index (0 + 2 * 8192) 131072 (1 <<< 16) = none := twiddle_index_overflow
    simp only [h, Option.map_none', ite_self]

/-- C9 (failing input). For `n = 4`, the signal `[0, 1, 0, 0]` and the exact twiddle table
`[(1, 0), (0, -1)]` of `e^{-2 pi i k / 4}`, `fft_scalar` leaves `(0, -1)` in bin 1 and
`fft_neon` leaves `(0, 0)`: the imaginary parts differ by 1, far more than `1e-3`. -/
theorem fft_neon_differs_from_scalar :
    (fft_scalar shifted_impulse 4 twiddle4).map (fun x => ((x 1).re, (x 1).im)) = some (0, -1)
    ∧ (fft_neon shifted_impulse 4 twiddle4).map (fun x => ((x 1).re, (x 1).im)) = some (0, 0) := by
  decide

/-! ## FFT: bit reversal -/

/-- A loop whose body ignores the loop index is an iterate of the body. -/
theorem forLoop_const {σ : Type} (f : σ → σ) (n i : Nat) (s : σ) :
    forLoop n i (fun _ => f) s = f^[n] s := by
  induction n generalizing i s with
  | zero => rfl
  | succ n ih =>
    simp only [forLoop, Function.iterate_succ, Function.comp_apply]
    exact ih _ _

/-- One step of the loop of `bit_reverse`, in arithmetic form. -/
theorem bit_reverse_step (r x : Nat) :
    ((r <<< 1) ||| (x &&& 1), x >>> 1) = (2 * r + x % 2, x / 2) := by
  have h1 : r <<< 1 = 2 ^ 1 * r := by rw [Nat.shiftLeft_eq, Nat.mul_comm]
  have h2 : x % 2 < 2 ^ 1 := Nat.mod_lt _ (by decide)
  rw [h1, Nat.and_one_is_mod, ← Nat.mul_add_lt_is_or h2, Nat.shiftRight_eq_div_pow]

theorem bit_reverse_eq_iterate (x bits : Nat) :
    bit_reverse x bits = ((fun s : Nat × Nat => (2 * s.1 + s.2 % 2, s.2 / 2))^[bits] (0, x)).1 := by
  unfold bit_reverse forRange
  rw [Nat.sub_zero, forLoop_const]
  congr 2
  funext s
  exact bit_reverse_step s.1 s.2

/-- The state of the loop of `bit_reverse` after `c` steps, started from `(r, x)`. -/
theorem bit_reverse_iterate (c r x : Nat) :
    (fun s : Nat × Nat => (2 * s.1 + s.2 % 2, s.2 / 2))^[c] (r, x)
      = (r * 2 ^ c + bit_reverse x c, x / 2 ^ c) := by
  induction c generalizing r x with
  | zero => simp [bit_reverse_eq_iterate]
  | succ c ih =>
    have h0 := ih (2 * 0 + x % 2) (x / 2)
    rw [bit_reverse_eq_iterate x (c + 1)]
    simp only [Function.iterate_succ, Function.comp_apply]
    rw [ih, h0]
    simp only [Nat.div_div_eq_div_mul, Prod.mk.injEq]
    constructor
    · ring
    · rw [pow_succ, Nat.mul_comm]

theorem bit_reverse_zero (x : Nat) : bit_reverse x 0 = 0 := by
  simp [bit_reverse_eq_iterate]

/-- The lowest bit of `x` becomes the highest bit of the reversal. -/
theorem bit_reverse_succ (x c : Nat) :
    bit_reverse x (c + 1) = x % 2 * 2 ^ c + bit_reverse (x / 2) c := by
  rw [bit_reverse_eq_iterate x (c + 1)]
  simp only [Function.iterate_succ, Function.comp_apply]
  rw [bit_reverse_iterate]
  simp

/-- Bit `c` of `x` becomes the lowest bit of the `(c + 1)`-bit reversal. -/
theorem bit_reverse_succ_last (x c : Nat) :
    bit_reverse x (c + 1) = 2 * bit_reverse x c + x / 2 ^ c % 2 := by
  rw [bit_reverse_eq_iterate x (c + 1), Function.iterate_succ_apply', bit_reverse_iterate]
  simp

theorem bit_reverse_lt (x c : Nat) : bit_reverse x c < 2 ^ c := by
  induction c generalizing x with
  | zero => simp [bit_reverse_zero]
  | succ c ih =>
    rw [bit_reverse_succ, pow_succ]
    have h := ih (x / 2)
    rcases Nat.mod_two_eq_zero_or_one x with e | e <;> rw [e] <;> omega

theorem bit_reverse_mod (x c : Nat) : bit_reverse (x % 2 ^ c) c = bit_reverse x c := by
  induction c generalizing x with
  | zero => simp [bit_reverse_zero]
  | succ c ih =>
    rw [bit_reverse_succ, bit_reverse_succ, pow_succ, Nat.mul_comm (2 ^ c) 2,
      Nat.mod_mul_right_mod, Nat.mod_mul_right_div_self, ih]

/-- Reversing twice gives back every index below `2^c`. -/
theorem bit_reverse_involutive (x c : Nat) (hx : x < 2 ^ c) :
    bit_reverse (bit_reverse x c) c = x := by
  induction c generalizing x with
  | zero =>
    rw [bit_reverse_zero]
    simp at hx
    omega
  | succ c ih =>
    have hpos : 0 < 2 ^ c := Nat.two_pow_pos c
    have hq : x / 2 ^ c < 2 := by
      rw [Nat.div_lt_iff_lt_mul hpos]
      rw [pow_succ] at hx
      omega
    have h1 : bit_reverse x (c + 1) % 2 = x / 2 ^ c := by
      rw [bit_reverse_succ_last]
      generalize x / 2 ^ c = q at hq
      omega
    have h2 : bit_reverse x (c + 1) / 2 = bit_reverse x c := by
      rw [bit_reverse_succ_last]
      generalize x / 2 ^ c = q at hq
      omega
    rw [bit_reverse_succ, h1, h2, ← bit_reverse_mod x c, ih _ (Nat.mod_lt _ hpos)]
    exact Nat.div_add_mod' x (2 ^ c)

/-- The loop `while (temp > 1)` counts the exponent of a power of two. -/
theorem count_bits_two_pow (b fuel bits : Nat) (h : b ≤ fuel) :
    count_bits fuel (2 ^ b) bits = bits + b := by
  induction b generalizing fuel bits with
  | zero => cases fuel <;> simp [count_bits]
  | succ b ih =>
    obtain ⟨f, rfl⟩ : ∃ f, fuel = f + 1 := ⟨fuel - 1, by omega⟩
    have h1 : 2 ^ (b + 1) > 1 := Nat.one_lt_two_pow (by omega)
    have h2 : 2 ^ (b + 1) >>> 1 = 2 ^ b := by
      rw [Nat.shiftRight_eq_div_pow, pow_succ]
      simp
    simp only [count_bits, if_pos h1, h2]
    rw [ih f (bits + 1) (by omega)]
    omega

theorem count_bits_self_two_pow (b : Nat) : count_bits (2 ^ b) (2 ^ b) 0 = b := by
  rw [count_bits_two_pow b (2 ^ b) 0 (Nat.le_of_lt (Nat.lt_two_pow b)), Nat.zero_add]

/-! ## FFT: loops of independent in-place updates -/

/-- A position that no iteration owns is left unchanged by the loop. -/
theorem forLoop_untouched {α : Type} (body : Nat → Buf α → Buf α) (In : Nat → Nat → Prop)
    (n lo : Nat)
    (hframe : ∀ i x p, lo ≤ i → i < lo + n → ¬In i p → body i x p = x p)
    (x : Buf α) (p : Nat) (hp : ∀ i, lo ≤ i → i < lo + n → ¬In i p) :
    forLoop n lo body x p = x p := by
  induction n with
  | zero => rfl
  | succ n ih =>
    rw [forLoop_succ_last, hframe _ _ _ (by omega) (by omega) (hp _ (by omega) (by omega))]
    exact ih (fun i x p h1 h2 h3 => hframe i x p h1 (by omega) h3)
      (fun i h1 h2 => hp i h1 (by omega))

/-- When every iteration `i` changes only the positions it owns (`In i`), reads only those, and
no position has two owners, the loop gives every owned position the value that its owner computes
from the initial buffer. -/
theorem forLoop_local {α : Type} (body : Nat → Buf α → Buf α) (In : Nat → Nat → Prop)
    (n lo : Nat)
    (hframe : ∀ i x p, lo ≤ i → i < lo + n → ¬In i p → body i x p = x p)
    (hlocal : ∀ i x x2 p, lo ≤ i → i < lo + n → (∀ q, In i q → x q = x2 q) → In i p →
      body i x p = body i x2 p)
    (hdisj : ∀ i i2 p, lo ≤ i → i < lo + n → lo ≤ i2 → i2 < lo + n → In i p → In i2 p → i = i2)
    (x : Buf α) (p i : Nat) (h1 : lo ≤ i) (h2 : i < lo + n) (hin : In i p) :
    forLoop n lo body x p = body i x p := by
  induction n with
  | zero => omega
  | succ n ih =>
    rw [forLoop_succ_last]
    by_cases e : i = lo + n
    · subst e
      apply hlocal _ _ _ _ h1 h2 _ hin
      intro q hq
      apply forLoop_untouched body In n lo
        (fun i x p h1 h2 h3 => hframe i x p h1 (by omega) h3)
      intro i2 h3 h4 h5
      have := hdisj i2 (lo + n) q h3 (by omega) h1 h2 h5 hq
      omega
    · have hne : ¬In (lo + n) p := by
        intro h3
        exact e (hdisj i (lo + n) p h1 h2 (by omega) (by omega) hin h3)
      rw [hframe _ _ _ (by omega) (by omega) hne]
      exact ih (fun i x p h1 h2 h3 => hframe i x p h1 (by omega) h3)
        (fun i x x2 p h1 h2 h3 h4 => hlocal i x x2 p h1 (by omega) h3 h4)
        (fun i i2 p h1 h2 h3 h4 h5 h6 => hdisj i i2 p h1 (by omega) h3 (by omega) h5 h6)
        (by omega)

/-- The effect of `bit_reverse_array` on an array of `2^b` elements: position `p` receives the
element at the bit-reversed position. -/
theorem bit_reverse_array_eq {α : Type} (array : Buf α) (b p : Nat) :
    bit_reverse_array array (2 ^ b) p
      = if p < 2 ^ b then array (bit_reverse p b) else array p := by
  unfold bit_reverse_array forRange
  simp only [count_bits_self_two_pow, Nat.sub_zero]
  have hframe : ∀ (i : Nat) (x : Buf α) (p : Nat), 0 ≤ i → i < 0 + 2 ^ b →
      ¬(i < bit_reverse i b ∧ (p = i ∨ p = bit_reverse i b)) →
      (if i < bit_reverse i b then store (store x i (x (bit_reverse i b))) (bit_reverse i b) (x i)
        else x) p = x p := by
    intro i x p _ _ h
    by_cases hi : i < bit_reverse i b
    · rw [if_pos hi, store_other _ _ _ _ (fun e => h ⟨hi, Or.inr e⟩),
        store_other _ _ _ _ (fun e => h ⟨hi, Or.inl e⟩)]
    · rw [if_neg hi]
  have hlocal : ∀ (i : Nat) (x x2 : Buf α) (p : Nat), 0 ≤ i → i < 0 + 2 ^ b →
      (∀ q, (i < bit_reverse i b ∧ (q = i ∨ q = bit_reverse i b)) → x q = x2 q) →
      (i < bit_reverse i b ∧ (p = i ∨ p = bit_reverse i b)) →
      (if i < bit_reverse i b then store (store x i (x (bit_reverse i b))) (bit_reverse i b) (x i)
        else x) p
      = (if i < bit_reverse i b then
          store (store x2 i (x2 (bit_reverse i b))) (bit_reverse i b) (x2 i) else x2) p := by
    intro i x x2 p _ _ hagree hin
    rw [if_pos hin.1, if_pos hin.1]
    have e1 := hagree i ⟨hin.1, Or.inl rfl⟩
    have e2 := hagree (bit_reverse i b) ⟨hin.1, Or.inr rfl⟩
    simp only [store, e1, e2]
    rcases hin.2 with e | e
    · rw [if_pos e, if_pos e]
    · rw [if_pos e, if_pos e]
  have hdisj : ∀ (i i2 p : Nat), 0 ≤ i → i < 0 + 2 ^ b → 0 ≤ i2 → i2 < 0 + 2 ^ b →
      (i < bit_reverse i b ∧ (p = i ∨ p = bit_reverse i b)) →
      (i2 < bit_reverse i2 b ∧ (p = i2 ∨ p = bit_reverse i2 b)) → i = i2 := by
    intro i i2 p _ hi _ hi2 h1 h2
    have inv1 := bit_reverse_involutive i b (by omega)
    have inv2 := bit_reverse_involutive i2 b (by omega)
    obtain ⟨h1a, h1b⟩ := h1
    obtain ⟨h2a, h2b⟩ := h2
    rcases h1b with e1 | e1 <;> rcases h2b with e2 | e2
    · omega
    · have e3 : i = bit_reverse i2 b := by omega
      rw [e3, inv2] at h1a
      omega
    · have e3 : i2 = bit_reverse i b := by omega
      rw [e3, inv1] at h2a
      omega
    · have e3 : bit_reverse i b = bit_reverse i2 b := by omega
      have e4 := congrArg (fun t => bit_reverse t b) e3
      simp only [inv1, inv2] at e4
      exact e4
  by_cases hp : p < 2 ^ b
  · rw [if_pos hp]
    have inv := bit_reverse_involutive p b hp
    have hlt := bit_reverse_lt p b
    rcases Nat.lt_trichotomy p (bit_reverse p b) with h | h | h
    · rw [forLoop_local _ _ _ _ hframe hlocal hdisj array p p (by omega) (by omega)
        ⟨h, Or.inl rfl⟩, if_pos h, store_other _ _ _ _ (by omega), store_same]
    · rw [forLoop_untouched _ _ _ _ hframe array p, ← h]
      intro i _ hi hin
      have inv1 := bit_reverse_involutive i b (by omega)
      rcases hin.2 with e | e
      · rw [← e] at hin
        omega
      · rw [e, inv1] at h
        omega
    · rw [forLoop_local _ _ _ _ hframe hlocal hdisj array p (bit_reverse p b) (by omega)
        (by omega) ⟨by rw [inv]; exact h, Or.inr inv.symm⟩]
      rw [inv, if_pos h]
      have e : store (store array (bit_reverse p b) (array p)) p (array (bit_reverse p b)) p
          = array (bit_reverse p b) := store_same _ _ _
      exact e
  · rw [if_neg hp, forLoop_untouched _ _ _ _ hframe array p]
    intro i _ hi hin
    have hlt := bit_reverse_lt i b
    omega

/-! ## FFT: one stage of butterflies -/

theorem butterfly_other {R : Type} [CommRing R] (x : Buf (complex_t R)) (k j m2 p : Nat)
    (w : complex_t R) (h1 : p ≠ k + j) (h2 : p ≠ k + j + m2) : butterfly x k j m2 w p = x p := by
  unfold butterfly
  rw [store_other _ _ _ _ h2, store_other _ _ _ _ h1]

theorem butterfly_lo {R : Type} [CommRing R] (x : Buf (complex_t R)) (k j m2 : Nat)
    (w : complex_t R) (hm : 0 < m2) :
    butterfly x k j m2 w (k + j) = complex_add (x (k + j)) (complex_mul (x (k + j + m2)) w) := by
  unfold butterfly
  rw [store_other _ _ _ _ (by omega), store_same]

theorem butterfly_hi {R : Type} [CommRing R] (x : Buf (complex_t R)) (k j m2 : Nat)
    (w : complex_t R) :
    butterfly x k j m2 w (k + j + m2)
      = complex_sub (x (k + j)) (complex_mul (x (k + j + m2)) w) := by
  unfold butterfly
  rw [store_same]

/-- The butterflies of one block: the inner loop of a stage. -/
theorem butterfly_inner {R : Type} [CommRing R] (x : Buf (complex_t R)) (k m2 : Nat)
    (w : Nat → complex_t R) (p : Nat) :
    forLoop m2 0 (fun j x => butterfly x k j m2 (w j)) x p
      = if k ≤ p ∧ p < k + m2 then
          complex_add (x p) (complex_mul (x (p + m2)) (w (p - k)))
        else if k + m2 ≤ p ∧ p < k + m2 + m2 then
          complex_sub (x (p - m2)) (complex_mul (x p) (w (p - m2 - k)))
        else x p := by
  have hframe : ∀ (j : Nat) (x : Buf (complex_t R)) (p : Nat), 0 ≤ j → j < 0 + m2 →
      ¬(p = k + j ∨ p = k + j + m2) → butterfly x k j m2 (w j) p = x p := by
    intro j x p _ _ h
    exact butterfly_other x k j m2 p (w j) (fun e => h (Or.inl e)) (fun e => h (Or.inr e))
  have hlocal : ∀ (j : Nat) (x x2 : Buf (complex_t R)) (p : Nat), 0 ≤ j → j < 0 + m2 →
      (∀ q, (q = k + j ∨ q = k + j + m2) → x q = x2 q) → (p = k + j ∨ p = k + j + m2) →
      butterfly x k j m2 (w j) p = butterfly x2 k j m2 (w j) p := by
    intro j x x2 p _ hj hagree hin
    have e1 := hagree (k + j) (Or.inl rfl)
    have e2 := hagree (k + j + m2) (Or.inr rfl)
    rcases hin with e | e
    · rw [e, butterfly_lo _ _ _ _ _ (by omega), butterfly_lo _ _ _ _ _ (by omega), e1, e2]
    · rw [e, butterfly_hi, butterfly_hi, e1, e2]
  have hdisj : ∀ (j j2 p : Nat), 0 ≤ j → j < 0 + m2 → 0 ≤ j2 → j2 < 0 + m2 →
      (p = k + j ∨ p = k + j + m2) → (p = k + j2 ∨ p = k + j2 + m2) → j = j2 := by
    intro j j2 p _ _ _ _ h1 h2
    omega
  by_cases h1 : k ≤ p ∧ p < k + m2
  · obtain ⟨j, rfl⟩ : ∃ j, p = k + j := ⟨p - k, by omega⟩
    rw [if_pos h1, forLoop_local _ _ _ _ hframe hlocal hdisj x (k + j) j (by omega) (by omega)
      (Or.inl rfl), Nat.add_sub_cancel_left]
    exact butterfly_lo _ _ _ _ _ (by omega)
  · rw [if_neg h1]
    by_cases h2 : k + m2 ≤ p ∧ p < k + m2 + m2
    · obtain ⟨j, rfl⟩ : ∃ j, p = k + j + m2 := ⟨p - m2 - k, by omega⟩
      rw [if_pos h2, forLoop_local _ _ _ _ hframe hlocal hdisj x (k + j + m2) j (by omega)
        (by omega) (Or.inr rfl), Nat.add_sub_cancel, Nat.add_sub_cancel_left]
      exact butterfly_hi _ _ _ _ _
    · rw [if_neg h2, forLoop_untouched _ _ _ _ hframe x p]
      intro j _ hj hin
      omega

/-- The butterflies of all blocks: a whole stage over `B` blocks of length `m = m2 + m2`. -/
theorem butterfly_blocks {R : Type} [CommRing R] (x : Buf (complex_t R)) (B m m2 : Nat)
    (hm : m = m2 + m2) (w : Nat → complex_t R) (p : Nat) :
    forLoop B 0 (fun t x => forLoop m2 0 (fun j x => butterfly x (0 + m * t) j m2 (w j)) x) x p
      = if p < m * B then
          (if p % m < m2 then
            complex_add (x p) (complex_mul (x (p + m2)) (w (p % m)))
          else
            complex_sub (x (p - m2)) (complex_mul (x p) (w (p % m - m2))))
        else x p := by
  have hframe : ∀ (t : Nat) (x : Buf (complex_t R)) (p : Nat), 0 ≤ t → t < 0 + B →
      ¬(m * t ≤ p ∧ p < m * t + m) →
      forLoop m2 0 (fun j x => butterfly x (0 + m * t) j m2 (w j)) x p = x p := by
    intro t x p _ _ h
    rw [butterfly_inner, if_neg (by omega), if_neg (by omega)]
  have hlocal : ∀ (t : Nat) (x x2 : Buf (complex_t R)) (p : Nat), 0 ≤ t → t < 0 + B →
      (∀ q, (m * t ≤ q ∧ q < m * t + m) → x q = x2 q) → (m * t ≤ p ∧ p < m * t + m) →
      forLoop m2 0 (fun j x => butterfly x (0 + m * t) j m2 (w j)) x p
        = forLoop m2 0 (fun j x => butterfly x (0 + m * t) j m2 (w j)) x2 p := by
    intro t x x2 p _ _ hagree hin
    rw [butterfly_inner, butterfly_inner]
    by_cases h1 : 0 + m * t ≤ p ∧ p < 0 + m * t + m2
    · rw [if_pos h1, if_pos h1, hagree p hin, hagree (p + m2) (by omega)]
    · rw [if_neg h1, if_neg h1, if_pos (by omega), if_pos (by omega), hagree p hin,
        hagree (p - m2) (by omega)]
  have hdisj : ∀ (t t2 p : Nat), 0 ≤ t → t < 0 + B → 0 ≤ t2 → t2 < 0 + B →
      (m * t ≤ p ∧ p < m * t + m) → (m * t2 ≤ p ∧ p < m * t2 + m) → t = t2 := by
    intro t t2 p _ _ _ _ h1 h2
    have e1 : p / m = t := Nat.div_eq_of_lt_le (by rw [Nat.mul_comm]; exact h1.1)
      (by rw [Nat.succ_mul, Nat.mul_comm]; exact h1.2)
    have e2 : p / m = t2 := Nat.div_eq_of_lt_le (by rw [Nat.mul_comm]; exact h2.1)
      (by rw [Nat.succ_mul, Nat.mul_comm]; exact h2.2)
    omega
  by_cases hp : p < m * B
  · rw [if_pos hp]
    have hmpos : 0 < m := by
      rcases Nat.eq_zero_or_pos m with e | e
      · rw [e] at hp
        simp at hp
      · exact e
    have hdm := Nat.div_add_mod p m
    have hmod := Nat.mod_lt p hmpos
    have ht : p / m < B := by
      rw [Nat.div_lt_iff_lt_mul hmpos, Nat.mul_comm]
      exact hp
    rw [forLoop_local _ _ _ _ hframe hlocal hdisj x p (p / m) (Nat.zero_le _)
      (by rw [Nat.zero_add]; exact ht) ⟨by omega, by omega⟩, butterfly_inner]
    by_cases h1 : p % m < m2
    · rw [if_pos h1, if_pos (by omega)]
      congr 3
      omega
    · rw [if_neg h1, if_neg (by omega), if_pos (by omega)]
      congr 3
      omega
  · rw [if_neg hp, forLoop_untouched _ _ _ _ hframe x p]
    intro t _ ht hin
    have : m * t + m ≤ m * B := by
      have := Nat.mul_le_mul_left m (show t + 1 ≤ B by omega)
      rw [Nat.mul_add, Nat.mul_one] at this
      exact this
    omega

/-- The effect of one stage `s` (`1 ≤ s ≤ b`) on an array of `2^b` samples. -/
theorem fft_stage_eq {R : Type} [CommRing R] (x twiddle : Buf (complex_t R)) (b s p : Nat)
    (hs1 : 1 ≤ s) (hsb : s ≤ b) :
    fft_stage x (2 ^ b) twiddle s p
      = if p < 2 ^ b then
          (if p % 2 ^ s < 2 ^ (s - 1) then
            complex_add (x p)
              (complex_mul (x (p + 2 ^ (s - 1))) (twiddle (p % 2 ^ s * 2 ^ b / 2 ^ s)))
          else
            complex_sub (x (p - 2 ^ (s - 1)))
              (complex_mul (x p) (twiddle ((p % 2 ^ s - 2 ^ (s - 1)) * 2 ^ b / 2 ^ s))))
        else x p := by
  obtain ⟨c, rfl⟩ : ∃ c, s = c + 1 := ⟨s - 1, by omega⟩
  obtain ⟨d, rfl⟩ : ∃ d, b = c + 1 + d := ⟨b - (c + 1), by omega⟩
  have hm : (2 : Nat) ^ (c + 1) = 2 ^ c + 2 ^ c := by rw [pow_succ]; omega
  have hpos : 0 < (2 : Nat) ^ (c + 1) := Nat.two_pow_pos _
  have hn : (2 : Nat) ^ (c + 1 + d) = 2 ^ (c + 1) * 2 ^ d := pow_add 2 (c + 1) d
  have hcount : (2 ^ (c + 1 + d) + 2 ^ (c + 1) - 1) / 2 ^ (c + 1) = 2 ^ d := by
    rw [hn]
    have e : 2 ^ (c + 1) * 2 ^ d + 2 ^ (c + 1) - 1 = 2 ^ (c + 1) - 1 + 2 ^ (c + 1) * 2 ^ d := by
      omega
    rw [e, Nat.add_mul_div_left _ _ hpos, Nat.div_eq_of_lt (by omega), Nat.zero_add]
  have hshift : (2 : Nat) ^ (c + 1) >>> 1 = 2 ^ c := by
    rw [Nat.shiftRight_eq_div_pow, pow_succ]
    simp
  unfold fft_stage forStep forRange
  simp only [Nat.one_shiftLeft, hshift, hcount, Nat.sub_zero, Nat.add_sub_cancel]
  rw [butterfly_blocks x (2 ^ d) (2 ^ (c + 1)) (2 ^ c) hm
    (fun j => twiddle (j * 2 ^ (c + 1 + d) / 2 ^ (c + 1))) p, ← hn]

/-- For a length `2^b ≤ 65536` no twiddle index overflows, and `fft_scalar` is the bit-reversal
permutation followed by the stages `1, ..., b`. -/
theorem fft_scalar_eq_some {R : Type} [CommRing R] (x twiddle : Buf (complex_t R)) (b : Nat)
    (hb : b ≤ 16) :
    fft_scalar x (2 ^ b) twiddle
      = some (forLoop b 1 (fun s x => fft_stage x (2 ^ b) twiddle s)
          (bit_reverse_array x (2 ^ b))) := by
  unfold fft_scalar forRangeM
  simp only [count_bits_self_two_pow, Nat.add_sub_cancel]
  apply forLoopM_eq_some
  intro s y hs1 hs2
  unfold fft_stage forStepM forStep
  apply forLoopM_eq_some
  intro t y2 _ _
  simp only [forRange]
  apply forLoopM_eq_some
  intro j y3 _ hj
  have hn : (2 : Nat) ^ b ≤ 65536 := by
    calc (2 : Nat) ^ b ≤ 2 ^ 16 := Nat.pow_le_pow_right (by decide) hb
      _ = 65536 := by decide
  have hm2 : (1 <<< s) >>> 1 ≤ 32768 := by
    obtain ⟨c, rfl⟩ : ∃ c, s = c + 1 := ⟨s - 1, by omega⟩
    rw [Nat.one_shiftLeft, Nat.shiftRight_eq_div_pow, pow_succ]
    simp only [pow_one, Nat.mul_div_cancel _ (show 0 < 2 by decide)]
    calc (2 : Nat) ^ c ≤ 2 ^ 15 := Nat.pow_le_pow_right (by decide) (by omega)
      _ = 32768 := by decide
  have hprod : j * 2 ^ b ≤ 32767 * 65536 := Nat.mul_le_mul (by omega) hn
  have hidx : twiddle_index j (2 ^ b) (1 <<< s) = some (j * 2 ^ b / 1 <<< s) := by
    unfold twiddle_index INT_MAX
    rw [if_pos (by omega)]
  rw [hidx]
  rfl

/-! ## FFT: the unit impulse -/

theorem complex_mul_zero_left {R : Type} [CommRing R] (w : complex_t R) :
    complex_mul ({ re := 0, im := 0 } : complex_t R) w = { re := 0, im := 0 } := by
  simp [complex_mul]

theorem complex_add_zero_right {R : Type} [CommRing R] (a : complex_t R) :
    complex_add a ({ re := 0, im := 0 } : complex_t R) = a := by
  simp [complex_add]

theorem complex_sub_zero_right {R : Type} [CommRing R] (a : complex_t R) :
    complex_sub a ({ re := 0, im := 0 } : complex_t R) = a := by
  simp [complex_sub]

theorem bit_reverse_zero_arg (b : Nat) : bit_reverse 0 b = 0 := by
  induction b with
  | zero => exact bit_reverse_zero 0
  | succ c ih =>
    rw [bit_reverse_succ]
    simp only [Nat.zero_mod, Nat.zero_mul, Nat.zero_div, Nat.zero_add]
    exact ih

/-- The bit-reversal permutation leaves the unit impulse as it is. -/
theorem bit_reverse_array_impulse {R : Type} [CommRing R] (b : Nat) :
    bit_reverse_array (impulse : Buf (complex_t R)) (2 ^ b) = impulse := by
  funext p
  rw [bit_reverse_array_eq]
  by_cases hp : p < 2 ^ b
  · rw [if_pos hp]
    unfold impulse
    by_cases h0 : p = 0
    · subst h0
      rw [bit_reverse_zero_arg]
    · have hne : bit_reverse p b ≠ 0 := by
        intro e
        have h := bit_reverse_involutive p b hp
        rw [e, bit_reverse_zero_arg] at h
        exact h0 h.symm
      rw [if_neg hne, if_neg h0]
  · rw [if_neg hp]

/-- After the stages `1, ..., s` the unit impulse has become `2^s` ones followed by zeros. -/
theorem fft_stages_impulse {R : Type} [CommRing R] (twiddle : Buf (complex_t R)) (b s : Nat)
    (hs : s ≤ b) :
    forLoop s 1 (fun st x => fft_stage x (2 ^ b) twiddle st) (impulse : Buf (complex_t R))
      = fun i => if i < 2 ^ s then { re := 1, im := 0 } else { re := 0, im := 0 } := by
  induction s with
  | zero =>
    funext i
    simp only [forLoop, impulse, pow_zero, Nat.lt_one_iff]
  | succ s ih =>
    rw [forLoop_succ_last, ih (by omega)]
    funext p
    rw [fft_stage_eq _ _ b (1 + s) p (by omega) (by omega)]
    have e1 : 1 + s = s + 1 := by omega
    have e2 : 1 + s - 1 = s := by omega
    rw [e2, e1]
    have hM : (2 : Nat) ^ (s + 1) = 2 ^ s + 2 ^ s := by rw [pow_succ]; omega
    have hpos : 0 < (2 : Nat) ^ s := Nat.two_pow_pos s
    have hMb : (2 : Nat) ^ (s + 1) ≤ 2 ^ b := Nat.pow_le_pow_right (by decide) (by omega)
    have hmodle : p % 2 ^ (s + 1) ≤ p := Nat.mod_le _ _
    by_cases hp : p < 2 ^ b
    · rw [if_pos hp]
      by_cases hj : p % 2 ^ (s + 1) < 2 ^ s
      · rw [if_pos hj, if_neg (show ¬(p + 2 ^ s < 2 ^ s) by omega), complex_mul_zero_left,
          complex_add_zero_right]
        by_cases hpM : p < 2 ^ (s + 1)
        · rw [Nat.mod_eq_of_lt hpM] at hj
          rw [if_pos hj, if_pos hpM]
        · rw [if_neg (by omega), if_neg hpM]
      · rw [if_neg hj, if_neg (show ¬(p < 2 ^ s) by omega), complex_mul_zero_left,
          complex_sub_zero_right]
        by_cases hpM : p < 2 ^ (s + 1)
        · rw [if_pos (by omega), if_pos hpM]
        · rw [if_neg (by omega), if_neg hpM]
    · rw [if_neg hp, if_neg (by omega), if_neg (by omega)]

/-- The unit impulse through `fft_scalar`, for every power-of-two length up to 65536 and every
twiddle table: `(1, 0)` in every bin. -/
theorem fft_scalar_impulse {R : Type} [CommRing R] (twiddle : Buf (complex_t R)) (b : Nat)
    (hb : b ≤ 16) :
    fft_scalar impulse (2 ^ b) twiddle = some (ones_below (2 ^ b)) := by
  rw [fft_scalar_eq_some _ _ b hb, bit_reverse_array_impulse, fft_stages_impulse _ b b (le_refl b)]
  rfl

/-- A loop that can fail, followed through a known sequence of states. -/
theorem forLoopM_chain {σ : Type} (body : Nat → σ → Option σ) (n lo : Nat) (S : Nat → σ)
    (h : ∀ i, i < n → body (lo + i) (S i) = some (S (i + 1))) :
    forLoopM n lo body (S 0) = some (S n) := by
  induction n generalizing lo S with
  | zero => rfl
  | succ n ih =>
    simp only [forLoopM]
    have h0 := h 0 (by omega)
    rw [Nat.add_zero] at h0
    rw [h0]
    exact ih (lo + 1) (fun i => S (i + 1)) (fun i hi => by
      have := h (i + 1) (by omega)
      rw [show lo + 1 + i = lo + (i + 1) by omega]
      exact this)

/-- A scalar butterfly whose upper sample is zero copies the lower sample to the upper place. -/
theorem butterfly_zero_upper {R : Type} [CommRing R] (x : Buf (complex_t R)) (k j m2 : Nat)
    (w : complex_t R) (hb : x (k + j + m2) = { re := 0, im := 0 }) :
    butterfly x k j m2 w = store x (k + j + m2) (x (k + j)) := by
  funext p
  unfold butterfly
  simp only [hb, complex_mul_zero_left, complex_add_zero_right, complex_sub_zero_right, store]
  by_cases h1 : p = k + j + m2
  · rw [if_pos h1, if_pos h1]
  · rw [if_neg h1, if_neg h1]
    by_cases h2 : p = k + j
    · rw [if_pos h2, h2]
    · rw [if_neg h2]

/-- The values that one two-butterfly step of `fft_neon` stores: with `a0, a1` the lower and
`b0, b1` the upper samples and `tw0, tw1` the two loaded twiddle factors, the "product" added
to and subtracted from `a0` is `(b0.re * tw0.re, -(b0.re * tw0.im))` and the one for `a1` is
`(b1.re * tw1.re, -(b1.re * tw0.im))`. -/
theorem butterfly_pair_neon_eq {R : Type} [CommRing R] (x twiddle : Buf (complex_t R))
    (k j m2 idx : Nat) :
    butterfly_pair_neon x k j m2 idx twiddle
      = store (store (store (store x
          (k + j)
            { re := (x (k + j)).re + (x (k + j + m2)).re * (twiddle idx).re,
              im := (x (k + j)).im + (x (k + j + m2)).re * -(twiddle idx).im })
          (k + j + 1)
            { re := (x (k + j + 1)).re + (x (k + j + m2 + 1)).re * (twiddle (idx + 1)).re,
              im := (x (k + j + 1)).im + (x (k + j + m2 + 1)).re * -(twiddle idx).im })
          (k + j + m2)
            { re := (x (k + j)).re - (x (k + j + m2)).re * (twiddle idx).re,
              im := (x (k + j)).im - (x (k + j + m2)).re * -(twiddle idx).im })
          (k + j + m2 + 1)
            { re := (x (k + j + 1)).re - (x (k + j + m2 + 1)).re * (twiddle (idx + 1)).re,
              im := (x (k + j + 1)).im - (x (k + j + m2 + 1)).re * -(twiddle idx).im } :=
  rfl

/-- A pair of butterflies of `fft_neon` whose upper samples are zero copies the two lower
samples to the upper places. -/
theorem butterfly_pair_neon_zero_upper {R : Type} [CommRing R] (x twiddle : Buf (complex_t R))
    (k j m2 idx : Nat)
    (hb0 : x (k + j + m2) = { re := 0, im := 0 })
    (hb1 : x (k + j + m2 + 1) = { re := 0, im := 0 }) :
    butterfly_pair_neon x k j m2 idx twiddle
      = store (store x (k + j + m2) (x (k + j))) (k + j + m2 + 1) (x (k + j + 1)) := by
  rw [butterfly_pair_neon_eq, hb0, hb1]
  simp only [zero_mul, add_zero, sub_zero]
  funext p
  simp only [store]
  by_cases h1 : p = k + j + m2 + 1
  · rw [if_pos h1, if_pos h1]
  · rw [if_neg h1, if_neg h1]
    by_cases h2 : p = k + j + m2
    · rw [if_pos h2, if_pos h2]
    · rw [if_neg h2, if_neg h2]
      by_cases h3 : p = k + j + 1
      · rw [if_pos h3, h3]
      · rw [if_neg h3]
        by_cases h4 : p = k + j
        · rw [if_pos h4, h4]
        · rw [if_neg h4]

theorem ones_below_apply {R : Type} [CommRing R] (c q : Nat) :
    (ones_below c : Buf (complex_t R)) q
      = if q < c then { re := 1, im := 0 } else { re := 0, im := 0 } := rfl

theorem impulse_eq_ones_below {R : Type} [CommRing R] :
    (impulse : Buf (complex_t R)) = ones_below (2 ^ 0) := by
  funext i
  simp only [impulse, ones_below, pow_zero, Nat.lt_one_iff]

/-- The body of the inner loop of `fft_neon` when no index overflows and the upper samples
are zero. -/
theorem fft_neon_body_zero_upper {R : Type} [CommRing R] (x twiddle : Buf (complex_t R))
    (k j m2 n m : Nat) (hov : j * n ≤ INT_MAX)
    (hb0 : x (k + j + m2) = { re := 0, im := 0 })
    (hb1 : x (k + j + m2 + 1) = { re := 0, im := 0 }) :
    (if j + 1 < m2 then
        (twiddle_index j n m).map (fun idx => butterfly_pair_neon x k j m2 idx twiddle)
      else
        (twiddle_index j n m).map (fun idx => butterfly x k j m2 (twiddle idx)))
      = some (if j + 1 < m2 then
          store (store x (k + j + m2) (x (k + j))) (k + j + m2 + 1) (x (k + j + 1))
        else store x (k + j + m2) (x (k + j))) := by
  have hidx : twiddle_index j n m = some (j * n / m) := by
    unfold twiddle_index
    rw [if_pos hov]
  rw [hidx]
  by_cases h : j + 1 < m2
  · rw [if_pos h, if_pos h, Option.map_some', butterfly_pair_neon_zero_upper _ _ _ _ _ _ hb0 hb1]
  · rw [if_neg h, if_neg h, Option.map_some', butterfly_zero_upper _ _ _ _ _ hb0]

/-- The inner loop of `fft_neon` on block 0 of stage `s + 1`, started from `2^s` ones. -/
theorem fft_neon_block0_impulse {R : Type} [CommRing R] (twiddle : Buf (complex_t R))
    (s n m : Nat) (hs : s ≤ 15) (hn : n ≤ 65536) :
    forStepM 0 (2 ^ s) 2 (fun j x =>
        if j + 1 < 2 ^ s then
          (twiddle_index j n m).map (fun idx => butterfly_pair_neon x 0 j (2 ^ s) idx twiddle)
        else
          (twiddle_index j n m).map (fun idx => butterfly x 0 j (2 ^ s) (twiddle idx)))
        (ones_below (2 ^ s))
      = some (ones_below (2 ^ s + 2 ^ s)) := by
  have hm2 : (2 : Nat) ^ s ≤ 32768 := by
    calc (2 : Nat) ^ s ≤ 2 ^ 15 := Nat.pow_le_pow_right (by decide) hs
      _ = 32768 := by decide
  have hpos : 0 < (2 : Nat) ^ s := Nat.two_pow_pos s
  unfold forStepM
  have hchain := forLoopM_chain
    (fun t x =>
      if 0 + 2 * t + 1 < 2 ^ s then
        (twiddle_index (0 + 2 * t) n m).map
          (fun idx => butterfly_pair_neon x 0 (0 + 2 * t) (2 ^ s) idx twiddle)
      else
        (twiddle_index (0 + 2 * t) n m).map
          (fun idx => butterfly x 0 (0 + 2 * t) (2 ^ s) (twiddle idx)))
    ((2 ^ s - 0 + 2 - 1) / 2) 0
    (fun i => (ones_below (2 ^ s + min (2 * i) (2 ^ s)) : Buf (complex_t R)))
  have hfinal : 2 ^ s + min (2 * ((2 ^ s - 0 + 2 - 1) / 2)) (2 ^ s) = 2 ^ s + 2 ^ s := by
    omega
  simp only [hfinal, Nat.mul_zero, Nat.zero_min, Nat.add_zero] at hchain
  apply hchain
  intro i hi
  have hj : 0 + 2 * (0 + i) < 2 ^ s := by omega
  have hprod : (0 + 2 * (0 + i)) * n ≤ 32767 * 65536 := Nat.mul_le_mul (by omega) hn
  rw [fft_neon_body_zero_upper _ _ _ _ _ _ _ (by unfold INT_MAX; omega)
    (by rw [ones_below_apply, if_neg (by omega)])
    (by rw [ones_below_apply, if_neg (by omega)])]
  congr 1
  by_cases h : 0 + 2 * (0 + i) + 1 < 2 ^ s
  · rw [if_pos h]
    funext q
    simp only [store, ones_below]
    by_cases h1 : q = 0 + (0 + 2 * (0 + i)) + 2 ^ s + 1
    · rw [if_pos h1, if_pos (by omega), if_pos (by omega)]
    · rw [if_neg h1]
      by_cases h2 : q = 0 + (0 + 2 * (0 + i)) + 2 ^ s
      · rw [if_pos h2, if_pos (by omega), if_pos (by omega)]
      · rw [if_neg h2]
        by_cases h3 : q < 2 ^ s + min (2 * i) (2 ^ s)
        · rw [if_pos h3, if_pos (by omega)]
        · rw [if_neg h3, if_neg (by omega)]
  · rw [if_neg h]
    funext q
    simp only [store, ones_below]
    by_cases h2 : q = 0 + (0 + 2 * (0 + i)) + 2 ^ s
    · rw [if_pos h2, if_pos (by omega), if_pos (by omega)]
    · rw [if_neg h2]
      by_cases h3 : q < 2 ^ s + min (2 * i) (2 ^ s)
      · rw [if_pos h3, if_pos (by omega)]
      · rw [if_neg h3, if_neg (by omega)]

/-- The inner loop of `fft_neon` on a block that holds only zeros leaves the signal as it is. -/
theorem fft_neon_block_zero {R : Type} [CommRing R] (twiddle : Buf (complex_t R))
    (s n m k : Nat) (hs : s ≤ 15) (hn : n ≤ 65536) (hk : 2 ^ s + 2 ^ s ≤ k) :
    forStepM 0 (2 ^ s) 2 (fun j x =>
        if j + 1 < 2 ^ s then
          (twiddle_index j n m).map (fun idx => butterfly_pair_neon x k j (2 ^ s) idx twiddle)
        else
          (twiddle_index j n m).map (fun idx => butterfly x k j (2 ^ s) (twiddle idx)))
        (ones_below (2 ^ s + 2 ^ s))
      = some (ones_below (2 ^ s + 2 ^ s)) := by
  have hm2 : (2 : Nat) ^ s ≤ 32768 := by
    calc (2 : Nat) ^ s ≤ 2 ^ 15 := Nat.pow_le_pow_right (by decide) hs
      _ = 32768 := by decide
  unfold forStepM
  apply forLoopM_chain _ _ _ (fun _ => (ones_below (2 ^ s + 2 ^ s) : Buf (complex_t R)))
  intro i hi
  have hj : 0 + 2 * (0 + i) < 2 ^ s := by omega
  have hprod : (0 + 2 * (0 + i)) * n ≤ 32767 * 65536 := Nat.mul_le_mul (by omega) hn
  beta_reduce
  rw [fft_neon_body_zero_upper _ _ _ _ _ _ _ (by unfold INT_MAX; omega)
    (by rw [ones_below_apply, if_neg (by omega)])
    (by rw [ones_below_apply, if_neg (by omega)])]
  congr 1
  by_cases h : 0 + 2 * (0 + i) + 1 < 2 ^ s
  · rw [if_pos h]
    funext q
    simp only [store, ones_below]
    by_cases h1 : q = k + (0 + 2 * (0 + i)) + 2 ^ s + 1
    · rw [if_pos h1, if_neg (by omega), if_neg (by omega)]
    · rw [if_neg h1]
      by_cases h2 : q = k + (0 + 2 * (0 + i)) + 2 ^ s
      · rw [if_pos h2, if_neg (by omega), if_neg (by omega)]
      · rw [if_neg h2]
  · rw [if_neg h]
    funext q
    simp only [store, ones_below]
    by_cases h2 : q = k + (0 + 2 * (0 + i)) + 2 ^ s
    · rw [if_pos h2, if_neg (by omega), if_neg (by omega)]
    · rw [if_neg h2]

/-- Stage `s + 1` of `fft_neon` turns `2^s` ones into `2^(s+1)` ones. -/
theorem fft_neon_stage_impulse {R : Type} [CommRing R] (twiddle : Buf (complex_t R))
    (b s : Nat) (hs : s < b) (hb : b ≤ 16) :
    forStepM 0 (2 ^ b) (1 <<< (1 + s)) (fun k x =>
        forStepM 0 ((1 <<< (1 + s)) >>> 1) 2 (fun j x =>
          if j + 1 < (1 <<< (1 + s)) >>> 1 then
            (twiddle_index j (2 ^ b) (1 <<< (1 + s))).map
              (fun idx => butterfly_pair_neon x k j ((1 <<< (1 + s)) >>> 1) idx twiddle)
          else
            (twiddle_index j (2 ^ b) (1 <<< (1 + s))).map
              (fun idx => butterfly x k j ((1 <<< (1 + s)) >>> 1) (twiddle idx))) x)
        (ones_below (2 ^ s))
      = some (ones_below (2 ^ (s + 1))) := by
  have hn : (2 : Nat) ^ b ≤ 65536 := by
    calc (2 : Nat) ^ b ≤ 2 ^ 16 := Nat.pow_le_pow_right (by decide) hb
      _ = 65536 := by decide
  have hM : (2 : Nat) ^ (s + 1) = 2 ^ s + 2 ^ s := by rw [pow_succ]; omega
  have hshift : (1 <<< (1 + s)) >>> 1 = 2 ^ s := by
    rw [Nat.one_shiftLeft, Nat.shiftRight_eq_div_pow, Nat.add_comm 1 s, pow_succ]
    simp
  have hMb : (2 : Nat) ^ (s + 1) ≤ 2 ^ b := Nat.pow_le_pow_right (by decide) (by omega)
  have hpos : 0 < (2 : Nat) ^ s := Nat.two_pow_pos s
  rw [hshift]
  generalize hm : 1 <<< (1 + s) = m
  have hmval : m = 2 ^ s + 2 ^ s := by
    rw [← hm, Nat.one_shiftLeft, Nat.add_comm 1 s, hM]
  unfold forStepM
  have hcount : 1 ≤ (2 ^ b - 0 + m - 1) / m := by
    rw [Nat.le_div_iff_mul_le (by omega)]
    omega
  have hchain := forLoopM_chain
    (fun t x =>
      forLoopM ((2 ^ s - 0 + 2 - 1) / 2) 0
        (fun t2 x =>
          if 0 + 2 * t2 + 1 < 2 ^ s then
            (twiddle_index (0 + 2 * t2) (2 ^ b) m).map
              (fun idx => butterfly_pair_neon x (0 + m * t) (0 + 2 * t2) (2 ^ s) idx twiddle)
          else
            (twiddle_index (0 + 2 * t2) (2 ^ b) m).map
              (fun idx => butterfly x (0 + m * t) (0 + 2 * t2) (2 ^ s) (twiddle idx))) x)
    ((2 ^ b - 0 + m - 1) / m) 0
    (fun t => if t = 0 then (ones_below (2 ^ s) : Buf (complex_t R))
      else ones_below (2 ^ s + 2 ^ s))
  simp only [if_true, if_neg (show ¬((2 ^ b - 0 + m - 1) / m = 0) by omega)] at hchain
  rw [hM]
  apply hchain
  intro t _
  by_cases ht : t = 0
  · subst ht
    simp only [Nat.add_zero, Nat.mul_zero, if_true, if_neg (show ¬(0 + 1 = 0) by omega)]
    exact fft_neon_block0_impulse twiddle s (2 ^ b) m (by omega) hn
  · rw [if_neg ht, if_neg (show ¬(t + 1 = 0) by omega)]
    have hk : 2 ^ s + 2 ^ s ≤ 0 + m * (0 + t) := by
      have := Nat.mul_le_mul_left m (show 1 ≤ 0 + t by omega)
      omega
    exact fft_neon_block_zero twiddle s (2 ^ b) m _ (by omega) hn hk

/-- The unit impulse through `fft_neon`, for every power-of-two length up to 65536 and every
twiddle table: `(1, 0)` in every bin. -/
theorem fft_neon_impulse {R : Type} [CommRing R] (twiddle : Buf (complex_t R)) (b : Nat)
    (hb : b ≤ 16) :
    fft_neon impulse (2 ^ b) twiddle = some (ones_below (2 ^ b)) := by
  unfold fft_neon forRangeM
  simp only [count_bits_self_two_pow, Nat.add_sub_cancel, bit_reverse_array_impulse]
  rw [impulse_eq_ones_below]
  apply forLoopM_chain _ b 1 (fun s => (ones_below (2 ^ s) : Buf (complex_t R)))
  intro s hs
  exact fft_neon_stage_impulse twiddle b s hs hb

/-! ## FFT: the discrete Fourier transform -/

/-- Splitting a sum over `2 n` indices into even and odd indices. -/
theorem sum_range_even_odd {K : Type} [CommRing K] (f : Nat → K) (n : Nat) :
    ∑ t ∈ Finset.range (n + n), f t = ∑ t ∈ Finset.range n, (f (2 * t) + f (2 * t + 1)) := by
  induction n with
  | zero => simp
  | succ n ih =>
    have e : n + 1 + (n + 1) = n + n + 1 + 1 := by omega
    rw [e, Finset.sum_range_succ, Finset.sum_range_succ, Finset.sum_range_succ, ih]
    have e2 : n + n = 2 * n := by omega
    rw [e2, add_assoc]

/-- The decimation-in-time step for an output in the lower half of a block. -/
theorem dft_combine {K : Type} [CommRing K] (w : K) (g : Nat → K) (c s j : Nat) :
    ∑ t ∈ Finset.range (2 ^ (s + 1)), g t * w ^ (2 ^ c * j * t)
      = (∑ t ∈ Finset.range (2 ^ s), g (2 * t) * w ^ (2 ^ (c + 1) * j * t))
        + (∑ t ∈ Finset.range (2 ^ s), g (2 * t + 1) * w ^ (2 ^ (c + 1) * j * t))
          * w ^ (j * 2 ^ c) := by
  have hM : (2 : Nat) ^ (s + 1) = 2 ^ s + 2 ^ s := by rw [pow_succ]; omega
  rw [hM, sum_range_even_odd, Finset.sum_add_distrib, Finset.sum_mul]
  congr 1
  · apply Finset.sum_congr rfl
    intro t _
    have e : 2 ^ c * j * (2 * t) = 2 ^ (c + 1) * j * t := by
      rw [pow_succ]
      ring
    rw [e]
  · apply Finset.sum_congr rfl
    intro t _
    have e : 2 ^ c * j * (2 * t + 1) = 2 ^ (c + 1) * j * t + j * 2 ^ c := by
      rw [pow_succ]
      ring
    rw [e, pow_add]
    ring

/-- The decimation-in-time step for an output in the upper half of a block. -/
theorem dft_combine_neg {K : Type} [CommRing K] (w : K) (g : Nat → K) (c s j : Nat)
    (hw : w ^ (2 ^ (c + s)) = -1) :
    ∑ t ∈ Finset.range (2 ^ (s + 1)), g t * w ^ (2 ^ c * (j + 2 ^ s) * t)
      = (∑ t ∈ Finset.range (2 ^ s), g (2 * t) * w ^ (2 ^ (c + 1) * j * t))
        - (∑ t ∈ Finset.range (2 ^ s), g (2 * t + 1) * w ^ (2 ^ (c + 1) * j * t))
          * w ^ (j * 2 ^ c) := by
  have hM : (2 : Nat) ^ (s + 1) = 2 ^ s + 2 ^ s := by rw [pow_succ]; omega
  rw [hM, sum_range_even_odd, Finset.sum_add_distrib, Finset.sum_mul, sub_eq_add_neg,
    ← Finset.sum_neg_distrib]
  congr 1
  · apply Finset.sum_congr rfl
    intro t _
    have e : 2 ^ c * (j + 2 ^ s) * (2 * t) = 2 ^ (c + 1) * j * t + 2 ^ (c + s) * (2 * t) := by
      rw [pow_succ, pow_add]
      ring
    rw [e, pow_add, pow_mul w (2 ^ (c + s)) (2 * t), hw, pow_mul (-1 : K) 2 t, neg_one_sq,
      one_pow, mul_one]
  · apply Finset.sum_congr rfl
    intro t _
    have e : 2 ^ c * (j + 2 ^ s) * (2 * t + 1)
        = 2 ^ (c + 1) * j * t + j * 2 ^ c + 2 ^ (c + s) * (2 * t + 1) := by
      rw [pow_succ, pow_add]
      ring
    rw [e, pow_add, pow_add, pow_mul w (2 ^ (c + s)) (2 * t + 1), hw, pow_succ (-1 : K) (2 * t),
      pow_mul (-1 : K) 2 t, neg_one_sq, one_pow]
    ring

/-- The invariant of the stage loop of `fft_scalar`: after `s` stages, block `q` of length `2^s`
holds the transform of length `2^s` of the samples `x[rev(q) + 2^c t]`, `t < 2^s`, where
`c = b - s` and `rev` reverses `c` bits.  The map `φ` reads a `complex_t` as an element of a
commutative ring `K` in which `w` lives. -/
theorem fft_stages_dft {R K : Type} [CommRing R] [CommRing K] (φ : complex_t R → K)
    (hadd : ∀ a b, φ (complex_add a b) = φ a + φ b)
    (hsub : ∀ a b, φ (complex_sub a b) = φ a - φ b)
    (hmul : ∀ a b, φ (complex_mul a b) = φ a * φ b)
    (x twiddle : Buf (complex_t R)) (w : K) (b : Nat)
    (hw : ∀ e, e + 1 = b → w ^ (2 ^ e) = -1)
    (htw : ∀ k, 2 * k < 2 ^ b → φ (twiddle k) = w ^ k)
    (s c : Nat) (hsc : s + c = b) (q j : Nat) (hq : q < 2 ^ c) (hj : j < 2 ^ s) :
    φ (forLoop s 1 (fun st x => fft_stage x (2 ^ b) twiddle st) (bit_reverse_array x (2 ^ b))
        (2 ^ s * q + j))
      = ∑ t ∈ Finset.range (2 ^ s), φ (x (bit_reverse q c + 2 ^ c * t)) * w ^ (2 ^ c * j * t) := by
  induction s generalizing c q j with
  | zero =>
    have hj0 : j = 0 := by
      rw [pow_zero] at hj
      omega
    have hc : c = b := by omega
    subst hj0 hc
    simp only [forLoop, pow_zero, Nat.one_mul, Nat.add_zero, Finset.range_one,
      Finset.sum_singleton, Nat.mul_zero, mul_one]
    rw [bit_reverse_array_eq, if_pos hq]
  | succ s ih =>
    have hM : (2 : Nat) ^ (s + 1) = 2 * 2 ^ s := by rw [pow_succ]; ring
    have hC : (2 : Nat) ^ (c + 1) = 2 * 2 ^ c := by rw [pow_succ]; ring
    have hN : (2 : Nat) ^ b = 2 ^ (s + 1) * 2 ^ c := by rw [← hsc, pow_add]
    have hMpos : 0 < (2 : Nat) ^ (s + 1) := Nat.two_pow_pos _
    have hCpos : 0 < (2 : Nat) ^ c := Nat.two_pow_pos _
    have hplt : 2 ^ (s + 1) * q + j < 2 ^ b := by
      have h1 : 2 ^ (s + 1) * (q + 1) ≤ 2 ^ (s + 1) * 2 ^ c := Nat.mul_le_mul_left _ (by omega)
      rw [Nat.mul_add, Nat.mul_one] at h1
      omega
    have hpmod : (2 ^ (s + 1) * q + j) % 2 ^ (s + 1) = j := by
      rw [Nat.mul_add_mod, Nat.mod_eq_of_lt hj]
    have hrev0 : bit_reverse (2 * q) (c + 1) = bit_reverse q c := by
      rw [bit_reverse_succ, Nat.mul_mod_right, Nat.zero_mul, Nat.zero_add,
        Nat.mul_div_cancel_left _ (show 0 < 2 by decide)]
    have hrev1 : bit_reverse (2 * q + 1) (c + 1) = 2 ^ c + bit_reverse q c := by
      rw [bit_reverse_succ]
      have e1 : (2 * q + 1) % 2 = 1 := by omega
      have e2 : (2 * q + 1) / 2 = q := by omega
      rw [e1, e2, Nat.one_mul]
    have hwneg : w ^ (2 ^ (c + s)) = -1 := hw (c + s) (by omega)
    have hidx : ∀ i, i < 2 ^ s → i * 2 ^ b / 2 ^ (s + 1) = i * 2 ^ c := by
      intro i _
      rw [hN, ← Nat.mul_assoc, Nat.mul_comm i, Nat.mul_assoc,
        Nat.mul_div_cancel_left _ hMpos]
    have htwi : ∀ i, i < 2 ^ s → φ (twiddle (i * 2 ^ c)) = w ^ (i * 2 ^ c) := by
      intro i hi
      apply htw
      have h1 : (i + 1) * 2 ^ c ≤ 2 ^ s * 2 ^ c := Nat.mul_le_mul_right _ (by omega)
      rw [Nat.add_mul, Nat.one_mul] at h1
      rw [hN, hM]
      have h2 : 2 * 2 ^ s * 2 ^ c = 2 * (2 ^ s * 2 ^ c) := by ring
      omega
    have hsum0 : ∀ i, i < 2 ^ s →
        φ (forLoop s 1 (fun st x => fft_stage x (2 ^ b) twiddle st)
            (bit_reverse_array x (2 ^ b)) (2 ^ s * (2 * q) + i))
          = ∑ t ∈ Finset.range (2 ^ s),
              φ (x (bit_reverse q c + 2 ^ c * (2 * t))) * w ^ (2 ^ (c + 1) * i * t) := by
      intro i hi
      rw [ih (c + 1) (by omega) (2 * q) i (by omega) hi, hrev0]
      apply Finset.sum_congr rfl
      intro t _
      have e : 2 ^ (c + 1) * t = 2 ^ c * (2 * t) := by rw [hC]; ring
      rw [e]
    have hsum1 : ∀ i, i < 2 ^ s →
        φ (forLoop s 1 (fun st x => fft_stage x (2 ^ b) twiddle st)
            (bit_reverse_array x (2 ^ b)) (2 ^ s * (2 * q + 1) + i))
          = ∑ t ∈ Finset.range (2 ^ s),
              φ (x (bit_reverse q c + 2 ^ c * (2 * t + 1))) * w ^ (2 ^ (c + 1) * i * t) := by
      intro i hi
      rw [ih (c + 1) (by omega) (2 * q + 1) i (by omega) hi, hrev1]
      apply Finset.sum_congr rfl
      intro t _
      have e : 2 ^ c + bit_reverse q c + 2 ^ (c + 1) * t
          = bit_reverse q c + 2 ^ c * (2 * t + 1) := by rw [hC]; ring
      rw [e]
    rw [forLoop_succ_last, fft_stage_eq _ _ b (1 + s) _ (by omega) (by omega)]
    have e1 : 1 + s = s + 1 := by omega
    have e2 : 1 + s - 1 = s := by omega
    rw [e2, e1, if_pos hplt, hpmod]
    by_cases hjlo : j < 2 ^ s
    · rw [if_pos hjlo, hadd, hmul, hidx j hjlo, htwi j hjlo]
      have hp1 : 2 ^ (s + 1) * q + j = 2 ^ s * (2 * q) + j := by rw [hM]; ring
      have hp2 : 2 ^ (s + 1) * q + j + 2 ^ s = 2 ^ s * (2 * q + 1) + j := by rw [hM]; ring
      rw [hp2, hsum1 j hjlo, hp1, hsum0 j hjlo]
      exact (dft_combine w (fun t => φ (x (bit_reverse q c + 2 ^ c * t))) c s j).symm
    · rw [if_neg hjlo, hsub, hmul]
      obtain ⟨i, rfl⟩ : ∃ i, j = i + 2 ^ s := ⟨j - 2 ^ s, by omega⟩
      have hi : i < 2 ^ s := by omega
      rw [Nat.add_sub_cancel, hidx i hi, htwi i hi]
      have hp1 : 2 ^ (s + 1) * q + (i + 2 ^ s) - 2 ^ s = 2 ^ s * (2 * q) + i := by
        rw [hM]
        have : 2 * 2 ^ s * q + (i + 2 ^ s) - 2 ^ s = 2 * 2 ^ s * q + i := by omega
        rw [this]
        ring
      have hp2 : 2 ^ (s + 1) * q + (i + 2 ^ s) = 2 ^ s * (2 * q + 1) + i := by rw [hM]; ring
      rw [hp1, hsum0 i hi, hp2, hsum1 i hi]
      exact (dft_combine_neg w (fun t => φ (x (bit_reverse q c + 2 ^ c * t))) c s i hwneg).symm

/-- In exact arithmetic `fft_scalar` computes the unnormalized forward transform for every
power-of-two length up to 65536: stated for any reading `φ` of `complex_t` in a commutative
ring that turns `complex_add`, `complex_sub`, `complex_mul` into `+`, `-`, `*`, any `w` with
`w^(N/2) = -1`, and a twiddle table with `twiddle[k] = w^k` for `k < N/2`. -/
theorem fft_scalar_dft_of_hom {R K : Type} [CommRing R] [CommRing K] (φ : complex_t R → K)
    (hadd : ∀ a b, φ (complex_add a b) = φ a + φ b)
    (hsub : ∀ a b, φ (complex_sub a b) = φ a - φ b)
    (hmul : ∀ a b, φ (complex_mul a b) = φ a * φ b)
    (x twiddle : Buf (complex_t R)) (w : K) (b : Nat) (hb : b ≤ 16)
    (hw : ∀ e, e + 1 = b → w ^ (2 ^ e) = -1)
    (htw : ∀ k, 2 * k < 2 ^ b → φ (twiddle k) = w ^ k) :
    ∃ X, fft_scalar x (2 ^ b) twiddle = some X
      ∧ ∀ k, k < 2 ^ b → φ (X k) = ∑ j ∈ Finset.range (2 ^ b), φ (x j) * w ^ (j * k) := by
  refine ⟨_, fft_scalar_eq_some x twiddle b hb, ?_⟩
  intro k hk
  have h := fft_stages_dft φ hadd hsub hmul x twiddle w b hw htw b 0 (by omega) 0 k
    (by simp) hk
  rw [Nat.mul_zero, Nat.zero_add] at h
  rw [h]
  apply Finset.sum_congr rfl
  intro t _
  rw [bit_reverse_zero, pow_zero, Nat.zero_add, Nat.one_mul, Nat.one_mul, Nat.mul_comm k t]

theorem toComplex_add (a b : complex_t ℝ) :
    toComplex (complex_add a b) = toComplex a + toComplex b := by
  apply Complex.ext <;> simp [toComplex, complex_add]

theorem toComplex_sub (a b : complex_t ℝ) :
    toComplex (complex_sub a b) = toComplex a - toComplex b := by
  apply Complex.ext <;> simp [toComplex, complex_sub]

theorem toComplex_mul (a b : complex_t ℝ) :
    toComplex (complex_mul a b) = toComplex a * toComplex b := by
  apply Complex.ext <;> simp [toComplex, complex_mul]

/-- A primitive `2^(e+1)`-th root of unity in a field has `w^(2^e) = -1`. -/
theorem primitive_root_half_pow {K : Type} [Field K] (w : K) (e : Nat)
    (hw : IsPrimitiveRoot w (2 ^ (e + 1))) : w ^ (2 ^ e) = -1 := by
  have h1 : (w ^ (2 ^ e)) ^ 2 = 1 := by
    rw [← pow_mul, ← pow_succ]
    exact hw.pow_eq_one
  have h2 : w ^ (2 ^ e) ≠ 1 :=
    hw.pow_ne_one_of_pos_of_lt (Nat.two_pow_pos e) (Nat.pow_lt_pow_right (by decide) (by omega))
  rcases sq_eq_one_iff.mp h1 with h | h
  · exact absurd h h2
  · exact h

/-- For real components, a primitive `N`-th root of unity `w` of the complex numbers and the
twiddle table `twiddle[k] = w^k` (`k < N/2`), `fft_scalar` leaves in `x[k]` the unnormalized
forward DFT `∑ j < N, x_in[j] * w^(j k)`, for every power-of-two length `N = 2^b ≤ 65536`. -/
theorem fft_scalar_dft (x twiddle : Buf (complex_t ℝ)) (w : ℂ) (b : Nat) (hb : b ≤ 16)
    (hw : IsPrimitiveRoot w (2 ^ b))
    (htw : ∀ k, 2 * k < 2 ^ b → toComplex (twiddle k) = w ^ k) :
    ∃ X, fft_scalar x (2 ^ b) twiddle = some X
      ∧ ∀ k, k < 2 ^ b →
        toComplex (X k) = ∑ j ∈ Finset.range (2 ^ b), toComplex (x j) * w ^ (j * k) := by
  apply fft_scalar_dft_of_hom toComplex toComplex_add toComplex_sub toComplex_mul x twiddle w b hb
    _ htw
  intro e he
  subst he
  exact primitive_root_half_pow w e hw

/-- The transform of length 2 as an instance: `w = -1`, twiddle table `[(1, 0)]`. -/
theorem fft_scalar_dft_length_two (x twiddle : Buf (complex_t ℝ))
    (h0 : twiddle 0 = { re := 1, im := 0 }) :
    ∃ X, fft_scalar x (2 ^ 1) twiddle = some X
      ∧ ∀ k, k < 2 ^ 1 →
        toComplex (X k) = ∑ j ∈ Finset.range (2 ^ 1), toComplex (x j) * (-1 : ℂ) ^ (j * k) := by
  apply fft_scalar_dft x twiddle (-1) 1 (by decide)
  · rw [pow_one]
    exact IsPrimitiveRoot.neg_one 0 (by decide)
  · intro k hk
    have hk0 : k = 0 := by omega
    subst hk0
    rw [h0]
    apply Complex.ext <;> simp [toComplex]

/-! ## FFT: the bit-reversal permutation -/

/-- C11. For `n = 2^b` and every index `i < n`, after `bit_reverse_array` the element at
index `i` is the original element at index `bit_reverse i b`, and the original element at
`i` is found at `bit_reverse i b`; the reversed index is again below `n` and reversing it
gives `i` back, so the reordering is a permutation of the `n` elements (no two indices
share a reversed index, every index is one); of the two loop iterations `i` and
`bit_reverse i b` of a pair with `i ≠ bit_reverse i b` exactly one takes the swap branch
`i < rev`; a fixed point keeps its element; elements from index `n` on are not touched. -/
theorem bit_reverse_array_permutes {α : Type} (array : Buf α) (b i : Nat) (hi : i < 2 ^ b) :
    bit_reverse_array array (2 ^ b) i = array (bit_reverse i b)
    ∧ bit_reverse_array array (2 ^ b) (bit_reverse i b) = array i
    ∧ bit_reverse i b < 2 ^ b
    ∧ bit_reverse (bit_reverse i b) b = i
    ∧ (∀ j, j < 2 ^ b → bit_reverse i b = bit_reverse j b → i = j)
    ∧ (∃ j, j < 2 ^ b ∧ bit_reverse j b = i)
    ∧ (bit_reverse i b ≠ i →
        (i < bit_reverse i b ∧ ¬ bit_reverse i b < bit_reverse (bit_reverse i b) b)
        ∨ (¬ i < bit_reverse i b ∧ bit_reverse i b < bit_reverse (bit_reverse i b) b))
    ∧ (bit_reverse i b = i → bit_reverse_array array (2 ^ b) i = array i)
    ∧ (∀ p, 2 ^ b ≤ p → bit_reverse_array array (2 ^ b) p = array p) := by
  have hlt := bit_reverse_lt i b
  have hinv := bit_reverse_involutive i b hi
  refine ⟨?_, ?_, hlt, hinv, ?_, ⟨bit_reverse i b, hlt, hinv⟩, ?_, ?_, ?_⟩
  · rw [bit_reverse_array_eq, if_pos hi]
  · rw [bit_reverse_array_eq, if_pos hlt, hinv]
  · intro j hj e
    rw [← hinv, e, bit_reverse_involutive j b hj]
  · intro hne
    rw [hinv]
    omega
  · intro e
    rw [bit_reverse_array_eq, if_pos hi, e]
  · intro p hp
    rw [bit_reverse_array_eq, if_neg (by omega)]

/-- Witness for C11: eight elements, index 1 whose reversed index is 4. -/
theorem bit_reverse_array_permutes_witness :
    1 < 2 ^ 3
    ∧ bit_reverse_array (fun k => 10 * k) (2 ^ 3) 1 = 40
    ∧ bit_reverse_array (fun k => 10 * k) (2 ^ 3) 4 = 10
    ∧ bit_reverse 1 3 = 4 :=
  have h := bit_reverse_array_permutes (fun k => 10 * k) 3 1 (by decide)
  have e : bit_reverse 1 3 = 4 := by decide
  ⟨by decide, h.1.trans (by rw [e]), (e ▸ h.2.1 : _), e⟩

/-! ## Elementwise float kernels and integer products -/

theorem simd_add_f32_eq {F : Type} [Add F] (a b c : Buf F) (len : Nat) :
    simd_add_f32 a b c len = fun j => if j < len then a j + b j else c j :=
  chunked_fill (fun j => a j + b j)
    (fun i => vaddq_f32 (vld1 4 a (i * 4)) (vld1 4 b (i * 4))) (fun _ _ => rfl) len c

theorem simd_mul_f32_eq {F : Type} [Mul F] (a b c : Buf F) (len : Nat) :
    simd_mul_f32 a b c len = fun j => if j < len then a j * b j else c j :=
  chunked_fill (fun j => a j * b j)
    (fun i => vmulq_f32 (vld1 4 a (i * 4)) (vld1 4 b (i * 4))) (fun _ _ => rfl) len c

/-- When no product of the tail overflows, `simd_mul_s32` stores the low 32 bits of the
product at every index below `len` and keeps the rest of `c`. -/
theorem simd_mul_s32_eq_some (a b c : Buf Int) (len : Nat)
    (h : ∀ j, len / 4 * 4 ≤ j → j < len → in_int32 (a j * b j)) :
    simd_mul_s32 a b c len = some (fun j => if j < len then wrapS32 (a j * b j) else c j) := by
  unfold simd_mul_s32 forRangeM
  have hle : len / 4 * 4 ≤ len := Nat.div_mul_le_self len 4
  rw [forLoopM_store_some (fun i => in_int32 (a i * b i)) (fun i => a i * b i) _ _ _
    (fun i h1 h2 => h i h1 (by omega))]
  refine congrArg some (Eq.trans (chunked_fill2 (fun j => wrapS32 (a j * b j))
    (fun j => a j * b j) (fun i => vmulq_s32 (vld1 4 a (i * 4)) (vld1 4 b (i * 4)))
    (fun _ _ => rfl) len c) ?_)
  funext j
  by_cases h1 : j < len / 4 * 4
  · rw [if_pos h1, if_pos (by omega)]
  · rw [if_neg h1]
    by_cases h2 : j < len
    · rw [if_pos h2, if_pos h2, wrapS32_of_in_int32 _ (h j (by omega) h2)]
    · rw [if_neg h2, if_neg h2]

/-- When a product of the tail overflows, the call of `simd_mul_s32` is undefined. -/
theorem simd_mul_s32_eq_none (a b c : Buf Int) (len j : Nat) (h1 : len / 4 * 4 ≤ j)
    (h2 : j < len) (h : ¬in_int32 (a j * b j)) : simd_mul_s32 a b c len = none := by
  unfold simd_mul_s32 forRangeM
  exact forLoopM_store_none (fun i => in_int32 (a i * b i)) (fun i => a i * b i) _ _ j _
    h1 (by omega) h

theorem simd_mul_s16_eq (a b c : Buf Int) (len : Nat) :
    simd_mul_s16 a b c len = fun j => if j < len then wrapS16 (a j * b j) else c j :=
  chunked_fill (fun j => wrapS16 (a j * b j))
    (fun i => vmulq_s16 (vld1 8 a (i * 8)) (vld1 8 b (i * 8))) (fun _ _ => rfl) len c

/-- C17. For every length `len` and every index `i < len`, `simd_add_f32` stores in `c[i]`
the result of the one addition `a[i] + b[i]` and `simd_mul_f32` the result of the one
multiplication `a[i] * b[i]`, which is what `scalar_add_f32` and `scalar_mul_f32` store
there: the outputs are identical element for element, in the lane groups of 4 and in the
tail alike. No law of the float operations is used. -/
theorem simd_f32_elementwise_matches_scalar {F : Type} [Add F] [Mul F] (a b c c2 : Buf F)
    (len i : Nat) (hi : i < len) :
    simd_add_f32 a b c len i = a i + b i
    ∧ simd_add_f32 a b c len i = scalar_add_f32 a b c2 len i
    ∧ simd_mul_f32 a b c len i = a i * b i
    ∧ simd_mul_f32 a b c len i = scalar_mul_f32 a b c2 len i := by
  rw [simd_add_f32_eq, simd_mul_f32_eq]
  unfold scalar_add_f32 scalar_mul_f32
  rw [scalar_fill, scalar_fill]
  simp only [if_pos hi, and_self]

/-- Witness for C17: the test's unaligned shape in small, length 7 (one lane group and a
tail of 3), index 6 in the tail, on integer-valued float32 numbers. -/
theorem simd_f32_elementwise_matches_scalar_witness :
    6 < 7
    ∧ simd_add_f32 cancel_a cancel_b (fun _ => 0) 7 6 = cancel_a 6 + cancel_b 6
    ∧ simd_add_f32 cancel_a cancel_b (fun _ => 0) 7 6
        = scalar_add_f32 cancel_a cancel_b (fun _ => 0) 7 6
    ∧ simd_mul_f32 cancel_a cancel_b (fun _ => 0) 7 6 = cancel_a 6 * cancel_b 6
    ∧ simd_mul_f32 cancel_a cancel_b (fun _ => 0) 7 6
        = scalar_mul_f32 cancel_a cancel_b (fun _ => 0) 7 6 :=
  ⟨by decide, simd_f32_elementwise_matches_scalar cancel_a cancel_b (fun _ => 0) (fun _ => 0)
    7 6 (by decide)⟩

/-- The kernel `simd_mul_s16` stores the product truncated to the element type at every
index below `len`, and so does every defined call of `simd_mul_s32`, which is defined when
no product of its tail overflows. -/
theorem simd_mul_defined_matches_scalar (len i : Nat) (hi : i < len)
    (a32 b32 c32 a16 b16 c16 : Buf Int)
    (h32 : ∀ j, len / 4 * 4 ≤ j → j < len → in_int32 (a32 j * b32 j)) :
    ((simd_mul_s32 a32 b32 c32 len).map (fun c => c i)
        = some ((a32 i * b32 i + 2 ^ 31) % 2 ^ 32 - 2 ^ 31)
      ∧ (simd_mul_s32 a32 b32 c32 len).map (fun c => c i)
        = some (scalar_mul_s32_spec a32 b32 c32 len i))
    ∧ (simd_mul_s16 a16 b16 c16 len i = (a16 i * b16 i + 2 ^ 15) % 2 ^ 16 - 2 ^ 15
      ∧ simd_mul_s16 a16 b16 c16 len i = scalar_mul_s16_spec a16 b16 c16 len i) := by
  rw [simd_mul_s32_eq_some _ _ _ _ h32, simd_mul_s16_eq]
  unfold scalar_mul_s32_spec scalar_mul_s16_spec
  rw [scalar_fill, scalar_fill]
  simp only [Option.map_some', if_pos hi, wrapS32, wrapS16]
  norm_num

/-- C18 (failing input). Length 13, `a[k] = 65536` and `b[k] = 65536 + k` for every `k`:
the index 12 lies in the tail of `simd_mul_s32`, where the statement
`c[12] = a[12] * b[12]` multiplies `65536 * 65548` in `int`; the product
`2^32 + 786432` overflows, so the call has no defined result, where the claim asks for
the low 32 bits `786432` of the product, the scalar product truncated to `int32_t`. With
length 16 the same operands at the same index 12 lie in a lane group, and `vmulq_s32`
leaves the low 32 bits `786432` there. -/
theorem simd_mul_s32_tail_overflow :
    simd_mul_s32 (fun _ => 65536) (fun k => 65536 + k) (fun _ => 0) 13 = none
    ∧ scalar_mul_s32_spec (fun _ => 65536) (fun k => 65536 + k) (fun _ => 0) 13 12 = 786432
    ∧ (simd_mul_s32 (fun _ => 65536) (fun k => 65536 + k) (fun _ => 0) 16).map (fun c => c 12)
        = some 786432 := by
  refine ⟨?_, ?_, ?_⟩
  · exact simd_mul_s32_eq_none _ _ _ 13 12 (by decide) (by decide) (by decide)
  · unfold scalar_mul_s32_spec
    rw [scalar_fill]
    decide
  · rw [simd_mul_s32_eq_some _ _ _ 16 (fun j h1 h2 => absurd h2 (by omega))]
    decide

/-! ## Float dot product -/

/-- C20. For every length `len ≤ 3`, `simd_dot_product_f32` runs no vector iteration
(`len / 4 = 0`) and returns what `scalar_dot_product_f32` returns: the products
`a[0] * b[0]`, `a[1] * b[1]`, ... added one after the other, in this order, to the start
value. The start value of the vector path is the horizontal sum `(0 + 0) + (0 + 0)` of the
zero accumulator, which is the scalar path's `0` since `0 + 0 = 0` for floats; no other
property of the float operations is used. -/
theorem simd_dot_product_f32_short {F : Type} [Add F] [Mul F] [Zero F]
    (h0 : (0 : F) + 0 = 0) (a b : Buf F) (len : Nat) (hlen : len ≤ 3) :
    len / 4 = 0
    ∧ simd_dot_product_f32 a b len = scalar_dot_product_f32 a b len
    ∧ simd_dot_product_f32 a b len = forLoop len 0 (fun i sum => sum + a i * b i) (0 : F) := by
  have hz : len / 4 = 0 := by omega
  have key : simd_dot_product_f32 a b len
      = forLoop len 0 (fun i sum => sum + a i * b i) (0 : F) := by
    unfold simd_dot_product_f32 forRange
    simp only [hz, Nat.sub_zero, Nat.zero_mul, forLoop, vpadd_f32, vadd_f32, vget_low4,
      vget_high4, vdupq_n_f32, Fin.val_zero, if_true, h0]
  refine ⟨hz, ?_, key⟩
  rw [key]
  unfold scalar_dot_product_f32 forRange
  rw [Nat.sub_zero]

/-- Witness for C20: the test's length 3, on integer-valued float32 numbers. -/
theorem simd_dot_product_f32_short_witness :
    ((0 : binary32) + 0 = 0) ∧ 3 ≤ 3
    ∧ 3 / 4 = 0
    ∧ simd_dot_product_f32 cancel_a cancel_b 3 = scalar_dot_product_f32 cancel_a cancel_b 3
    ∧ simd_dot_product_f32 cancel_a cancel_b 3
        = forLoop 3 0 (fun i sum => sum + cancel_a i * cancel_b i) (0 : binary32) :=
  ⟨by decide, by decide,
    simd_dot_product_f32_short (by decide) cancel_a cancel_b 3 (by decide)⟩

/-- The accumulation loop `sum += f i` in a commutative ring. -/
theorem forLoop_acc {F : Type} [CommRing F] (f : Nat → F) (n lo : Nat) (s : F) :
    forLoop n lo (fun i sum => sum + f i) s = s + ∑ i ∈ Finset.range n, f (lo + i) := by
  induction n with
  | zero => simp [forLoop]
  | succ n ih =>
    rw [forLoop_succ_last, Finset.sum_range_succ, ih, add_assoc]

/-- Lane `l` of the float accumulator after `n` multiply-accumulate steps, in a commutative
ring. -/
theorem forLoop_vmlaq_f32 {F : Type} [CommRing F] (a b : Buf F) (n : Nat) (l : Fin 4) :
    forLoop n 0 (fun i sum_vec => vmlaq_f32 sum_vec (vld1 4 a (i * 4)) (vld1 4 b (i * 4)))
        (vdupq_n_f32 (0 : F)) l
      = ∑ i ∈ Finset.range n, a (i * 4 + l.val) * b (i * 4 + l.val) := by
  induction n with
  | zero => simp [forLoop, vdupq_n_f32]
  | succ n ih =>
    rw [forLoop_succ_last, Finset.sum_range_succ]
    simp only [vmlaq_f32, vld1, Nat.zero_add]
    rw [ih]

/-- Regrouping the first `4 * n` terms of a sum by lane, in a commutative ring. -/
theorem sum_by_lane_ring {F : Type} [CommRing F] (f : Nat → F) (n : Nat) :
    ∑ i ∈ Finset.range (n * 4), f i
      = (∑ i ∈ Finset.range n, f (i * 4 + 0)) + (∑ i ∈ Finset.range n, f (i * 4 + 1))
        + (∑ i ∈ Finset.range n, f (i * 4 + 2)) + (∑ i ∈ Finset.range n, f (i * 4 + 3)) := by
  induction n with
  | zero => simp
  | succ n ih =>
    have e : (n + 1) * 4 = n * 4 + 1 + 1 + 1 + 1 := by ring
    rw [e]
    simp only [Finset.sum_range_succ]
    rw [ih]
    simp only [Nat.add_zero, Nat.add_assoc]
    ring

theorem scalar_dot_product_f32_eq_sum {F : Type} [CommRing F] (a b : Buf F) (len : Nat) :
    scalar_dot_product_f32 a b len = ∑ i ∈ Finset.range len, a i * b i := by
  unfold scalar_dot_product_f32 forRange
  rw [forLoop_acc (fun i => a i * b i)]
  simp

theorem simd_dot_product_f32_eq_sum {F : Type} [CommRing F] (a b : Buf F) (len : Nat) :
    simd_dot_product_f32 a b len = ∑ i ∈ Finset.range len, a i * b i := by
  unfold simd_dot_product_f32 forRange
  simp only [Nat.sub_zero]
  have hle : len / 4 * 4 ≤ len := Nat.div_mul_le_self len 4
  have hsplit : ∑ i ∈ Finset.range len, a i * b i
      = ∑ i ∈ Finset.range (len / 4 * 4), a i * b i
        + ∑ i ∈ Finset.range (len - len / 4 * 4), a (len / 4 * 4 + i) * b (len / 4 * 4 + i) := by
    rw [← Finset.sum_range_add]
    congr 2
    omega
  rw [forLoop_acc (fun i => a i * b i), hsplit, sum_by_lane_ring (fun i => a i * b i)]
  simp only [vpadd_f32, vadd_f32, vget_low4, vget_high4]
  simp only [forLoop_vmlaq_f32]
  simp only [Fin.val_zero, Fin.val_one, if_true, Fin.isValue]
  ring

/-! ## Float dot product: rounding errors -/

/-- More roundings allow a wider interval. -/
theorem within_roundings_mono (k k2 : Nat) (A x : ℚ) (hA : 0 ≤ A) (hk : k ≤ k2)
    (h : within_roundings k A x) : within_roundings k2 A x := by
  unfold within_roundings at h ⊢
  have h1 : ((1 : ℚ) - 1 / 16777216) ^ k2 ≤ (1 - 1 / 16777216) ^ k :=
    pow_le_pow_of_le_one (by norm_num) (by norm_num) hk
  have h2 : ((1 : ℚ) + 1 / 16777216) ^ k ≤ (1 + 1 / 16777216) ^ k2 :=
    pow_le_pow_right₀ (by norm_num) hk
  exact ⟨le_trans (mul_le_mul_of_nonneg_right h1 hA) h.1,
    le_trans h.2 (mul_le_mul_of_nonneg_right h2 hA)⟩

/-- Zero stays zero. -/
theorem within_roundings_zero (k : Nat) : within_roundings k 0 0 := by
  unfold within_roundings
  simp

/-- A value is itself after no rounding. -/
theorem within_roundings_self (x : ℚ) : within_roundings 0 x x := by
  unfold within_roundings
  simp

/-- One float addition of two non-negative partial sums: one more rounding of the exact
sum. -/
theorem within_roundings_add {F : Type} [Add F] (v : F → ℚ)
    (hadd : ∀ x y : F, |v (x + y) - (v x + v y)| ≤ |v x + v y| / 16777216)
    (x y : F) (k : Nat) (A B : ℚ) (hA : 0 ≤ A) (hB : 0 ≤ B)
    (hx : within_roundings k A (v x)) (hy : within_roundings k B (v y)) :
    within_roundings (k + 1) (A + B) (v (x + y)) := by
  unfold within_roundings at hx hy ⊢
  have hL : (0 : ℚ) ≤ (1 - 1 / 16777216) ^ k := pow_nonneg (by norm_num) k
  have ht1 : (1 - 1 / 16777216) ^ k * (A + B) ≤ v x + v y := by
    rw [mul_add]
    linarith [hx.1, hy.1]
  have ht2 : v x + v y ≤ (1 + 1 / 16777216) ^ k * (A + B) := by
    rw [mul_add]
    linarith [hx.2, hy.2]
  have ht0 : 0 ≤ v x + v y := le_trans (mul_nonneg hL (add_nonneg hA hB)) ht1
  have he := hadd x y
  rw [abs_of_nonneg ht0, abs_le] at he
  rw [pow_succ, pow_succ]
  have e1 : (1 - 1 / 16777216 : ℚ) ^ k * (1 - 1 / 16777216) * (A + B)
      = (1 - 1 / 16777216) * ((1 - 1 / 16777216) ^ k * (A + B)) := by ring
  have e2 : (1 + 1 / 16777216 : ℚ) ^ k * (1 + 1 / 16777216) * (A + B)
      = (1 + 1 / 16777216) * ((1 + 1 / 16777216) ^ k * (A + B)) := by ring
  rw [e1, e2]
  have m1 : (1 - 1 / 16777216 : ℚ) * ((1 - 1 / 16777216) ^ k * (A + B))
      ≤ (1 - 1 / 16777216) * (v x + v y) :=
    mul_le_mul_of_nonneg_left ht1 (by norm_num)
  have m2 : (1 + 1 / 16777216 : ℚ) * (v x + v y)
      ≤ (1 + 1 / 16777216) * ((1 + 1 / 16777216) ^ k * (A + B)) :=
    mul_le_mul_of_nonneg_left ht2 (by norm_num)
  constructor
  · linarith [he.1]
  · linarith [he.2]

/-- The accumulation loop `sum += a[i] * b[i]` on non-negative products: `n` more
roundings of the exact sum. -/
theorem forLoop_acc_roundings {F : Type} [Add F] [Mul F] (v : F → ℚ)
    (hadd : ∀ x y : F, |v (x + y) - (v x + v y)| ≤ |v x + v y| / 16777216)
    (a b : Buf F) (n lo : Nat) (s : F) (k : Nat) (A : ℚ) (hA : 0 ≤ A)
    (hpos : ∀ i, lo ≤ i → i < lo + n → 0 ≤ v (a i * b i))
    (hs : within_roundings k A (v s)) :
    within_roundings (k + n) (A + ∑ i ∈ Finset.range n, v (a (lo + i) * b (lo + i)))
      (v (forLoop n lo (fun i sum => sum + a i * b i) s)) := by
  induction n with
  | zero => simpa [forLoop] using hs
  | succ n ih =>
    have ih2 := ih (fun i h1 h2 => hpos i h1 (by omega))
    have hp : 0 ≤ v (a (lo + n) * b (lo + n)) := hpos (lo + n) (by omega) (by omega)
    have hsum : 0 ≤ A + ∑ i ∈ Finset.range n, v (a (lo + i) * b (lo + i)) :=
      add_nonneg hA (Finset.sum_nonneg (fun i hi =>
        hpos (lo + i) (by omega) (by have := Finset.mem_range.1 hi; omega)))
    rw [forLoop_succ_last, Finset.sum_range_succ, ← add_assoc A]
    exact within_roundings_add v hadd _ _ (k + n) _ _ hsum hp ih2
      (within_roundings_mono 0 (k + n) _ _ hp (Nat.zero_le _) (within_roundings_self _))

/-- Lane `l` of the accumulator of `simd_dot_product_f32` after `n` multiply-accumulate
steps on non-negative products. -/
theorem forLoop_vmlaq_roundings {F : Type} [Add F] [Mul F] [Zero F] (v : F → ℚ)
    (h0 : v 0 = 0)
    (hadd : ∀ x y : F, |v (x + y) - (v x + v y)| ≤ |v x + v y| / 16777216)
    (a b : Buf F) (n : Nat) (l : Fin 4)
    (hpos : ∀ i, i < n * 4 → 0 ≤ v (a i * b i)) :
    within_roundings n (∑ i ∈ Finset.range n, v (a (i * 4 + l.val) * b (i * 4 + l.val)))
      (v (forLoop n 0
        (fun i sum_vec => vmlaq_f32 sum_vec (vld1 4 a (i * 4)) (vld1 4 b (i * 4)))
        (vdupq_n_f32 (0 : F)) l)) := by
  induction n with
  | zero =>
    simp only [forLoop, vdupq_n_f32, Finset.range_zero, Finset.sum_empty, h0]
    exact within_roundings_zero 0
  | succ n ih =>
    have ih2 := ih (fun i h1 => hpos i (by omega))
    have hl := l.isLt
    have hp : 0 ≤ v (a (n * 4 + l.val) * b (n * 4 + l.val)) := hpos _ (by omega)
    have hsum : 0 ≤ ∑ i ∈ Finset.range n, v (a (i * 4 + l.val) * b (i * 4 + l.val)) :=
      Finset.sum_nonneg (fun i hi =>
        hpos _ (by have := Finset.mem_range.1 hi; omega))
    rw [forLoop_succ_last, Finset.sum_range_succ]
    simp only [vmlaq_f32, vld1, Nat.zero_add]
    exact within_roundings_add v hadd _ _ n _ _ hsum hp ih2
      (within_roundings_mono 0 n _ _ hp (Nat.zero_le _) (within_roundings_self _))

/-- The horizontal sum `vadd_f32` of the halves followed by `vpadd_f32`: two more roundings
of the sum of the four lanes. -/
theorem horizontal_roundings {F : Type} [Add F] (v : F → ℚ)
    (hadd : ∀ x y : F, |v (x + y) - (v x + v y)| ≤ |v x + v y| / 16777216)
    (sum_vec : Vec 4 F) (n : Nat) (S0 S1 S2 S3 : ℚ)
    (p0 : 0 ≤ S0) (p1 : 0 ≤ S1) (p2 : 0 ≤ S2) (p3 : 0 ≤ S3)
    (h0 : within_roundings n S0 (v (sum_vec 0))) (h1 : within_roundings n S1 (v (sum_vec 1)))
    (h2 : within_roundings n S2 (v (sum_vec 2))) (h3 : within_roundings n S3 (v (sum_vec 3))) :
    within_roundings (n + 2) (S0 + S2 + (S1 + S3))
      (v (vpadd_f32 (vadd_f32 (vget_low4 sum_vec) (vget_high4 sum_vec))
        (vadd_f32 (vget_low4 sum_vec) (vget_high4 sum_vec)) 0)) := by
  show within_roundings (n + 1 + 1) (S0 + S2 + (S1 + S3))
    (v ((sum_vec 0 + sum_vec 2) + (sum_vec 1 + sum_vec 3)))
  exact within_roundings_add v hadd _ _ (n + 1) _ _ (add_nonneg p0 p2) (add_nonneg p1 p3)
    (within_roundings_add v hadd _ _ n _ _ p0 p2 h0 h2)
    (within_roundings_add v hadd _ _ n _ _ p1 p3 h1 h3)

/-- The scalar path on non-negative products: at most `len` roundings of the exact sum of
the products. -/
theorem scalar_dot_product_f32_roundings {F : Type} [Add F] [Mul F] [Zero F] (v : F → ℚ)
    (h0 : v 0 = 0)
    (hadd : ∀ x y : F, |v (x + y) - (v x + v y)| ≤ |v x + v y| / 16777216)
    (a b : Buf F) (len : Nat) (hpos : ∀ i, i < len → 0 ≤ v (a i * b i)) :
    within_roundings len (∑ i ∈ Finset.range len, v (a i * b i))
      (v (scalar_dot_product_f32 a b len)) := by
  have h := forLoop_acc_roundings v hadd a b len 0 (0 : F) 0 0 (le_refl 0)
    (fun i _ h2 => hpos i (by omega)) (by rw [h0]; exact within_roundings_zero 0)
  simp only [Nat.zero_add, zero_add] at h
  unfold scalar_dot_product_f32 forRange
  rw [Nat.sub_zero]
  exact h

/-- The vector path on non-negative products: at most `len / 4 + 2 + len % 4` roundings
of the exact sum of the products. -/
theorem simd_dot_product_f32_roundings {F : Type} [Add F] [Mul F] [Zero F] (v : F → ℚ)
    (h0 : v 0 = 0)
    (hadd : ∀ x y : F, |v (x + y) - (v x + v y)| ≤ |v x + v y| / 16777216)
    (a b : Buf F) (len : Nat) (hpos : ∀ i, i < len → 0 ≤ v (a i * b i)) :
    within_roundings (len / 4 + 2 + (len - len / 4 * 4))
      (∑ i ∈ Finset.range len, v (a i * b i)) (v (simd_dot_product_f32 a b len)) := by
  have hle : len / 4 * 4 ≤ len := Nat.div_mul_le_self len 4
  have hsplit : ∑ i ∈ Finset.range len, v (a i * b i)
      = ∑ i ∈ Finset.range (len / 4 * 4), v (a i * b i)
        + ∑ i ∈ Finset.range (len - len / 4 * 4),
            v (a (len / 4 * 4 + i) * b (len / 4 * 4 + i)) := by
    rw [← Finset.sum_range_add]
    congr 2
    omega
  have hp : ∀ i, i < len / 4 * 4 → 0 ≤ v (a i * b i) := fun i hi => hpos i (by omega)
  have hS : ∀ l, l < 4 →
      0 ≤ ∑ i ∈ Finset.range (len / 4), v (a (i * 4 + l) * b (i * 4 + l)) :=
    fun l hl => Finset.sum_nonneg (fun i hi =>
      hp _ (by have := Finset.mem_range.1 hi; omega))
  have l0 : within_roundings (len / 4)
      (∑ i ∈ Finset.range (len / 4), v (a (i * 4 + 0) * b (i * 4 + 0))) _ :=
    forLoop_vmlaq_roundings v h0 hadd a b (len / 4) 0 hp
  have l1 : within_roundings (len / 4)
      (∑ i ∈ Finset.range (len / 4), v (a (i * 4 + 1) * b (i * 4 + 1))) _ :=
    forLoop_vmlaq_roundings v h0 hadd a b (len / 4) 1 hp
  have l2 : within_roundings (len / 4)
      (∑ i ∈ Finset.range (len / 4), v (a (i * 4 + 2) * b (i * 4 + 2))) _ :=
    forLoop_vmlaq_roundings v h0 hadd a b (len / 4) 2 hp
  have l3 : within_roundings (len / 4)
      (∑ i ∈ Finset.range (len / 4), v (a (i * 4 + 3) * b (i * 4 + 3))) _ :=
    forLoop_vmlaq_roundings v h0 hadd a b (len / 4) 3 hp
  have hh := horizontal_roundings v hadd _ (len / 4) _ _ _ _
    (hS 0 (by omega)) (hS 1 (by omega)) (hS 2 (by omega)) (hS 3 (by omega)) l0 l1 l2 l3
  have ht := forLoop_acc_roundings v hadd a b (len - len / 4 * 4) (len / 4 * 4) _
    (len / 4 + 2) _
    (add_nonneg (add_nonneg (hS 0 (by omega)) (hS 2 (by omega)))
      (add_nonneg (hS 1 (by omega)) (hS 3 (by omega))))
    (fun i _ h2 => hpos i (by omega)) hh
  rw [hsplit, sum_by_lane_ring (fun i => v (a i * b i))]
  have e : ∀ t : ℚ,
      (∑ i ∈ Finset.range (len / 4), v (a (i * 4 + 0) * b (i * 4 + 0)))
        + (∑ i ∈ Finset.range (len / 4), v (a (i * 4 + 1) * b (i * 4 + 1)))
        + (∑ i ∈ Finset.range (len / 4), v (a (i * 4 + 2) * b (i * 4 + 2)))
        + (∑ i ∈ Finset.range (len / 4), v (a (i * 4 + 3) * b (i * 4 + 3))) + t
      = (∑ i ∈ Finset.range (len / 4), v (a (i * 4 + 0) * b (i * 4 + 0)))
        + (∑ i ∈ Finset.range (len / 4), v (a (i * 4 + 2) * b (i * 4 + 2)))
        + ((∑ i ∈ Finset.range (len / 4), v (a (i * 4 + 1) * b (i * 4 + 1)))
          + (∑ i ∈ Finset.range (len / 4), v (a (i * 4 + 3) * b (i * 4 + 3)))) + t :=
    fun t => by ring
  rw [e]
  exact ht

/-- Bernoulli's inequality for `(1 - 2^-24)^k`. -/
theorem pow_one_sub_ge (k : Nat) :
    (1 : ℚ) - k / 16777216 ≤ (1 - 1 / 16777216) ^ k := by
  have h := one_add_mul_le_pow (show (-2 : ℚ) ≤ -(1 / 16777216) by norm_num) k
  have e1 : (1 : ℚ) + (k : ℚ) * -(1 / 16777216) = 1 - k / 16777216 := by ring
  have e2 : (1 : ℚ) + -(1 / 16777216) = 1 - 1 / 16777216 := by ring
  rw [e1, e2] at h
  exact h

/-- The bound `(1 + 2^-24)^k ≤ 1 / (1 - k * 2^-24)`, without division. -/
theorem pow_one_add_le (k : Nat) :
    (1 + 1 / 16777216 : ℚ) ^ k * (1 - k / 16777216) ≤ 1 := by
  have h1 : (1 + 1 / 16777216 : ℚ) ^ k * (1 - k / 16777216)
      ≤ (1 + 1 / 16777216) ^ k * (1 - 1 / 16777216) ^ k :=
    mul_le_mul_of_nonneg_left (pow_one_sub_ge k) (pow_nonneg (by norm_num) k)
  rw [← mul_pow] at h1
  exact le_trans h1 (pow_le_one₀ (by norm_num) (by norm_num))

/-- With at most 1024 roundings on one path and at most 261 on the other, two results on
the same non-negative exact sum differ by at most `1e-4` times the first. -/
theorem tolerance_of_roundings (P vs vv : ℚ) (n m : Nat) (hn : n ≤ 1024) (hm : m ≤ 261)
    (hP : 0 ≤ P) (hs : within_roundings n P vs) (hv : within_roundings m P vv) :
    |vv - vs| ≤ 1 / 10000 * |vs| := by
  have hs2 := within_roundings_mono n 1024 P vs hP hn hs
  have hv2 := within_roundings_mono m 261 P vv hP hm hv
  unfold within_roundings at hs2 hv2
  have a1 := pow_one_sub_ge 1024
  have a2 := pow_one_add_le 1024
  have b1 := pow_one_sub_ge 261
  have b2 := pow_one_add_le 261
  generalize (1 - 1 / 16777216 : ℚ) ^ 1024 = Ls at hs2 a1
  generalize (1 + 1 / 16777216 : ℚ) ^ 1024 = Us at hs2 a2
  generalize (1 - 1 / 16777216 : ℚ) ^ 261 = Lv at hv2 b1
  generalize (1 + 1 / 16777216 : ℚ) ^ 261 = Uv at hv2 b2
  norm_num at a1 a2 b1 b2
  have hUv : Uv ≤ 10001 / 10000 * Ls := by nlinarith
  have hUs : 9999 / 10000 * Us ≤ Lv := by nlinarith
  have hLs : 0 ≤ Ls := by linarith
  have hvs : 0 ≤ vs := le_trans (mul_nonneg hLs hP) hs2.1
  rw [abs_of_nonneg hvs, abs_le]
  have k1 : Uv * P ≤ 10001 / 10000 * Ls * P := mul_le_mul_of_nonneg_right hUv hP
  have k2 : 9999 / 10000 * Us * P ≤ Lv * P := mul_le_mul_of_nonneg_right hUs hP
  constructor
  · nlinarith [hs2.1, hs2.2, hv2.1, hv2.2]
  · nlinarith [hs2.1, hs2.2, hv2.1, hv2.2]

/-! ## Float dot product: float32 on integer values -/

/-- The spacing `binary32_ulp` is positive, and it is 1 or at most `m / 2^23`. -/
theorem binary32_ulp_bound (fuel m : Nat) :
    0 < binary32_ulp fuel m
    ∧ (binary32_ulp fuel m = 1 ∨ binary32_ulp fuel m * 8388608 ≤ m) := by
  induction fuel generalizing m with
  | zero => exact ⟨Nat.one_pos, Or.inl rfl⟩
  | succ fuel ih =>
    unfold binary32_ulp
    by_cases h : m < 16777216
    · rw [if_pos h]
      exact ⟨Nat.one_pos, Or.inl rfl⟩
    · rw [if_neg h]
      obtain ⟨h1, h2⟩ := ih (m / 2)
      refine ⟨by omega, Or.inr ?_⟩
      rcases h2 with h2 | h2
      · rw [h2]
        omega
      · omega

/-- Rounding to float32 changes an integer by at most `2^-24` of its magnitude. -/
theorem binary32_round_error (x : Int) :
    -(x.natAbs : Int) ≤ (binary32_round x - x) * 16777216
    ∧ (binary32_round x - x) * 16777216 ≤ (x.natAbs : Int) := by
  obtain ⟨hq0, hq⟩ := binary32_ulp_bound 128 x.natAbs
  unfold binary32_round
  simp only []
  have hx : (x < 0 → x = -(x.natAbs : Int)) ∧ (¬x < 0 → x = (x.natAbs : Int)) := by omega
  generalize x.natAbs = m at *
  generalize binary32_ulp 128 m = q at *
  have hdm : q * (m / q) + m % q = m := Nat.div_add_mod m q
  have hr : m % q < q := Nat.mod_lt m hq0
  generalize m / q = lo at *
  generalize m % q = r at *
  have e1 : (lo + 1) * q = q * lo + q := by ring
  have e2 : lo * q = q * lo := by ring
  split_ifs with hneg hc hc
  all_goals first | rw [e1] | rw [e2]
  all_goals
    generalize q * lo = P at *
    push_cast
    omega

/-- An integer below `2^24` is a float32 number. -/
theorem binary32_round_small (x : Int) (h0 : 0 ≤ x) (h1 : x < 16777216) :
    binary32_round x = x := by
  have h := binary32_round_error x
  have hu : binary32_ulp 128 x.natAbs = 1 := by
    unfold binary32_ulp
    rw [if_pos (by omega)]
  unfold binary32_round
  simp only [hu, Nat.div_one, Nat.mod_one, Nat.mul_one]
  rw [if_neg (by omega), if_neg (by omega)]
  omega

/-- The float32 addition of integer values in the standard model: the value of the sum
is the exact sum with a relative error of at most `2^-24`. -/
theorem binary32_add_error (x y : binary32) :
    |(((x + y).val : Int) : ℚ) - ((x.val : ℚ) + (y.val : ℚ))|
      ≤ |(x.val : ℚ) + (y.val : ℚ)| / 16777216 := by
  have h := binary32_round_error (x.val + y.val)
  have e : (x + y).val = binary32_round (x.val + y.val) := rfl
  rw [e]
  have hs : ((x.val : ℚ) + (y.val : ℚ)) = ((x.val + y.val : Int) : ℚ) := by push_cast; rfl
  rw [hs]
  generalize x.val + y.val = s at h
  rw [le_div_iff₀ (by norm_num)]
  have h2 : |(binary32_round s - s) * 16777216| ≤ |s| := by
    rw [abs_le, ← Int.natCast_natAbs]
    exact h
  rw [abs_mul] at h2
  have h3 : |(16777216 : Int)| = 16777216 := by decide
  rw [h3] at h2
  have h4 : ((|binary32_round s - s| * 16777216 : Int) : ℚ) ≤ ((|s| : Int) : ℚ) :=
    Int.cast_le.2 h2
  push_cast at h4
  exact h4

/-- The first iteration of a loop. -/
theorem forLoop_succ_first {σ : Type} (n i : Nat) (body : Nat → σ → σ) (s : σ) :
    forLoop (n + 1) i body s = forLoop n (i + 1) body (body i s) := rfl

/-- On `[2^24, 1, 1, ...]` and ones, every addition of the scalar path after the first
is rounded away: the sum stays `2^24`. -/
theorem forLoop_absorb_scalar (n lo : Nat) (hlo : 1 ≤ lo) :
    forLoop n lo (fun i sum => sum + absorb_a i * cancel_b i) (⟨16777216⟩ : binary32)
      = ⟨16777216⟩ := by
  induction n generalizing lo with
  | zero => rfl
  | succ n ih =>
    simp only [forLoop]
    have e : absorb_a lo = ⟨1⟩ := by
      unfold absorb_a
      rw [if_neg (by omega)]
    have e2 : (⟨16777216⟩ : binary32) + absorb_a lo * cancel_b lo = ⟨16777216⟩ := by
      rw [e]
      show (⟨16777216⟩ : binary32) + ⟨1⟩ * ⟨1⟩ = ⟨16777216⟩
      decide
    rw [e2]
    exact ih (lo + 1) (by omega)

/-- On `[2^24, 1, 1, ...]` and ones, after `n` multiply-accumulate steps lane 0 of the
accumulator holds `2^24` and the lanes 1, 2, 3 hold `n`. -/
theorem forLoop_absorb_lanes (n : Nat) (h1 : 1 ≤ n) (h2 : n < 16777216) :
    forLoop n 0 (fun i sum_vec =>
        vmlaq_f32 sum_vec (vld1 4 absorb_a (i * 4)) (vld1 4 cancel_b (i * 4)))
        (vdupq_n_f32 (0 : binary32))
      = fun l => if l.val = 0 then ⟨16777216⟩ else ⟨(n : Int)⟩ := by
  induction n with
  | zero => omega
  | succ n ih =>
    by_cases hn : n = 0
    · rw [hn]
      funext l
      revert l
      decide
    · rw [forLoop_succ_last, ih (by omega) (by omega)]
      funext l
      have hl := l.isLt
      have ea : absorb_a ((0 + n) * 4 + l.val) = ⟨1⟩ := by
        unfold absorb_a
        rw [if_neg (by omega)]
      simp only [vmlaq_f32, vld1, ea]
      have em : (⟨1⟩ : binary32) * cancel_b ((0 + n) * 4 + l.val) = ⟨1⟩ := by
        show (⟨1⟩ : binary32) * ⟨1⟩ = ⟨1⟩
        decide
      rw [em]
      by_cases hl0 : l.val = 0
      · rw [if_pos hl0, if_pos hl0]
        decide
      · rw [if_neg hl0, if_neg hl0]
        show (⟨binary32_round ((n : Int) + 1)⟩ : binary32) = ⟨((n + 1 : Nat) : Int)⟩
        rw [binary32_round_small _ (by omega) (by omega)]
        push_cast
        rfl

/-- The scalar path on `[2^24, 1, 1, ...]` and ones, length 4096. -/
theorem absorb_scalar_value :
    scalar_dot_product_f32 absorb_a cancel_b 4096 = ⟨16777216⟩ := by
  unfold scalar_dot_product_f32 forRange
  have e : (4096 : Nat) - 0 = 4095 + 1 := by decide
  rw [e, forLoop_succ_first]
  have e0 : (0 : binary32) + absorb_a 0 * cancel_b 0 = ⟨16777216⟩ := by decide
  rw [e0]
  exact forLoop_absorb_scalar 4095 1 (by decide)

/-- The vector path on `[2^24, 1, 1, ...]` and ones, length 4096: lane 0 holds `2^24`, the
lanes 1, 2, 3 hold 1024 each, and the horizontal sums are exact. -/
theorem absorb_simd_value :
    simd_dot_product_f32 absorb_a cancel_b 4096 = ⟨16780288⟩ := by
  unfold simd_dot_product_f32 forRange
  have e1 : (4096 : Nat) / 4 - 0 = 1024 := by decide
  have e2 : (4096 : Nat) - 4096 / 4 * 4 = 0 := by decide
  simp only [e1, e2]
  rw [forLoop_absorb_lanes 1024 (by decide) (by decide)]
  decide

/-! ## Float dot product: the tolerance -/

/-- C19, counterexample. For the float32 arrays `a = [2^24, 1, 0, 0, -2^24, 0, 0, 0]` and
`b = [1, 1, 1, 1, 1, 1, 1, 1]` the scalar path returns 0 (its second addition rounds
`2^24 + 1` to `2^24`) and the vector path returns 1 (lane 0 adds `2^24` and `-2^24`, lane 1
keeps the 1), so the difference 1 is not within `1e-4` times the scalar result. Without
cancellation the bound fails at greater lengths: for `a = [2^24, 1, 1, ...]`,
`b = [1, 1, ...]` of length 4096, whose products are all positive, the scalar path returns
`2^24` (every `+ 1` is rounded away) and the vector path `2^24 + 3072` (the lanes 1, 2, 3
count to 1024 each), and `3072 > 1e-4 * 2^24`. -/
theorem dot_product_f32_tolerance_fails :
    ((scalar_dot_product_f32 cancel_a cancel_b 8).val = 0
      ∧ (simd_dot_product_f32 cancel_a cancel_b 8).val = 1
      ∧ ¬ ((simd_dot_product_f32 cancel_a cancel_b 8).val
            - (scalar_dot_product_f32 cancel_a cancel_b 8).val).natAbs * 10000
          ≤ (scalar_dot_product_f32 cancel_a cancel_b 8).val.natAbs)
    ∧ ((∀ i, 0 < (absorb_a i * cancel_b i).val)
      ∧ (scalar_dot_product_f32 absorb_a cancel_b 4096).val = 16777216
      ∧ (simd_dot_product_f32 absorb_a cancel_b 4096).val = 16780288
      ∧ ¬ ((simd_dot_product_f32 absorb_a cancel_b 4096).val
            - (scalar_dot_product_f32 absorb_a cancel_b 4096).val).natAbs * 10000
          ≤ (scalar_dot_product_f32 absorb_a cancel_b 4096).val.natAbs) := by
  refine ⟨by decide, ?_, ?_, ?_, ?_⟩
  · intro i
    unfold absorb_a
    by_cases h : i = 0
    · rw [if_pos h]
      show 0 < ((⟨16777216⟩ : binary32) * ⟨1⟩).val
      decide
    · rw [if_neg h]
      show 0 < ((⟨1⟩ : binary32) * ⟨1⟩).val
      decide
  · rw [absorb_scalar_value]
  · rw [absorb_simd_value]
  · rw [absorb_scalar_value, absorb_simd_value]
    decide

/-- When the float operations are exact (the operations of a commutative ring, no
rounding), `simd_dot_product_f32` and `scalar_dot_product_f32` return the same value for
every length, namely the sum of the products `a[i] * b[i]` over `i < len`: the four lane
partial sums, their horizontal combination and the tail hold the same terms as the
left-to-right sum. -/
theorem simd_dot_product_f32_exact {F : Type} [CommRing F] (a b : Buf F) (len : Nat) :
    simd_dot_product_f32 a b len = scalar_dot_product_f32 a b len
    ∧ simd_dot_product_f32 a b len = ∑ i ∈ Finset.range len, a i * b i := by
  refine ⟨?_, simd_dot_product_f32_eq_sum a b len⟩
  rw [simd_dot_product_f32_eq_sum, scalar_dot_product_f32_eq_sum]

/-- The tolerance of the two dot-product paths on non-negative products. -/
theorem dot_product_f32_tolerance_nonneg {F : Type} [Add F] [Mul F] [Zero F] (v : F → ℚ)
    (h0 : v 0 = 0)
    (hadd : ∀ x y : F, |v (x + y) - (v x + v y)| ≤ |v x + v y| / 16777216)
    (a b : Buf F) (len : Nat) (hlen : len ≤ 1024)
    (hpos : ∀ i, i < len → 0 ≤ v (a i * b i)) :
    |v (simd_dot_product_f32 a b len) - v (scalar_dot_product_f32 a b len)|
      ≤ 1 / 10000 * |v (scalar_dot_product_f32 a b len)| :=
  tolerance_of_roundings (∑ i ∈ Finset.range len, v (a i * b i)) _ _ len
    (len / 4 + 2 + (len - len / 4 * 4)) hlen (by omega)
    (Finset.sum_nonneg (fun i hi => hpos i (Finset.mem_range.1 hi)))
    (scalar_dot_product_f32_roundings v h0 hadd a b len hpos)
    (simd_dot_product_f32_roundings v h0 hadd a b len hpos)

/-- C19, amended. Take float32 arrays `a`, `b` of a length up to 1024 whose products
`a[i] * b[i]` are all non-negative or all non-positive (no cancellation), and float32
additions that round to nearest without overflow: the value of a sum is the exact sum
with a relative error of at most `2^-24` (`v` gives the value of a float32 number). Then
`|simd_dot_product_f32(a,b) - scalar_dot_product_f32(a,b)|` is at most `1e-4` times
`|scalar_dot_product_f32(a,b)|`: the vector path (4 lane partial sums, horizontal
combination, then the tail) rounds each product at most `len / 4 + 5` times, the scalar
left-to-right path at most `len` times. -/
theorem simd_dot_product_f32_tolerance {F : Type} [Add F] [Mul F] [Zero F] (v : F → ℚ)
    (h0 : v 0 = 0)
    (hadd : ∀ x y : F, |v (x + y) - (v x + v y)| ≤ |v x + v y| / 16777216)
    (a b : Buf F) (len : Nat) (hlen : len ≤ 1024)
    (hsign : (∀ i, i < len → 0 ≤ v (a i * b i)) ∨ (∀ i, i < len → v (a i * b i) ≤ 0)) :
    |v (simd_dot_product_f32 a b len) - v (scalar_dot_product_f32 a b len)|
      ≤ 1 / 10000 * |v (scalar_dot_product_f32 a b len)| := by
  rcases hsign with hpos | hneg
  · exact dot_product_f32_tolerance_nonneg v h0 hadd a b len hlen hpos
  · have h := dot_product_f32_tolerance_nonneg (fun x => -v x) (by simp only [h0, neg_zero])
      (fun x y => by
        have e1 : -v (x + y) - (-v x + -v y) = -(v (x + y) - (v x + v y)) := by ring
        have e2 : -v x + -v y = -(v x + v y) := by ring
        rw [e1, e2, abs_neg, abs_neg]
        exact hadd x y)
      a b len hlen (fun i hi => neg_nonneg.2 (hneg i hi))
    have e3 : -v (simd_dot_product_f32 a b len) - -v (scalar_dot_product_f32 a b len)
        = -(v (simd_dot_product_f32 a b len) - v (scalar_dot_product_f32 a b len)) := by ring
    simp only [e3, abs_neg] at h
    exact h

/-- Witness for C19 (amended): `a = [2^24, 1, 1, 1]`, `b = [1, 1, 1, 1]` in float32
arithmetic on integer values, whose addition has the relative error `2^-24`. The scalar
path returns `2^24` (each `+ 1` is rounded away), the vector path `2^24 + 2`. -/
theorem simd_dot_product_f32_tolerance_witness :
    ((((0 : binary32).val : Int) : ℚ) = 0)
    ∧ (∀ x y : binary32, |(((x + y).val : Int) : ℚ) - ((x.val : ℚ) + (y.val : ℚ))|
        ≤ |(x.val : ℚ) + (y.val : ℚ)| / 16777216)
    ∧ 4 ≤ 1024
    ∧ (∀ i, i < 4 → (0 : ℚ) ≤ (((absorb_a i * cancel_b i).val : Int) : ℚ))
    ∧ (simd_dot_product_f32 absorb_a cancel_b 4).val = 16777218
    ∧ (scalar_dot_product_f32 absorb_a cancel_b 4).val = 16777216
    ∧ |(((simd_dot_product_f32 absorb_a cancel_b 4).val : Int) : ℚ)
          - (((scalar_dot_product_f32 absorb_a cancel_b 4).val : Int) : ℚ)|
        ≤ 1 / 10000 * |(((scalar_dot_product_f32 absorb_a cancel_b 4).val : Int) : ℚ)| :=
  have hz : (((0 : binary32).val : Int) : ℚ) = 0 := Int.cast_eq_zero.2 rfl
  have hp : ∀ i, i < 4 → (0 : ℚ) ≤ (((absorb_a i * cancel_b i).val : Int) : ℚ) :=
    fun i hi => Int.cast_nonneg.2
      ((by decide : ∀ j : Fin 4, 0 ≤ (absorb_a j.val * cancel_b j.val).val) ⟨i, hi⟩)
  ⟨hz, binary32_add_error, by decide, hp, by decide, by decide,
    simd_dot_product_f32_tolerance (fun x : binary32 => ((x.val : Int) : ℚ)) hz
      binary32_add_error absorb_a cancel_b 4 (by decide) (Or.inl hp)⟩

/-! ## Matrix multiplication -/

/-- A loop whose iteration `i` sets the positions `S i` to a value `g` of the position and
keeps the others: afterwards a position in some `S i` holds `g`, a position in none is
unchanged. -/
theorem forLoop_writes {α : Type} (g : Nat → α) (S : Nat → Nat → Prop)
    (body : Nat → Buf α → Buf α) (n lo : Nat)
    (h : ∀ i c q, lo ≤ i → i < lo + n →
      (S i q → body i c q = g q) ∧ (¬S i q → body i c q = c q))
    (c : Buf α) (q : Nat) :
    ((∃ i, lo ≤ i ∧ i < lo + n ∧ S i q) → forLoop n lo body c q = g q)
    ∧ ((∀ i, lo ≤ i → i < lo + n → ¬S i q) → forLoop n lo body c q = c q) := by
  induction n with
  | zero =>
    refine ⟨?_, fun _ => rfl⟩
    rintro ⟨i, h1, h2, _⟩
    omega
  | succ n ih =>
    have ih2 := ih (fun i c q h1 h2 => h i c q h1 (by omega))
    have hl := h (lo + n) (forLoop n lo body c) q (by omega) (by omega)
    rw [forLoop_succ_last]
    refine ⟨?_, ?_⟩
    · rintro ⟨i, h1, h2, h3⟩
      by_cases hS : S (lo + n) q
      · exact hl.1 hS
      · rw [hl.2 hS]
        have hi : i ≠ lo + n := fun e => hS (e ▸ h3)
        exact ih2.1 ⟨i, h1, by omega, h3⟩
    · intro hnone
      rw [hl.2 (hnone (lo + n) (by omega) (by omega))]
      exact ih2.2 (fun i h1 h2 => hnone i h1 (by omega))

theorem div_mod_of_lt (i j p : Nat) (hj : j < p) :
    (i * p + j) / p = i ∧ (i * p + j) % p = j := by
  have hp : 0 < p := by omega
  refine ⟨?_, ?_⟩
  · rw [Nat.add_comm, Nat.add_mul_div_right _ _ hp, Nat.div_eq_of_lt hj, Nat.zero_add]
  · rw [Nat.add_comm, Nat.add_mul_mod_self_right, Nat.mod_eq_of_lt hj]

theorem row_offset_lt (i j r p : Nat) (hi : i < r) (hj : j < p) : i * p + j < r * p := by
  have h1 : (i + 1) * p ≤ r * p := Nat.mul_le_mul_right p hi
  have h2 : (i + 1) * p = i * p + p := by ring
  omega

/-- Positions of a row-major `r × p` matrix are the offsets `i * p + j` with `i < r`,
`j < p`. -/
theorem offset_cases (r p q : Nat) :
    (q < r * p → ∃ i, i < r ∧ ∃ j, j < p ∧ q = i * p + j)
    ∧ (¬q < r * p → ∀ i, i < r → ∀ j, j < p → q ≠ i * p + j) := by
  refine ⟨?_, ?_⟩
  · intro hq
    have hp : 0 < p := by
      rcases Nat.eq_zero_or_pos p with e | e
      · rw [e] at hq
        simp at hq
      · exact e
    refine ⟨q / p, ?_, q % p, Nat.mod_lt q hp, ?_⟩
    · exact (Nat.div_lt_iff_lt_mul hp).2 hq
    · have := Nat.div_add_mod q p
      rw [Nat.mul_comm] at this
      omega
  · intro hq i hi j hj e
    exact hq (e ▸ row_offset_lt i j r p hi hj)

/-- Lane `l` of the accumulator of the 4-wide column group at column `j`: the scalar
accumulation for column `j + l`. -/
theorem forLoop_vmlaq_dup {F : Type} [Add F] [Mul F] [Zero F] (f : Nat → F) (bd : Buf F)
    (p j n : Nat) (l : Fin 4) :
    forLoop n 0 (fun k sum_vec =>
        vmlaq_f32 sum_vec (vdupq_n_f32 (f k)) (vld1 4 bd (k * p + j))) (vdupq_n_f32 (0 : F)) l
      = forLoop n 0 (fun k sum => sum + f k * bd (k * p + (j + l.val))) (0 : F) := by
  induction n with
  | zero => rfl
  | succ n ih =>
    rw [forLoop_succ_last, forLoop_succ_last]
    simp only [vmlaq_f32, vld1, vdupq_n_f32, Nat.zero_add]
    rw [← ih]
    simp only [vdupq_n_f32, Nat.add_assoc]

/-- One row of the scalar product: the entries of row `i` receive their sums, the rest of
the buffer is kept. -/
theorem scalar_row_writes {F : Type} [Add F] [Mul F] [Zero F] (a b : matrix_t F) (i : Nat)
    (data : Buf F) (q : Nat) :
    ((∃ j, j < b.cols ∧ q = i * b.cols + j) →
      forLoop b.cols 0 (fun j data =>
        store data (i * b.cols + j) (forLoop a.cols 0 (fun k sum =>
          sum + a.data (i * a.cols + k) * b.data (k * b.cols + j)) (0 : F))) data q
        = matrix_entry_spec a b (q / b.cols) (q % b.cols))
    ∧ (¬(∃ j, j < b.cols ∧ q = i * b.cols + j) →
      forLoop b.cols 0 (fun j data =>
        store data (i * b.cols + j) (forLoop a.cols 0 (fun k sum =>
          sum + a.data (i * a.cols + k) * b.data (k * b.cols + j)) (0 : F))) data q
        = data q) := by
  have hw := forLoop_writes (fun q => matrix_entry_spec a b (q / b.cols) (q % b.cols))
    (fun j q => q = i * b.cols + j)
    (fun j data => store data (i * b.cols + j) (forLoop a.cols 0 (fun k sum =>
      sum + a.data (i * a.cols + k) * b.data (k * b.cols + j)) (0 : F))) b.cols 0
    (by
      intro j d q2 _ hj
      refine ⟨?_, ?_⟩
      · intro e
        rw [e]
        beta_reduce
        rw [store_same, (div_mod_of_lt i j b.cols (by omega)).1, (div_mod_of_lt i j b.cols (by omega)).2]
        rfl
      · intro ne
        beta_reduce
        exact store_other _ _ _ _ ne) data q
  exact ⟨fun ⟨j, hj, e⟩ => hw.1 ⟨j, Nat.zero_le _, by omega, e⟩,
    fun hn => hw.2 (fun j _ hj e => hn ⟨j, by omega, e⟩)⟩

/-- The data of the scalar product as a function of the position. -/
theorem matrix_multiply_scalar_data {F : Type} [Add F] [Mul F] [Zero F] (a b c : matrix_t F)
    (h1 : a.cols = b.rows) (h2 : c.rows = a.rows) (h3 : c.cols = b.cols) (q : Nat) :
    (matrix_multiply_scalar a b c).1.data q
      = if q < a.rows * b.cols then matrix_entry_spec a b (q / b.cols) (q % b.cols)
        else c.data q := by
  unfold matrix_multiply_scalar
  rw [if_neg (by simp [h1, h2, h3])]
  unfold forRange
  simp only [Nat.sub_zero, h3]
  have hw := forLoop_writes (fun q => matrix_entry_spec a b (q / b.cols) (q % b.cols))
    (fun i q => ∃ j, j < b.cols ∧ q = i * b.cols + j)
    (fun i data => forLoop b.cols 0 (fun j data =>
        store data (i * b.cols + j) (forLoop a.cols 0 (fun k sum =>
          sum + a.data (i * a.cols + k) * b.data (k * b.cols + j)) (0 : F))) data)
    a.rows 0 (fun i d q2 _ _ => scalar_row_writes a b i d q2) c.data q
  by_cases hq : q < a.rows * b.cols
  · rw [if_pos hq]
    obtain ⟨i, hi, j, hj, e⟩ := (offset_cases a.rows b.cols q).1 hq
    exact hw.1 ⟨i, Nat.zero_le _, by omega, j, hj, e⟩
  · rw [if_neg hq]
    exact hw.2 (fun i _ hi ⟨j, hj, e⟩ =>
      (offset_cases a.rows b.cols q).2 hq i (by omega) j hj e)

/-- One row of the NEON product: the entries of row `i` receive their sums, in the 4-wide
column groups and in the remainder alike, and the rest of the buffer is kept. -/
theorem neon_row_writes {F : Type} [Add F] [Mul F] [Zero F] (a b : matrix_t F) (i : Nat)
    (data : Buf F) (q : Nat) :
    ((∃ j, j < b.cols ∧ q = i * b.cols + j) →
      forStep 0 b.cols 4 (fun j data =>
        if j + 4 > b.cols then
          forRange j b.cols (fun jj data =>
            store data (i * b.cols + jj) (forRange 0 a.cols (fun k sum =>
              sum + a.data (i * a.cols + k) * b.data (k * b.cols + jj)) (0 : F))) data
        else
          vst1 data (i * b.cols + j) (forRange 0 a.cols (fun k sum_vec =>
            vmlaq_f32 sum_vec (vdupq_n_f32 (a.data (i * a.cols + k)))
              (vld1 4 b.data (k * b.cols + j))) (vdupq_n_f32 (0 : F)))) data q
        = matrix_entry_spec a b (q / b.cols) (q % b.cols))
    ∧ (¬(∃ j, j < b.cols ∧ q = i * b.cols + j) →
      forStep 0 b.cols 4 (fun j data =>
        if j + 4 > b.cols then
          forRange j b.cols (fun jj data =>
            store data (i * b.cols + jj) (forRange 0 a.cols (fun k sum =>
              sum + a.data (i * a.cols + k) * b.data (k * b.cols + jj)) (0 : F))) data
        else
          vst1 data (i * b.cols + j) (forRange 0 a.cols (fun k sum_vec =>
            vmlaq_f32 sum_vec (vdupq_n_f32 (a.data (i * a.cols + k)))
              (vld1 4 b.data (k * b.cols + j))) (vdupq_n_f32 (0 : F)))) data q
        = data q) := by
  unfold forStep
  have hw := forLoop_writes (fun q => matrix_entry_spec a b (q / b.cols) (q % b.cols))
    (fun t q => ∃ jj, 4 * t ≤ jj ∧ jj < 4 * t + 4 ∧ jj < b.cols ∧ q = i * b.cols + jj)
    (fun t => (fun j data =>
        if j + 4 > b.cols then
          forRange j b.cols (fun jj data =>
            store data (i * b.cols + jj) (forRange 0 a.cols (fun k sum =>
              sum + a.data (i * a.cols + k) * b.data (k * b.cols + jj)) (0 : F))) data
        else
          vst1 data (i * b.cols + j) (forRange 0 a.cols (fun k sum_vec =>
            vmlaq_f32 sum_vec (vdupq_n_f32 (a.data (i * a.cols + k)))
              (vld1 4 b.data (k * b.cols + j))) (vdupq_n_f32 (0 : F)))) (0 + 4 * t))
    ((b.cols - 0 + 4 - 1) / 4) 0
    (by
      intro t d q2 _ ht
      have hjp : 4 * t < b.cols := by omega
      simp only [Nat.zero_add, forRange, Nat.sub_zero]
      by_cases hrem : 4 * t + 4 > b.cols
      · rw [if_pos hrem]
        have hr := forLoop_writes
          (fun q => matrix_entry_spec a b (q / b.cols) (q % b.cols))
          (fun jj q => q = i * b.cols + jj)
          (fun jj data => store data (i * b.cols + jj) (forLoop a.cols 0 (fun k sum =>
            sum + a.data (i * a.cols + k) * b.data (k * b.cols + jj)) (0 : F)))
          (b.cols - 4 * t) (4 * t)
          (by
            intro jj d2 q3 _ hjj
            refine ⟨?_, ?_⟩
            · intro e
              rw [e]
              beta_reduce
              rw [store_same, (div_mod_of_lt i jj b.cols (by omega)).1,
                (div_mod_of_lt i jj b.cols (by omega)).2]
              rfl
            · intro ne
              beta_reduce
              exact store_other _ _ _ _ ne) d q2
        exact ⟨fun ⟨jj, h1, _, h3, e⟩ => hr.1 ⟨jj, h1, by omega, e⟩,
          fun hn => hr.2 (fun jj h1 h2 e => hn ⟨jj, h1, by omega, by omega, e⟩)⟩
      · rw [if_neg hrem]
        refine ⟨?_, ?_⟩
        · rintro ⟨jj, h1, h2, h3, e⟩
          simp only [vst1]
          rw [dif_pos (by omega : i * b.cols + 4 * t ≤ q2 ∧ q2 < i * b.cols + 4 * t + 4)]
          rw [forLoop_vmlaq_dup (fun k => a.data (i * a.cols + k)) b.data b.cols (4 * t) a.cols]
          have e2 : 4 * t + (q2 - (i * b.cols + 4 * t)) = jj := by omega
          simp only [e2]
          rw [e, (div_mod_of_lt i jj b.cols h3).1, (div_mod_of_lt i jj b.cols h3).2]
          rfl
        · intro hn
          exact vst1_outside _ _ _ _ (fun ⟨h1, h2⟩ =>
            hn ⟨q2 - i * b.cols, by omega, by omega, by omega, by omega⟩)) data q
  exact ⟨fun ⟨j, hj, e⟩ => hw.1 ⟨j / 4, Nat.zero_le _, by omega, j, by omega, by omega, hj, e⟩,
    fun hn => hw.2 (fun t _ _ ⟨jj, _, _, h3, e⟩ => hn ⟨jj, h3, e⟩)⟩

/-- The data of the NEON product as a function of the position. -/
theorem matrix_multiply_neon_data {F : Type} [Add F] [Mul F] [Zero F] (a b c : matrix_t F)
    (h1 : a.cols = b.rows) (h2 : c.rows = a.rows) (h3 : c.cols = b.cols) (q : Nat) :
    (matrix_multiply_neon a b c).1.data q
      = if q < a.rows * b.cols then matrix_entry_spec a b (q / b.cols) (q % b.cols)
        else c.data q := by
  unfold matrix_multiply_neon
  rw [if_neg (by simp [h1, h2, h3])]
  simp only [h3]
  unfold forRange
  rw [Nat.sub_zero]
  have hw := forLoop_writes (fun q => matrix_entry_spec a b (q / b.cols) (q % b.cols))
    (fun i q => ∃ j, j < b.cols ∧ q = i * b.cols + j)
    (fun i data => forStep 0 b.cols 4 (fun j data =>
        if j + 4 > b.cols then
          forRange j b.cols (fun jj data =>
            store data (i * b.cols + jj) (forRange 0 a.cols (fun k sum =>
              sum + a.data (i * a.cols + k) * b.data (k * b.cols + jj)) (0 : F))) data
        else
          vst1 data (i * b.cols + j) (forRange 0 a.cols (fun k sum_vec =>
            vmlaq_f32 sum_vec (vdupq_n_f32 (a.data (i * a.cols + k)))
              (vld1 4 b.data (k * b.cols + j))) (vdupq_n_f32 (0 : F)))) data)
    a.rows 0 (fun i d q2 _ _ => neon_row_writes a b i d q2) c.data q
  by_cases hq : q < a.rows * b.cols
  · rw [if_pos hq]
    obtain ⟨i, hi, j, hj, e⟩ := (offset_cases a.rows b.cols q).1 hq
    exact hw.1 ⟨i, Nat.zero_le _, by omega, j, hj, e⟩
  · rw [if_neg hq]
    exact hw.2 (fun i _ hi ⟨j, hj, e⟩ =>
      (offset_cases a.rows b.cols q).2 hq i (by omega) j hj e)

theorem matrix_multiply_shape {F : Type} [Add F] [Mul F] [Zero F] (a b c : matrix_t F) :
    (matrix_multiply_scalar a b c).1.rows = c.rows
    ∧ (matrix_multiply_scalar a b c).1.cols = c.cols
    ∧ (matrix_multiply_neon a b c).1.rows = c.rows
    ∧ (matrix_multiply_neon a b c).1.cols = c.cols := by
  unfold matrix_multiply_scalar matrix_multiply_neon
  by_cases h : a.cols ≠ b.rows ∨ c.rows ≠ a.rows ∨ c.cols ≠ b.cols
  · simp only [if_pos h, and_self]
  · simp only [if_neg h, and_self]

theorem matrix_multiply_ok {F : Type} [Add F] [Mul F] [Zero F] (a b c : matrix_t F)
    (h1 : a.cols = b.rows) (h2 : c.rows = a.rows) (h3 : c.cols = b.cols) :
    (matrix_multiply_scalar a b c).2 = false ∧ (matrix_multiply_neon a b c).2 = false := by
  unfold matrix_multiply_scalar matrix_multiply_neon
  simp [h1, h2, h3]

/-- C12. For matrices `A` (r x n), `B` (n x p) and a result matrix `C` shaped r x p,
`matrix_multiply_neon` and `matrix_multiply_scalar` report no error and store the same
value in every element of `C`: the element `(i, j)` is the sum of `A[i][k] * B[k][j]`
accumulated from 0 in ascending `k`, whether column `j` lies in a 4-wide column group or
in the remainder of fewer than 4 columns; the two result matrices are equal as a whole.
No law of the float operations is used, so the two functions perform the same operations
on the same operands in the same order. -/
theorem matrix_multiply_neon_matches_scalar {F : Type} [Add F] [Mul F] [Zero F]
    (a b c : matrix_t F) (h1 : a.cols = b.rows) (h2 : c.rows = a.rows) (h3 : c.cols = b.cols)
    (i j : Nat) (hi : i < a.rows) (hj : j < b.cols) :
    (matrix_multiply_neon a b c).1.data (i * c.cols + j) = matrix_entry_spec a b i j
    ∧ (matrix_multiply_scalar a b c).1.data (i * c.cols + j) = matrix_entry_spec a b i j
    ∧ matrix_entry_spec a b i j
        = forLoop a.cols 0 (fun k sum => sum + a.data (i * a.cols + k) * b.data (k * b.cols + j))
            (0 : F)
    ∧ (matrix_multiply_neon a b c).1.data = (matrix_multiply_scalar a b c).1.data
    ∧ (matrix_multiply_neon a b c).2 = false
    ∧ (matrix_multiply_scalar a b c).2 = false := by
  have hq : i * b.cols + j < a.rows * b.cols := row_offset_lt i j a.rows b.cols hi hj
  have hd := div_mod_of_lt i j b.cols hj
  refine ⟨?_, ?_, rfl, ?_, (matrix_multiply_ok a b c h1 h2 h3).2,
    (matrix_multiply_ok a b c h1 h2 h3).1⟩
  · rw [h3, matrix_multiply_neon_data a b c h1 h2 h3, if_pos hq, hd.1, hd.2]
  · rw [h3, matrix_multiply_scalar_data a b c h1 h2 h3, if_pos hq, hd.1, hd.2]
  · funext q
    rw [matrix_multiply_neon_data a b c h1 h2 h3, matrix_multiply_scalar_data a b c h1 h2 h3]

/-- Witness for C12: a 2 x 3 matrix times a 3 x 5 matrix, element `(1, 4)` in the
remainder column; its value is `4 * 4 + 5 * 9 + 6 * 14 = 145`. -/
theorem matrix_multiply_neon_matches_scalar_witness :
    example_a.cols = example_b.rows ∧ example_c.rows = example_a.rows
    ∧ example_c.cols = example_b.cols ∧ 1 < example_a.rows ∧ 4 < example_b.cols
    ∧ (matrix_multiply_neon example_a example_b example_c).1.data (1 * example_c.cols + 4) = 145
    ∧ (matrix_multiply_scalar example_a example_b example_c).1.data (1 * example_c.cols + 4) = 145
    ∧ (matrix_multiply_neon example_a example_b example_c).1.data
        = (matrix_multiply_scalar example_a example_b example_c).1.data :=
  have h := matrix_multiply_neon_matches_scalar example_a example_b example_c rfl rfl rfl 1 4
    (by decide) (by decide)
  have e : matrix_entry_spec example_a example_b 1 4 = 145 := by decide
  ⟨rfl, rfl, rfl, by decide, by decide, h.1.trans e, h.2.1.trans e, h.2.2.2.1⟩

/-- The accumulation of row `i` of an identity matrix against a column picks the entry
`i` of the column. -/
theorem identity_row_sum {R : Type} [CommRing R] (d f : Nat → R) (i n : Nat)
    (hd : ∀ k, k < n → d k = if i = k then 1 else 0) :
    forLoop n 0 (fun k sum => sum + d k * f k) (0 : R) = if i < n then f i else 0 := by
  induction n with
  | zero => simp [forLoop]
  | succ n ih =>
    rw [forLoop_succ_last, ih (fun k hk => hd k (by omega)), hd (0 + n) (by omega)]
    simp only [Nat.zero_add]
    by_cases h1 : i < n
    · rw [if_pos h1, if_pos (show i < n + 1 by omega), if_neg (show ¬i = n by omega)]
      ring
    · rw [if_neg h1]
      by_cases h2 : i = n
      · rw [if_pos h2, if_pos (show i < n + 1 by omega), h2]
        ring
      · rw [if_neg h2, if_neg (show ¬i < n + 1 by omega)]
        ring

/-- C13. For an `n x n` matrix `A` holding the identity (1 on the diagonal, 0 elsewhere),
every `n x p` matrix `M` and a result matrix `C` shaped `n x p`, `matrix_multiply_scalar`
and `matrix_multiply_neon` applied to `(A, M, C)` report no error, keep the shape
`(A.rows, M.cols)` and leave in every element `(i, j)` of `C` the element `(i, j)` of `M`,
in exact arithmetic (a commutative ring). -/
theorem matrix_multiply_identity {R : Type} [CommRing R] (a m c : matrix_t R) (n : Nat)
    (ha1 : a.rows = n) (ha2 : a.cols = n) (hm : m.rows = n) (hc1 : c.rows = n)
    (hc2 : c.cols = m.cols)
    (hI : ∀ i k, i < n → k < n → a.data (i * n + k) = if i = k then 1 else 0)
    (i j : Nat) (hi : i < n) (hj : j < m.cols) :
    (matrix_multiply_scalar a m c).1.data (i * c.cols + j) = m.data (i * m.cols + j)
    ∧ (matrix_multiply_neon a m c).1.data (i * c.cols + j) = m.data (i * m.cols + j)
    ∧ (matrix_multiply_scalar a m c).1.rows = a.rows
    ∧ (matrix_multiply_scalar a m c).1.cols = m.cols
    ∧ (matrix_multiply_neon a m c).1.rows = a.rows
    ∧ (matrix_multiply_neon a m c).1.cols = m.cols
    ∧ (matrix_multiply_scalar a m c).2 = false
    ∧ (matrix_multiply_neon a m c).2 = false := by
  have h1 : a.cols = m.rows := by rw [ha2, hm]
  have h2 : c.rows = a.rows := by rw [hc1, ha1]
  have hq : i * m.cols + j < a.rows * m.cols :=
    row_offset_lt i j a.rows m.cols (by omega) hj
  have hd := div_mod_of_lt i j m.cols hj
  have hentry : matrix_entry_spec a m i j = m.data (i * m.cols + j) := by
    unfold matrix_entry_spec
    rw [ha2, identity_row_sum (fun k => a.data (i * n + k)) (fun k => m.data (k * m.cols + j))
      i n (fun k hk => hI i k hi hk), if_pos hi]
  have hs := matrix_multiply_shape a m c
  have hok := matrix_multiply_ok a m c h1 h2 hc2
  refine ⟨?_, ?_, hs.1.trans h2, hs.2.1.trans hc2, hs.2.2.1.trans h2, hs.2.2.2.trans hc2,
    hok.1, hok.2⟩
  · rw [hc2, matrix_multiply_scalar_data a m c h1 h2 hc2, if_pos hq, hd.1, hd.2, hentry]
  · rw [hc2, matrix_multiply_neon_data a m c h1 h2 hc2, if_pos hq, hd.1, hd.2, hentry]

/-- Witness for C13: the 2 x 2 identity times the matrix with rows `5 6` and `7 8`, element
`(1, 0)`, which is 7. -/
theorem matrix_multiply_identity_witness :
    example_identity.rows = 2 ∧ example_identity.cols = 2 ∧ example_m.rows = 2
    ∧ example_c2.rows = 2 ∧ example_c2.cols = example_m.cols
    ∧ example_identity.data 0 = 1 ∧ example_identity.data 1 = 0
    ∧ example_identity.data 2 = 0 ∧ example_identity.data 3 = 1
    ∧ (matrix_multiply_scalar example_identity example_m example_c2).1.data 2 = 7
    ∧ (matrix_multiply_neon example_identity example_m example_c2).1.data 2 = 7 :=
  have h := matrix_multiply_identity example_identity example_m example_c2 2 rfl rfl rfl rfl rfl
    (fun i k hi hk => by interval_cases i <;> interval_cases k <;> decide) 1 0
    (by decide) (by decide)
  ⟨rfl, rfl, rfl, rfl, rfl, by decide, by decide, by decide, by decide, h.1, h.2.1⟩

/-- C14. When `A.cols ≠ B.rows`, or `C.rows ≠ A.rows`, or `C.cols ≠ B.cols`,
`matrix_multiply_scalar` and `matrix_multiply_neon` take the error branch: the error is
reported and `C` is returned as it was, with every element and its `rows` and `cols`
unchanged. -/
theorem matrix_multiply_mismatch {F : Type} [Add F] [Mul F] [Zero F] (a b c : matrix_t F)
    (h : a.cols ≠ b.rows ∨ c.rows ≠ a.rows ∨ c.cols ≠ b.cols) :
    matrix_multiply_scalar a b c = (c, true)
    ∧ matrix_multiply_neon a b c = (c, true)
    ∧ (∀ q, (matrix_multiply_scalar a b c).1.data q = c.data q)
    ∧ (∀ q, (matrix_multiply_neon a b c).1.data q = c.data q) := by
  have e1 : matrix_multiply_scalar a b c = (c, true) := by
    unfold matrix_multiply_scalar
    rw [if_pos h]
  have e2 : matrix_multiply_neon a b c = (c, true) := by
    unfold matrix_multiply_neon
    rw [if_pos h]
  refine ⟨e1, e2, ?_, ?_⟩
  · intro q
    rw [e1]
  · intro q
    rw [e2]

/-- Witness for C14: a 2 x 3 matrix times a 2 x 2 matrix (inner dimensions 3 and 2) into a
2 x 5 result filled with 99, which stays filled with 99. -/
theorem matrix_multiply_mismatch_witness :
    (example_a.cols ≠ example_m.rows ∨ example_c.rows ≠ example_a.rows
      ∨ example_c.cols ≠ example_m.cols)
    ∧ (matrix_multiply_scalar example_a example_m example_c).2 = true
    ∧ (matrix_multiply_neon example_a example_m example_c).2 = true
    ∧ (matrix_multiply_scalar example_a example_m example_c).1.data 0 = 99
    ∧ (matrix_multiply_neon example_a example_m example_c).1.data 0 = 99 :=
  have h := matrix_multiply_mismatch example_a example_m example_c (Or.inl (by decide))
  ⟨Or.inl (by decide), congrArg Prod.snd h.1, congrArg Prod.snd h.2.1, h.2.2.1 0, h.2.2.2 0⟩

/-! ## FFT: lengths that are not a power of two -/

/-- C15, counterexample. Called with the length 3 on the signal `1, 2, 3` (followed in
memory by 4), `fft_scalar` and `fft_neon` return normally: there is no length check in
them. They have run one stage of butterflies on the pairs `(0, 1)` and `(2, 3)`: the
signal is modified (`x[0]` is 3 instead of 1, `x[2]` is 7 instead of 3) and the element at
index 3, outside `[0, 3)`, is overwritten with -1. -/
theorem fft_length_three_runs :
    ((ramp 0).re, (ramp 1).re, (ramp 2).re, (ramp 3).re) = (1, 2, 3, 4)
    ∧ (fft_scalar ramp 3 twiddle_one).map
        (fun y => ((y 0).re, (y 1).re, (y 2).re, (y 3).re)) = some (3, -1, 7, -1)
    ∧ (fft_neon ramp 3 twiddle_one).map
        (fun y => ((y 0).re, (y 1).re, (y 2).re, (y 3).re)) = some (3, -1, 7, -1) := by
  decide

/-- C15, amended. The length check of the FFT example is in `main`. With `log2_size` the
value the program computed for `(int)log2f(fft_size)`: when `log2_size` is at most 30, the
shift `1 << log2_size` is defined and, for every size given on the command line that is
not a power of two, the test `fft_size != (1 << log2_size)` succeeds, so `main` prints the
error message and returns the exit status 1 before any signal is allocated or
transformed; when `log2_size` is 31 or more, the shift overflows `int` and the behaviour
of `main` is undefined, whatever the size. -/
theorem fft_main_rejects_non_power_of_two (n log2_size : Nat) :
    (log2_size ≤ 30 → (∀ k, n ≠ 2 ^ k) →
      fft_main_size true n log2_size = some (Except.error 1))
    ∧ (31 ≤ log2_size → fft_main_size true n log2_size = none) := by
  unfold fft_main_size
  simp only [if_true]
  refine ⟨fun hL hn => ?_, fun hL => ?_⟩
  · rw [if_pos hL, if_pos]
    rw [Nat.one_shiftLeft]
    exact hn log2_size
  · rw [if_neg (show ¬log2_size ≤ 30 by omega)]

/-- Witness for C15 (amended): the size 3, for which `(int)log2f(3)` is 1, and the size
2147483647, which the conversion to `float` rounds to `2^31`, so that `(int)log2f` is 31. -/
theorem fft_main_rejects_non_power_of_two_witness :
    (1 ≤ 30 ∧ (∀ k, 3 ≠ 2 ^ k) ∧ fft_main_size true 3 1 = some (Except.error 1))
    ∧ (31 ≤ 31 ∧ fft_main_size true 2147483647 31 = none) :=
  have h3 : ∀ k, 3 ≠ 2 ^ k := fun k => by
    cases k with
    | zero => decide
    | succ k =>
      rw [pow_succ]
      omega
  ⟨⟨by decide, h3, (fft_main_rejects_non_power_of_two 3 1).1 (by decide) h3⟩,
    ⟨by decide, (fft_main_rejects_non_power_of_two 2147483647 31).2 (by decide)⟩⟩

/-! ## Images: interior loops and border loops -/

/-- A row loop over the interior rows whose column loop stores `f y x` at every interior
pixel `(y, x)`: the interior pixels hold `f`, every other position is kept. -/
theorem interior_fill {α : Type} (f : Nat → Nat → α) (out : Buf α) (width height : Nat) :
    (∀ y x, 1 ≤ y → y + 1 < height → 1 ≤ x → x + 1 < width →
      forRange 1 (height - 1) (fun y out =>
        forRange 1 (width - 1) (fun x out => store out (y * width + x) (f y x)) out) out
        (y * width + x) = f y x)
    ∧ (∀ p, ¬IsInterior width height p →
      forRange 1 (height - 1) (fun y out =>
        forRange 1 (width - 1) (fun x out => store out (y * width + x) (f y x)) out) out p
        = out p) := by
  unfold forRange
  have hrow : ∀ y (c : Buf α) (q : Nat), 1 ≤ y → y < 1 + (height - 1 - 1) →
      ((∃ x, 1 ≤ x ∧ x < 1 + (width - 1 - 1) ∧ q = y * width + x) →
        forLoop (width - 1 - 1) 1 (fun x out => store out (y * width + x) (f y x)) c q
          = f (q / width) (q % width))
      ∧ (¬(∃ x, 1 ≤ x ∧ x < 1 + (width - 1 - 1) ∧ q = y * width + x) →
        forLoop (width - 1 - 1) 1 (fun x out => store out (y * width + x) (f y x)) c q
          = c q) := by
    intro y c q _ _
    have hw := forLoop_writes (fun q => f (q / width) (q % width))
      (fun x q => q = y * width + x)
      (fun x out => store out (y * width + x) (f y x)) (width - 1 - 1) 1
      (by
        intro x d q2 _ hx
        refine ⟨?_, ?_⟩
        · intro e
          rw [e]
          beta_reduce
          rw [store_same, (div_mod_of_lt y x width (by omega)).1,
            (div_mod_of_lt y x width (by omega)).2]
        · intro ne
          beta_reduce
          exact store_other _ _ _ _ ne) c q
    exact ⟨fun ⟨x, h1, h2, e⟩ => hw.1 ⟨x, h1, h2, e⟩,
      fun hn => hw.2 (fun x h1 h2 e => hn ⟨x, h1, h2, e⟩)⟩
  have hall : ∀ q, _ := fun q => forLoop_writes (fun q => f (q / width) (q % width))
    (fun y q => ∃ x, 1 ≤ x ∧ x < 1 + (width - 1 - 1) ∧ q = y * width + x)
    (fun y out => forLoop (width - 1 - 1) 1
      (fun x out => store out (y * width + x) (f y x)) out)
    (height - 1 - 1) 1 (fun y c q h1 h2 => hrow y c q h1 h2) out q
  refine ⟨?_, ?_⟩
  · intro y x hy1 hy2 hx1 hx2
    rw [(hall (y * width + x)).1 ⟨y, hy1, by omega, x, hx1, by omega, rfl⟩,
      (div_mod_of_lt y x width (by omega)).1, (div_mod_of_lt y x width (by omega)).2]
  · intro p hp
    exact (hall p).2 (fun y h1 h2 ⟨x, h3, h4, e⟩ =>
      hp ⟨y, x, h1, by omega, h3, by omega, e⟩)

/-- The positions the two border loops write, for an image of at least one row: the
offsets of the border pixels. An interior pixel is none of them. -/
theorem interior_not_border (width height y x : Nat)
    (hy1 : 1 ≤ y) (hy2 : y + 1 < height) (hx1 : 1 ≤ x) (hx2 : x + 1 < width) :
    (∀ i, i < width → ¬(y * width + x = i ∨ y * width + x = (height - 1) * width + i))
    ∧ (∀ i, ¬(y * width + x = i * width ∨ y * width + x = i * width + width - 1)) := by
  refine ⟨?_, ?_⟩
  · intro i hi h
    rcases h with e | e
    · have h0 : y * width + x = 0 * width + i := by rw [e, Nat.zero_mul, Nat.zero_add]
      have := (row_col_unique width y x 0 i (by omega) hi h0).1
      omega
    · have := (row_col_unique width y x (height - 1) i (by omega) hi e).1
      omega
  · intro i h
    rcases h with e | e
    · have h0 : y * width + x = i * width + 0 := by rw [e, Nat.add_zero]
      have := (row_col_unique width y x i 0 (by omega) (by omega) h0).2
      omega
    · have h0 : y * width + x = i * width + (width - 1) := by omega
      have := (row_col_unique width y x i (width - 1) (by omega) (by omega) h0).2
      omega

theorem store_pair {α : Type} (g : Nat → α) (out : Buf α) (a b q : Nat) :
    ((q = a ∨ q = b) → store (store out a (g a)) b (g b) q = g q)
    ∧ (¬(q = a ∨ q = b) → store (store out a (g a)) b (g b) q = out q) := by
  simp only [store]
  refine ⟨?_, ?_⟩
  · intro h
    by_cases hb : q = b
    · rw [if_pos hb, hb]
    · rw [if_neg hb, if_pos (h.resolve_right hb), h.resolve_right hb]
  · intro h
    rw [if_neg (fun e => h (Or.inr e)), if_neg (fun e => h (Or.inl e))]

/-- Two border loops that store a value `g` of the position: what they do to a border
pixel and to an interior pixel. -/
theorem border_loops {α : Type} (g : Nat → α) (out : Buf α) (width height : Nat) :
    (∀ y x, 0 < height → y < height → x < width →
      (y = 0 ∨ y = height - 1 ∨ x = 0 ∨ x = width - 1) →
      forRange 1 (height - 1) (fun y out =>
        store (store out (y * width) (g (y * width)))
          (y * width + width - 1) (g (y * width + width - 1)))
        (forRange 0 width (fun x out =>
          store (store out x (g x)) ((height - 1) * width + x) (g ((height - 1) * width + x)))
          out) (y * width + x) = g (y * width + x))
    ∧ (∀ y x, 1 ≤ y → y + 1 < height → 1 ≤ x → x + 1 < width →
      forRange 1 (height - 1) (fun y out =>
        store (store out (y * width) (g (y * width)))
          (y * width + width - 1) (g (y * width + width - 1)))
        (forRange 0 width (fun x out =>
          store (store out x (g x)) ((height - 1) * width + x) (g ((height - 1) * width + x)))
          out) (y * width + x) = out (y * width + x)) := by
  unfold forRange
  have h1 : ∀ p, _ := fun p => forLoop_writes g
    (fun i q => q = i ∨ q = (height - 1) * width + i)
    (fun x out => store (store out x (g x)) ((height - 1) * width + x)
      (g ((height - 1) * width + x)))
    (width - 0) 0 (fun i c q _ _ => store_pair g c _ _ q) out p
  have h2 : ∀ p, _ := fun p => forLoop_writes g
    (fun i q => q = i * width ∨ q = i * width + width - 1)
    (fun y out => store (store out (y * width) (g (y * width)))
      (y * width + width - 1) (g (y * width + width - 1)))
    (height - 1 - 1) 1 (fun i c q _ _ => store_pair g c _ _ q)
    (forLoop (width - 0) 0
      (fun x out => store (store out x (g x)) ((height - 1) * width + x)
        (g ((height - 1) * width + x))) out) p
  refine ⟨?_, ?_⟩
  · intro y x hh hy hx hb
    by_cases hS : ∃ i, 1 ≤ i ∧ i < 1 + (height - 1 - 1)
        ∧ (y * width + x = i * width ∨ y * width + x = i * width + width - 1)
    · exact (h2 _).1 hS
    · have hkeep := (h2 (y * width + x)).2 (fun i hi1 hi2 hq => hS ⟨i, hi1, hi2, hq⟩)
      refine hkeep.trans ((h1 _).1 ?_)
      rcases hb with e | e | e | e
      · refine ⟨x, Nat.zero_le _, by omega, Or.inl ?_⟩
        rw [e, Nat.zero_mul, Nat.zero_add]
      · refine ⟨x, Nat.zero_le _, by omega, Or.inr ?_⟩
        rw [e]
      · by_cases hy0 : y = 0
        · refine ⟨x, Nat.zero_le _, by omega, Or.inl ?_⟩
          rw [hy0, Nat.zero_mul, Nat.zero_add]
        · by_cases hy1 : y = height - 1
          · refine ⟨x, Nat.zero_le _, by omega, Or.inr ?_⟩
            rw [hy1]
          · exact absurd ⟨y, by omega, by omega, Or.inl (by rw [e, Nat.add_zero])⟩ hS
      · by_cases hy0 : y = 0
        · refine ⟨x, Nat.zero_le _, by omega, Or.inl ?_⟩
          rw [hy0, Nat.zero_mul, Nat.zero_add]
        · by_cases hy1 : y = height - 1
          · refine ⟨x, Nat.zero_le _, by omega, Or.inr ?_⟩
            rw [hy1]
          · exact absurd ⟨y, by omega, by omega, Or.inr (by omega)⟩ hS
  · intro y x hy1 hy2 hx1 hx2
    have hnb := interior_not_border width height y x hy1 hy2 hx1 hx2
    rw [(h2 _).2 (fun i _ _ => hnb.2 i), (h1 _).2 (fun i _ hi => hnb.1 i (by omega))]

/-! ## Sobel edge detection -/

/-- An interior pixel of the output of `scalar_sobel_edge` holds the clamped magnitude. -/
theorem scalar_sobel_edge_interior (input output : Buf Nat) (width height y x : Nat)
    (hy1 : 1 ≤ y) (hy2 : y + 1 < height) (hx1 : 1 ≤ x) (hx2 : x + 1 < width) :
    scalar_sobel_edge input output width height (y * width + x)
      = wrapU8 (scalar_sobel_magnitude (scalar_sobel_gradient input width y x)) := by
  unfold scalar_sobel_edge sobel_zero_border
  rw [(border_loops (fun _ => (0 : Nat)) _ width height).2 y x hy1 hy2 hx1 hx2]
  unfold scalar_sobel_rows
  exact (interior_fill (fun y x =>
    wrapU8 (scalar_sobel_magnitude (scalar_sobel_gradient input width y x)))
    output width height).1 y x hy1 hy2 hx1 hx2

theorem sobel_zero_border_spec (output : Buf Nat) (width height y x : Nat)
    (hh : 0 < height) (hy : y < height) (hx : x < width)
    (hb : y = 0 ∨ y = height - 1 ∨ x = 0 ∨ x = width - 1) :
    sobel_zero_border output width height (y * width + x) = 0 := by
  unfold sobel_zero_border
  exact (border_loops (fun _ => (0 : Nat)) output width height).1 y x hh hy hx hb

theorem scalar_sobel_magnitude_hundred : scalar_sobel_magnitude (100, 0) = 100 := by
  have e : (((100 : Int), (0 : Int)).1 * ((100 : Int), (0 : Int)).1
      + ((100 : Int), (0 : Int)).2 * ((100 : Int), (0 : Int)).2).toNat = 10000 := by decide
  have h : Nat.sqrt 10000 = 100 := by norm_num
  unfold scalar_sobel_magnitude
  simp only [e, h]
  decide

/-- C21. On the 3 x 3 image whose right column is 25 (other pixels 0) the single interior
pixel has `gx = 100`, `gy = 0`: `scalar_sobel_edge` stores `sqrt(100^2 + 0^2) = 100`, the
tail loop of `neon_sobel_edge` stores `(|100| + |0|) >> 1 = 50`. On the 11 x 3 image with
columns 5 to 10 equal to 25 the pixel `(1, 4)`, handled by the 8-wide loop, has the same
gradients and the same two results. The outputs differ by 50 intensity levels. -/
theorem sobel_paths_differ_by_fifty :
    scalar_sobel_gradient edge_image_3 3 1 1 = (100, 0)
    ∧ neon_sobel_edge edge_image_3 (fun _ => 0) 3 3 4 = 50
    ∧ scalar_sobel_edge edge_image_3 (fun _ => 0) 3 3 4 = 100
    ∧ scalar_sobel_gradient edge_image_11 11 1 4 = (100, 0)
    ∧ neon_sobel_edge edge_image_11 (fun _ => 0) 11 3 15 = 50
    ∧ scalar_sobel_edge edge_image_11 (fun _ => 0) 11 3 15 = 100 := by
  have g3 : scalar_sobel_gradient edge_image_3 3 1 1 = (100, 0) := by decide
  have g11 : scalar_sobel_gradient edge_image_11 11 1 4 = (100, 0) := by decide
  have s3 := scalar_sobel_edge_interior edge_image_3 (fun _ => 0) 3 3 1 1
    (by decide) (by decide) (by decide) (by decide)
  have s11 := scalar_sobel_edge_interior edge_image_11 (fun _ => 0) 11 3 1 4
    (by decide) (by decide) (by decide) (by decide)
  rw [g3, scalar_sobel_magnitude_hundred] at s3
  rw [g11, scalar_sobel_magnitude_hundred] at s11
  exact ⟨g3, by decide, s3, g11, by decide, s11⟩

/-- C22. For every width and height greater than 0 (a pixel `(y, x)` with `y < height` and
`x < width` exists), every input and every previous content of the output buffer, after
`scalar_sobel_edge` and after `neon_sobel_edge` every border pixel of the output (first or
last row, first or last column) is 0. -/
theorem sobel_border_is_zero (input output : Buf Nat) (width height y x : Nat)
    (hy : y < height) (hx : x < width)
    (hb : y = 0 ∨ y = height - 1 ∨ x = 0 ∨ x = width - 1) :
    scalar_sobel_edge input output width height (y * width + x) = 0
    ∧ neon_sobel_edge input output width height (y * width + x) = 0 :=
  ⟨sobel_zero_border_spec _ width height y x (by omega) hy hx hb,
    sobel_zero_border_spec _ width height y x (by omega) hy hx hb⟩

/-- Witness for C22: a 12 x 4 image of bright pixels and an output buffer filled with 7;
the pixel in the last column of row 2. -/
theorem sobel_border_is_zero_witness :
    2 < 4 ∧ 11 < 12 ∧ (2 = 0 ∨ 2 = 4 - 1 ∨ 11 = 0 ∨ 11 = 12 - 1)
    ∧ scalar_sobel_edge (fun _ => 255) (fun _ => 7) 12 4 (2 * 12 + 11) = 0
    ∧ neon_sobel_edge (fun _ => 255) (fun _ => 7) 12 4 (2 * 12 + 11) = 0 :=
  ⟨by decide, by decide, by decide,
    sobel_border_is_zero (fun _ => 255) (fun _ => 7) 12 4 2 11
      (by decide) (by decide) (by decide)⟩

/-! ## Box blur: narrow images and single pixels -/

/-- An interior pixel of the output of `scalar_blur_gray_3x3` holds the neighbourhood sum
divided by 9. -/
theorem scalar_blur_interior (input output : Buf Nat) (width height y x : Nat)
    (hy1 : 1 ≤ y) (hy2 : y + 1 < height) (hx1 : 1 ≤ x) (hx2 : x + 1 < width) :
    scalar_blur_gray_3x3 input output width height (y * width + x)
      = wrapU8 (blur_sum_u32 input width y x / 9) := by
  unfold scalar_blur_gray_3x3 blur_copy_border
  rw [(border_loops input _ width height).2 y x hy1 hy2 hx1 hx2]
  unfold scalar_blur_rows
  exact (interior_fill (fun y x => wrapU8 (blur_sum_u32 input width y x / 9))
    output width height).1 y x hy1 hy2 hx1 hx2

/-- For an image of at most 8 columns the 8-wide loop of `neon_blur_rows` runs no iteration
and the tail loop starts at column 1. -/
theorem neon_blur_rows_narrow (input output : Buf Nat) (width height : Nat)
    (hw1 : 1 ≤ width) (hw8 : width ≤ 8) :
    neon_blur_rows input output width height
      = forRange 1 (height - 1) (fun y out =>
          forRange 1 (width - 1) (fun x out =>
            store out (y * width + x) (wrapU8 (blur_sum_u16 input width y x / 9))) out)
          output := by
  unfold neon_blur_rows forStep
  have h0 : (width - 8 - 1 + 8 - 1) / 8 = 0 := by omega
  have h1 : width - (width - 1) % 8 = 1 := by omega
  simp only [h0, h1, forLoop]

/-- An interior pixel of the output of the vector path, for an image of at most 8 columns,
holds the neighbourhood sum divided by 9. -/
theorem neon_blur_interior_narrow (input output : Buf Nat) (width height y x : Nat)
    (hw8 : width ≤ 8)
    (hy1 : 1 ≤ y) (hy2 : y + 1 < height) (hx1 : 1 ≤ x) (hx2 : x + 1 < width) :
    neon_blur_gray_3x3 input output width height (y * width + x)
      = wrapU8 (blur_sum_u16 input width y x / 9)
    ∧ simd_blur_gray_3x3 input output width height (y * width + x)
      = wrapU8 (blur_sum_u16 input width y x / 9) := by
  have key : blur_copy_border input (neon_blur_rows input output width height) width height
      (y * width + x) = wrapU8 (blur_sum_u16 input width y x / 9) := by
    unfold blur_copy_border
    rw [(border_loops input _ width height).2 y x hy1 hy2 hx1 hx2,
      neon_blur_rows_narrow input output width height (by omega) hw8]
    exact (interior_fill (fun y x => wrapU8 (blur_sum_u16 input width y x / 9))
      output width height).1 y x hy1 hy2 hx1 hx2
  exact ⟨key, key⟩

theorem single_pixel_image_apply (width py px v r c : Nat) (hc : c < width)
    (hpx : px < width) :
    single_pixel_image width py px v (r * width + c) = if r = py ∧ c = px then v else 0 := by
  unfold single_pixel_image
  by_cases h : r = py ∧ c = px
  · rw [if_pos h, h.1, h.2, if_pos rfl]
  · rw [if_neg h, if_neg]
    intro e
    exact h (row_col_unique width r c py px hc hpx e)

/-- The neighbourhood sum of a single-pixel image at a pixel whose 3 x 3 neighbourhood
holds the pixel: the value of the pixel, in the 32-bit and in the 16-bit accumulator. -/
theorem blur_sum_single_pixel (width py px v y x : Nat) (hv : v ≤ 255)
    (hpx : px + 1 < width) (hy1 : 1 ≤ y) (hx1 : 1 ≤ x) (hx2 : x + 1 < width)
    (hny1 : py ≤ y + 1) (hny2 : y ≤ py + 1) (hnx1 : px ≤ x + 1) (hnx2 : x ≤ px + 1) :
    blur_sum_u32 (single_pixel_image width py px v) width y x = v
    ∧ blur_sum_u16 (single_pixel_image width py px v) width y x = v := by
  have e : ∀ dy dx, dx ≤ 2 →
      single_pixel_image width py px v ((y + dy - 1) * width + (x + dx - 1))
        = if y + dy - 1 = py ∧ x + dx - 1 = px then v else 0 :=
    fun dy dx hdx => single_pixel_image_apply width py px v _ _ (by omega) (by omega)
  unfold blur_sum_u32 blur_sum_u16 forRange
  simp only [Nat.sub_zero, forLoop, Nat.zero_add, Nat.reduceAdd]
  simp only [e 0 0 (by omega), e 0 1 (by omega), e 0 2 (by omega), e 1 0 (by omega),
    e 1 1 (by omega), e 1 2 (by omega), e 2 0 (by omega), e 2 1 (by omega), e 2 2 (by omega)]
  have hy : y + 1 = py ∨ y = py ∨ y = py + 1 := by omega
  have hx : x + 1 = px ∨ x = px ∨ x = px + 1 := by omega
  simp only [wrapU32, wrapU16]
  rcases hy with hy | hy | hy <;> rcases hx with hx | hx | hx <;>
    (repeat (first | rw [if_pos (by omega)] | rw [if_neg (by omega)])) <;>
    constructor <;> omega

/-- C23. For an image of at most 8 columns that is 0 everywhere except for the value
`v ≤ 255` at one interior pixel `(py, px)`: every interior pixel whose 3 x 3 neighbourhood
holds `(py, px)` becomes `v / 9` rounded down, and every border pixel is 0, in the output
of `scalar_blur_gray_3x3` and in the output of the vector path `simd_blur_gray_3x3` /
`neon_blur_gray_3x3` (which for such a width runs its tail loop only). For the 5 x 5 image
with centre 90 the blurred centre is 10. -/
theorem blur_single_pixel (width height py px v : Nat) (output : Buf Nat)
    (hw8 : width ≤ 8) (hpy1 : 1 ≤ py) (hpy2 : py + 1 < height) (hpx1 : 1 ≤ px)
    (hpx2 : px + 1 < width) (hv : v ≤ 255) :
    (∀ y x, 1 ≤ y → y + 1 < height → 1 ≤ x → x + 1 < width →
      py ≤ y + 1 → y ≤ py + 1 → px ≤ x + 1 → x ≤ px + 1 →
      scalar_blur_gray_3x3 (single_pixel_image width py px v) output width height
          (y * width + x) = v / 9
      ∧ simd_blur_gray_3x3 (single_pixel_image width py px v) output width height
          (y * width + x) = v / 9
      ∧ neon_blur_gray_3x3 (single_pixel_image width py px v) output width height
          (y * width + x) = v / 9)
    ∧ (∀ y x, y < height → x < width →
      (y = 0 ∨ y = height - 1 ∨ x = 0 ∨ x = width - 1) →
      scalar_blur_gray_3x3 (single_pixel_image width py px v) output width height
          (y * width + x) = 0
      ∧ simd_blur_gray_3x3 (single_pixel_image width py px v) output width height
          (y * width + x) = 0
      ∧ neon_blur_gray_3x3 (single_pixel_image width py px v) output width height
          (y * width + x) = 0) := by
  refine ⟨?_, ?_⟩
  · intro y x hy1 hy2 hx1 hx2 hny1 hny2 hnx1 hnx2
    have hs := blur_sum_single_pixel width py px v y x hv hpx2 hy1 hx1 hx2 hny1 hny2 hnx1 hnx2
    have hn := neon_blur_interior_narrow (single_pixel_image width py px v) output width height
      y x hw8 hy1 hy2 hx1 hx2
    have hw : wrapU8 (v / 9) = v / 9 := by
      unfold wrapU8
      omega
    refine ⟨?_, ?_, ?_⟩
    · rw [scalar_blur_interior _ _ _ _ _ _ hy1 hy2 hx1 hx2, hs.1, hw]
    · rw [hn.2, hs.2, hw]
    · rw [hn.1, hs.2, hw]
  · intro y x hy hx hb
    have hz : single_pixel_image width py px v (y * width + x) = 0 := by
      rw [single_pixel_image_apply width py px v y x hx (by omega), if_neg (by omega)]
    unfold scalar_blur_gray_3x3 simd_blur_gray_3x3 neon_blur_gray_3x3
    rw [blur_copy_border_spec _ _ width height y x (by omega) hy hx hb,
      blur_copy_border_spec _ _ width height y x (by omega) hy hx hb, hz]
    exact ⟨rfl, rfl, rfl⟩

/-- Witness for C23: the 5 x 5 image that is 0 except for the centre pixel `(2, 2) = 90`,
an output buffer filled with 7: the blurred centre is 10 and the border pixels are 0. -/
theorem blur_single_pixel_witness :
    5 ≤ 8 ∧ 1 ≤ 2 ∧ 2 + 1 < 5 ∧ 90 ≤ 255
    ∧ scalar_blur_gray_3x3 (single_pixel_image 5 2 2 90) (fun _ => 7) 5 5 (2 * 5 + 2) = 10
    ∧ simd_blur_gray_3x3 (single_pixel_image 5 2 2 90) (fun _ => 7) 5 5 (2 * 5 + 2) = 10
    ∧ neon_blur_gray_3x3 (single_pixel_image 5 2 2 90) (fun _ => 7) 5 5 (2 * 5 + 2) = 10
    ∧ (∀ y x, y < 5 → x < 5 → (y = 0 ∨ y = 5 - 1 ∨ x = 0 ∨ x = 5 - 1) →
      scalar_blur_gray_3x3 (single_pixel_image 5 2 2 90) (fun _ => 7) 5 5 (y * 5 + x) = 0
      ∧ simd_blur_gray_3x3 (single_pixel_image 5 2 2 90) (fun _ => 7) 5 5 (y * 5 + x) = 0
      ∧ neon_blur_gray_3x3 (single_pixel_image 5 2 2 90) (fun _ => 7) 5 5 (y * 5 + x) = 0) :=
  have h := blur_single_pixel 5 5 2 2 90 (fun _ => 7) (by decide) (by decide) (by decide)
    (by decide) (by decide) (by decide)
  have hc := h.1 2 2 (by decide) (by decide) (by decide) (by decide) (by decide) (by decide)
    (by decide) (by decide)
  ⟨by decide, by decide, by decide, by decide, hc.1, hc.2.1, hc.2.2, h.2⟩

/-- C30. On the 12 x 3 image whose pixels are all 255 the neighbourhood sum of every
interior pixel is `S = 2295`. The pixel `(1, 1)`, handled by the 8-wide loop of
`simd_blur_gray_3x3` (and of `neon_blur_gray_3x3`), receives `(S * 28) >> 8 = 251`; the
pixel `(1, 9)`, handled by the tail loop, receives `S / 9 = 255`: the tail divides by 9 and
does not use the multiply-shift of the wide operation. -/
theorem blur_tail_divides_by_nine :
    blur_sum_u16 (fun _ => 255) 12 1 9 = 2295
    ∧ (2295 * 28) >>> 8 = 251
    ∧ simd_blur_gray_3x3 (fun _ => 255) (fun _ => 0) 12 3 (1 * 12 + 1) = 251
    ∧ neon_blur_gray_3x3 (fun _ => 255) (fun _ => 0) 12 3 (1 * 12 + 1) = 251
    ∧ simd_blur_gray_3x3 (fun _ => 255) (fun _ => 0) 12 3 (1 * 12 + 9) = 255
    ∧ neon_blur_gray_3x3 (fun _ => 255) (fun _ => 0) 12 3 (1 * 12 + 9) = 255 := by
  decide

/-! ## Histogram: counts of the partial histograms -/

theorem sum_range_mul16 (f : Nat → Nat) (n : Nat) :
    ∑ p ∈ Finset.range (n * 16), f p
      = ∑ i ∈ Finset.range n, ∑ k ∈ Finset.range 16, f (i * 16 + k) := by
  induction n with
  | zero => simp
  | succ n ih =>
    have e : (n + 1) * 16 = n * 16 + 16 := by ring
    rw [e, Finset.sum_range_add, ih,
      Finset.sum_range_succ (fun i => ∑ k ∈ Finset.range 16, f (i * 16 + k)) n]

/-- The four partial histograms of `neon_histogram` together count every pixel once. -/
theorem neon_local_count_total (image : Buf Nat) (size v : Nat) :
    neon_local_count image size 0 v + neon_local_count image size 1 v
      + neon_local_count image size 2 v + neon_local_count image size 3 v
      = pixel_count_eq image size v := by
  unfold neon_local_count pixel_count_eq
  have hle : size / 16 * 16 ≤ size := Nat.div_mul_le_self size 16
  have hsplit : ∑ i ∈ Finset.range size, (if image i = v then 1 else 0)
      = ∑ i ∈ Finset.range (size / 16 * 16), (if image i = v then 1 else 0)
        + ∑ i ∈ Finset.range (size - size / 16 * 16),
            (if image (size / 16 * 16 + i) = v then 1 else 0) := by
    rw [← Finset.sum_range_add]
    congr 2
    omega
  rw [hsplit, sum_range_mul16]
  have hchunk : ∀ i, ∑ k ∈ Finset.range 16, (if image (i * 16 + k) = v then 1 else 0)
      = (∑ j ∈ Finset.range 4, if image (i * 16 + (j + 4 * 0)) = v then 1 else 0)
        + (∑ j ∈ Finset.range 4, if image (i * 16 + (j + 4 * 1)) = v then 1 else 0)
        + (∑ j ∈ Finset.range 4, if image (i * 16 + (j + 4 * 2)) = v then 1 else 0)
        + (∑ j ∈ Finset.range 4, if image (i * 16 + (j + 4 * 3)) = v then 1 else 0) := by
    intro i
    simp only [Finset.sum_range_succ, Finset.sum_range_zero, Nat.reduceAdd, Nat.reduceMul,
      Nat.zero_add, Nat.add_zero]
    ring
  have t1 : ∀ (t : Nat) (i : Nat), t ≠ 0 →
      (if t = 0 ∧ image (size / 16 * 16 + i) = v then 1 else 0) = 0 := by
    intro t i ht
    rw [if_neg (fun h => ht h.1)]
  simp only [hchunk, Finset.sum_add_distrib, true_and, t1 1 _ (by decide),
    t1 2 _ (by decide), t1 3 _ (by decide), Finset.sum_const_zero, Nat.add_zero]
  ring

/-- C24. For every image of 256 pixels in which each byte value `0 .. 255` occurs exactly
once, `scalar_histogram` and `neon_histogram` leave every one of the 256 bins equal to 1,
whatever the histogram buffers held before. -/
theorem histogram_of_permutation (image h1 h2 : Buf Nat)
    (hcount : ∀ v, v < 256 → pixel_count_eq image 256 v = 1) (v : Nat) (hv : v < 256) :
    scalar_histogram image h1 256 v = 1 ∧ neon_histogram image h2 256 v = 1 := by
  have htot := neon_local_count_total image 256 v
  rw [hcount v hv] at htot
  refine ⟨?_, ?_⟩
  · rw [scalar_histogram_bin image h1 256 v hv, hcount v hv]
  · rw [neon_histogram_bin image h2 256 v hv]
    unfold wrapU32
    omega

theorem pixel_count_eq_identity (n v : Nat) :
    pixel_count_eq (fun i => i) n v = if v < n then 1 else 0 := by
  unfold pixel_count_eq
  rw [Finset.sum_ite_eq']
  simp only [Finset.mem_range]

/-- Witness for C24: the image `0, 1, ..., 255` and the bin 200, with histogram buffers
that held 9 and 3 before. -/
theorem histogram_of_permutation_witness :
    (∀ v, v < 256 → pixel_count_eq (fun i => i) 256 v = 1) ∧ 200 < 256
    ∧ scalar_histogram (fun i => i) (fun _ => 9) 256 200 = 1
    ∧ neon_histogram (fun i => i) (fun _ => 3) 256 200 = 1 :=
  have hc : ∀ v, v < 256 → pixel_count_eq (fun i => i) 256 v = 1 := fun v hv => by
    rw [pixel_count_eq_identity, if_pos hv]
  ⟨hc, by decide,
    histogram_of_permutation (fun i => i) (fun _ => 9) (fun _ => 3) hc 200 (by decide)⟩

/-- C25. For every image, every size and any two initial contents `h1`, `h2` of the
histogram buffer, every one of the 256 bins has the same final value from `h1` as from
`h2`, for `scalar_histogram` and for `neon_histogram`; with size 0 every bin is 0: the
histogram is zeroed on entry and no count persists from an earlier call. -/
theorem histogram_ignores_previous_contents (image h1 h2 : Buf Nat) (size v : Nat)
    (hv : v < 256) :
    scalar_histogram image h1 size v = scalar_histogram image h2 size v
    ∧ neon_histogram image h1 size v = neon_histogram image h2 size v
    ∧ scalar_histogram image h1 0 v = 0
    ∧ neon_histogram image h1 0 v = 0 := by
  refine ⟨?_, ?_, ?_, ?_⟩
  · rw [scalar_histogram_bin image h1 size v hv, scalar_histogram_bin image h2 size v hv]
  · rw [neon_histogram_bin image h1 size v hv, neon_histogram_bin image h2 size v hv]
  · rw [scalar_histogram_bin image h1 0 v hv]
    simp [pixel_count_eq]
  · rw [neon_histogram_bin image h1 0 v hv]
    simp [neon_local_count, wrapU32]

/-- Witness for C25: 20 pixels equal to 7, the bin 7, a histogram buffer left by an
earlier call (every bin 1000) against a zero buffer. -/
theorem histogram_ignores_previous_contents_witness :
    7 < 256
    ∧ scalar_histogram (fun _ => 7) (fun _ => 1000) 20 7
        = scalar_histogram (fun _ => 7) (fun _ => 0) 20 7
    ∧ neon_histogram (fun _ => 7) (fun _ => 1000) 20 7
        = neon_histogram (fun _ => 7) (fun _ => 0) 20 7 :=
  have h := histogram_ignores_previous_contents (fun _ => 7) (fun _ => 1000) (fun _ => 0) 20 7
    (by decide)
  ⟨by decide, h.1, h.2.1⟩

/-! ## Comparisons, square root and interleaving -/

theorem simd_cmpgt_f32_eq {F : Type} [LT F] [DecidableRel (fun (x y : F) => x < y)]
    (a b : Buf F) (result : Buf Nat) (len : Nat) :
    simd_cmpgt_f32 a b result len
      = fun j => if j < len then (if a j > b j then 4294967295 else 0) else result j :=
  chunked_fill (fun j => if a j > b j then 4294967295 else 0)
    (fun i => vcgtq_f32 (vld1 4 a (i * 4)) (vld1 4 b (i * 4))) (fun _ _ => rfl) len result

theorem simd_cmpeq_f32_eq {F : Type} [BEq F] (a b : Buf F) (result : Buf Nat) (len : Nat) :
    simd_cmpeq_f32 a b result len
      = fun j => if j < len then (if a j == b j then 4294967295 else 0) else result j :=
  chunked_fill (fun j => if a j == b j then 4294967295 else 0)
    (fun i => vceqq_f32 (vld1 4 a (i * 4)) (vld1 4 b (i * 4))) (fun _ _ => rfl) len result

/-- C26. For every length `len` and every index `i < len`, `simd_cmpgt_f32` stores
`0xFFFFFFFF` in `result[i]` if `a[i] > b[i]` and 0 otherwise, and `simd_cmpeq_f32` stores
`0xFFFFFFFF` if `a[i] == b[i]` and 0 otherwise; each stored word is one of these two
values, in the lane groups of 4 and in the tail alike. -/
theorem simd_cmp_masks {F : Type} [LT F] [DecidableRel (fun (x y : F) => x < y)] [BEq F]
    (a b : Buf F) (result : Buf Nat) (len i : Nat) (hi : i < len) :
    simd_cmpgt_f32 a b result len i = (if a i > b i then 0xFFFFFFFF else 0)
    ∧ simd_cmpeq_f32 a b result len i = (if a i == b i then 0xFFFFFFFF else 0)
    ∧ (simd_cmpgt_f32 a b result len i = 0xFFFFFFFF ∨ simd_cmpgt_f32 a b result len i = 0)
    ∧ (simd_cmpeq_f32 a b result len i = 0xFFFFFFFF ∨ simd_cmpeq_f32 a b result len i = 0) := by
  rw [simd_cmpgt_f32_eq, simd_cmpeq_f32_eq]
  simp only [if_pos hi]
  refine ⟨trivial, trivial, ?_, ?_⟩
  · by_cases h : a i > b i
    · exact Or.inl (if_pos h)
    · exact Or.inr (if_neg h)
  · by_cases h : (a i == b i) = true
    · exact Or.inl (if_pos h)
    · exact Or.inr (if_neg h)

/-- Witness for C26: length 7 (one lane group and a tail of 3), index 6 in the tail, where
`a[6] = 6 > 2 = b[6]`. -/
theorem simd_cmp_masks_witness :
    6 < 7
    ∧ simd_cmpgt_f32 (fun k => (k : Int)) (fun _ => (2 : Int)) (fun _ => 5) 7 6 = 0xFFFFFFFF
    ∧ simd_cmpeq_f32 (fun k => (k : Int)) (fun _ => (2 : Int)) (fun _ => 5) 7 6 = 0 :=
  have h := simd_cmp_masks (fun k => (k : Int)) (fun _ => (2 : Int)) (fun _ => 5) 7 6
    (by decide)
  ⟨by decide, h.1.trans (by decide), h.2.1.trans (by decide)⟩

/-- C27. With `a = 0, 1, 2, 3, ...` and `b = 100, 101, 102, ...`, the 4-wide loop of
`simd_interleave_even_f32` (length 4) leaves `c = a[0], b[0], a[1], b[1]`: `c[2]` is
`a[1] = 1` and `c[3]` is `b[1] = 101`, where the header documents `a[2]` and `b[2]`. The
remainder loop (length 6, index pair 2) stores `c[4] = a[2] = 2` and `c[5] = b[2] = 102`,
where the header documents `a[4]` and `b[4]`. -/
theorem interleave_even_takes_adjacent :
    simd_interleave_even_f32 (fun i => i) (fun i => 100 + i) (fun _ => 0) 4 0 = 0
    ∧ simd_interleave_even_f32 (fun i => i) (fun i => 100 + i) (fun _ => 0) 4 1 = 100
    ∧ simd_interleave_even_f32 (fun i => i) (fun i => 100 + i) (fun _ => 0) 4 2 = 1
    ∧ simd_interleave_even_f32 (fun i => i) (fun i => 100 + i) (fun _ => 0) 4 3 = 101
    ∧ simd_interleave_even_f32 (fun i => i) (fun i => 100 + i) (fun _ => 0) 6 4 = 2
    ∧ simd_interleave_even_f32 (fun i => i) (fun i => 100 + i) (fun _ => 0) 6 5 = 102 := by
  decide

/-- C28. With `a = 0, 1, 2, 3, ...` and `b = 100, 101, 102, ...`, the 4-wide loop of
`simd_interleave_odd_f32` (length 4) leaves `c = a[2], b[2], a[3], b[3]`: `c[0]` is
`a[2] = 2` and `c[1]` is `b[2] = 102`, where the header documents `a[1]` and `b[1]`. The
remainder loop does what the header documents: with length 3 it stores `c[0] = a[1]` and
`c[1] = b[1]`, with length 6 it stores `c[4] = a[5]` and `c[5] = b[5]`. -/
theorem interleave_odd_takes_high_half :
    simd_interleave_odd_f32 (fun i => i) (fun i => 100 + i) (fun _ => 0) 4 0 = 2
    ∧ simd_interleave_odd_f32 (fun i => i) (fun i => 100 + i) (fun _ => 0) 4 1 = 102
    ∧ simd_interleave_odd_f32 (fun i => i) (fun i => 100 + i) (fun _ => 0) 4 2 = 3
    ∧ simd_interleave_odd_f32 (fun i => i) (fun i => 100 + i) (fun _ => 0) 4 3 = 103
    ∧ simd_interleave_odd_f32 (fun i => i) (fun i => 100 + i) (fun _ => 0) 3 0 = 1
    ∧ simd_interleave_odd_f32 (fun i => i) (fun i => 100 + i) (fun _ => 0) 3 1 = 101
    ∧ simd_interleave_odd_f32 (fun i => i) (fun i => 100 + i) (fun _ => 0) 6 4 = 5
    ∧ simd_interleave_odd_f32 (fun i => i) (fun i => 100 + i) (fun _ => 0) 6 5 = 105 := by
  decide

theorem simd_sqrt_f32_eq {F : Type} [Mul F] [Sub F] (rsqrte sqrtf : F → F) (three half : F)
    (a c : Buf F) (len : Nat) :
    simd_sqrt_f32 rsqrte sqrtf three half a c len
      = fun j => if j < len / 4 * 4 then sqrt_newton_spec rsqrte three half (a j)
          else if j < len then sqrtf (a j) else c j :=
  chunked_fill2 (fun j => sqrt_newton_spec rsqrte three half (a j)) (fun j => sqrtf (a j))
    (fun i => vmulq_f32 (vld1 4 a (i * 4))
      (vmulq_f32 (vrsqrteq_f32 rsqrte (vld1 4 a (i * 4)))
        (vmulq_f32 (vsubq_f32 (vdupq_n_f32 three)
          (vmulq_f32 (vld1 4 a (i * 4))
            (vmulq_f32 (vrsqrteq_f32 rsqrte (vld1 4 a (i * 4)))
              (vrsqrteq_f32 rsqrte (vld1 4 a (i * 4))))))
          (vdupq_n_f32 half))))
    (fun _ _ => rfl) len c

/-- C29, counterexample. With length 5 the element at index 4 lies in the tail: what
`simd_sqrt_f32` stores there is the library square root `sqrtf(a[4])`, an expression
different from the estimate with one Newton-Raphson step, which is what the element at
index 1, in the lane group, receives. The expressions are those of the free term model,
where two results are equal only if they are built by the same operations. -/
theorem sqrt_tail_uses_library :
    simd_sqrt_f32 sqrt_term.rsqrte sqrt_term.sqrtf sqrt_term.three sqrt_term.half
        (fun i => sqrt_term.input i) (fun _ => sqrt_term.three) 5 4
      = sqrt_term.sqrtf (sqrt_term.input 4)
    ∧ simd_sqrt_f32 sqrt_term.rsqrte sqrt_term.sqrtf sqrt_term.three sqrt_term.half
        (fun i => sqrt_term.input i) (fun _ => sqrt_term.three) 5 4
      ≠ sqrt_newton_spec sqrt_term.rsqrte sqrt_term.three sqrt_term.half (sqrt_term.input 4)
    ∧ simd_sqrt_f32 sqrt_term.rsqrte sqrt_term.sqrtf sqrt_term.three sqrt_term.half
        (fun i => sqrt_term.input i) (fun _ => sqrt_term.three) 5 1
      = sqrt_newton_spec sqrt_term.rsqrte sqrt_term.three sqrt_term.half (sqrt_term.input 1) := by
  decide

/-- C29, amended. For every length `len`: at every index `i` in a full 4-lane group
(`i < 4 * (len / 4)`) `simd_sqrt_f32` stores the approximation - the reciprocal square root
estimate `r` of `a[i]`, one Newton-Raphson step `r * ((3 - a[i] * r^2) * 0.5)`, and the
product of `a[i]` with the improved estimate; at every index `j` in the tail
(`4 * (len / 4) ≤ j < len`) it stores the library square root `sqrtf(a[j])`. The two
parts are independent: each holds for every length, also when the other range is empty. -/
theorem simd_sqrt_f32_paths {F : Type} [Mul F] [Sub F] (rsqrte sqrtf : F → F) (three half : F)
    (a c : Buf F) (len : Nat) :
    (∀ i, i < len / 4 * 4 →
      simd_sqrt_f32 rsqrte sqrtf three half a c len i
        = a i * (rsqrte (a i) * ((three - a i * (rsqrte (a i) * rsqrte (a i))) * half)))
    ∧ (∀ j, len / 4 * 4 ≤ j → j < len →
      simd_sqrt_f32 rsqrte sqrtf three half a c len j = sqrtf (a j)) := by
  rw [simd_sqrt_f32_eq]
  refine ⟨fun i hi => ?_, fun j hj1 hj2 => ?_⟩
  · beta_reduce
    rw [if_pos hi]
    rfl
  · beta_reduce
    rw [if_neg (show ¬j < len / 4 * 4 by omega), if_pos hj2]

/-- Witness for C29 (amended): length 4, where there is no tail and index 1 lies in the
lane group, and length 3, where there is no lane group and index 2 lies in the tail, in
the term model. -/
theorem simd_sqrt_f32_paths_witness :
    (1 < 4 / 4 * 4
      ∧ simd_sqrt_f32 sqrt_term.rsqrte sqrt_term.sqrtf sqrt_term.three sqrt_term.half
          (fun i => sqrt_term.input i) (fun _ => sqrt_term.three) 4 1
        = sqrt_term.input 1 * (sqrt_term.rsqrte (sqrt_term.input 1)
            * ((sqrt_term.three - sqrt_term.input 1
              * (sqrt_term.rsqrte (sqrt_term.input 1) * sqrt_term.rsqrte (sqrt_term.input 1)))
              * sqrt_term.half)))
    ∧ (3 / 4 * 4 ≤ 2 ∧ 2 < 3
      ∧ simd_sqrt_f32 sqrt_term.rsqrte sqrt_term.sqrtf sqrt_term.three sqrt_term.half
          (fun i => sqrt_term.input i) (fun _ => sqrt_term.three) 3 2
        = sqrt_term.sqrtf (sqrt_term.input 2)) :=
  ⟨⟨by decide,
      (simd_sqrt_f32_paths sqrt_term.rsqrte sqrt_term.sqrtf sqrt_term.three sqrt_term.half
        (fun i => sqrt_term.input i) (fun _ => sqrt_term.three) 4).1 1 (by decide)⟩,
    ⟨by decide, by decide,
      (simd_sqrt_f32_paths sqrt_term.rsqrte sqrt_term.sqrtf sqrt_term.three sqrt_term.half
        (fun i => sqrt_term.input i) (fun _ => sqrt_term.three) 3).2 2 (by decide) (by decide)⟩⟩

/-! ## FFT: bit reversal twice -/

/-- C40. For every bit count `bits ≤ 30` and every `x < 2^bits`, `bit_reverse x bits` is
again below `2^bits` (and within the range of `int`), and reversing it gives `x` back;
applying `bit_reverse_array` twice to an array of length `2^bits` restores the array. -/
theorem bit_reverse_twice {α : Type} (array : Buf α) (bits x : Nat) (hb : bits ≤ 30)
    (hx : x < 2 ^ bits) :
    bit_reverse x bits < 2 ^ bits
    ∧ bit_reverse x bits ≤ INT_MAX
    ∧ bit_reverse (bit_reverse x bits) bits = x
    ∧ bit_reverse_array (bit_reverse_array array (2 ^ bits)) (2 ^ bits) = array := by
  have hlt := bit_reverse_lt x bits
  have hpow : 2 ^ bits ≤ 2 ^ 30 := Nat.pow_le_pow_right (by decide) hb
  have h30 : (2 : Nat) ^ 30 = 1073741824 := by norm_num
  refine ⟨hlt, ?_, bit_reverse_involutive x bits hx, ?_⟩
  · unfold INT_MAX
    omega
  · funext p
    rw [bit_reverse_array_eq]
    by_cases hp : p < 2 ^ bits
    · rw [if_pos hp, bit_reverse_array_eq, if_pos (bit_reverse_lt p bits),
        bit_reverse_involutive p bits hp]
    · rw [if_neg hp, bit_reverse_array_eq, if_neg hp]

/-- Witness for C40: three bits, `x = 1` with reversed index 4, and the array
`0, 10, 20, ...`. -/
theorem bit_reverse_twice_witness :
    3 ≤ 30 ∧ 1 < 2 ^ 3
    ∧ bit_reverse 1 3 = 4
    ∧ bit_reverse (bit_reverse 1 3) 3 = 1
    ∧ bit_reverse_array (bit_reverse_array (fun k => 10 * k) (2 ^ 3)) (2 ^ 3)
        = (fun k => 10 * k) :=
  have h := bit_reverse_twice (fun k => 10 * k) 3 1 (by decide) (by decide)
  ⟨by decide, by decide, by decide, h.2.2.1, h.2.2.2⟩

/-! ## Box blur: the multiply-shift approximation -/

/-- C38. For every neighbourhood sum `S ≤ 2295 = 9 * 255`: the product `S * 28` is at most
64260, below `2^16`, so the 16-bit lane of the blur holds `S * 28` without wrap and the
narrowed lane is `(S * 28) >> 8`, the floor of `28 * S / 256`; this value never exceeds the
exact quotient `S / 9` of the tail loop and is at most 4 below it. -/
theorem blur_multiply_shift_bound (S : Nat) (hS : S ≤ 2295) (l : Fin 8) :
    S * 28 ≤ 64260
    ∧ vmulq_n_u16 (fun _ => S) 28 l = S * 28
    ∧ vshrn_n_u16 (vmulq_n_u16 (fun _ => S) 28) 8 l = (S * 28) >>> 8
    ∧ (S * 28) >>> 8 = S * 28 / 256
    ∧ (S * 28) >>> 8 ≤ S / 9
    ∧ S / 9 - (S * 28) >>> 8 ≤ 4
    ∧ wrapU8 (S / 9) = S / 9 := by
  have hs : (S * 28) >>> 8 = S * 28 / 256 := by
    rw [Nat.shiftRight_eq_div_pow]
  have hm : wrapU16 (S * 28) = S * 28 := by
    unfold wrapU16
    omega
  refine ⟨by omega, ?_, ?_, hs, ?_, ?_, ?_⟩
  · simp only [vmulq_n_u16, hm]
  · simp only [vshrn_n_u16, vmulq_n_u16, hm, hs]
    unfold wrapU8
    omega
  · rw [hs]
    omega
  · rw [hs]
    omega
  · unfold wrapU8
    omega

/-- Witness for C38: the largest sum, 2295, where the lane holds 251 and the exact
quotient is 255. -/
theorem blur_multiply_shift_bound_witness :
    2295 ≤ 2295
    ∧ vshrn_n_u16 (vmulq_n_u16 (fun _ => 2295) 28) 8 0 = 251
    ∧ 2295 / 9 = 255
    ∧ 2295 / 9 - (2295 * 28) >>> 8 ≤ 4 :=
  have h := blur_multiply_shift_bound 2295 (Nat.le_refl 2295) 0
  ⟨Nat.le_refl 2295, h.2.2.1.trans (by decide), by decide, h.2.2.2.2.2.1⟩

/-! ## Histogram: images of at most 65535 pixels -/

/-- C37. For every image of at most 65535 pixels, `neon_histogram` and `scalar_histogram`
leave the same value in each of the 256 bins, the number of pixels with that value: each
of the four partial counts (lane positions 0-3, 4-7, 8-11, 12-15 of every 16-byte chunk,
the tail counted in the first) is below `2^16`, so no 16-bit counter wraps, and the four
partial counts of a value add up to its number of occurrences. -/
theorem neon_histogram_matches_scalar (image h1 h2 : Buf Nat) (size v : Nat)
    (hsize : size ≤ 65535) (hv : v < 256) :
    neon_histogram image h1 size v = scalar_histogram image h2 size v
    ∧ neon_histogram image h1 size v = pixel_count_eq image size v
    ∧ (neon_local_count image size 0 v < 65536 ∧ neon_local_count image size 1 v < 65536
      ∧ neon_local_count image size 2 v < 65536 ∧ neon_local_count image size 3 v < 65536)
    ∧ neon_local_count image size 0 v + neon_local_count image size 1 v
        + neon_local_count image size 2 v + neon_local_count image size 3 v
      = pixel_count_eq image size v := by
  have htot := neon_local_count_total image size v
  have hle := pixel_count_eq_le image size v
  have hn : neon_histogram image h1 size v = pixel_count_eq image size v := by
    rw [neon_histogram_bin image h1 size v hv]
    unfold wrapU32
    omega
  refine ⟨?_, hn, ⟨by omega, by omega, by omega, by omega⟩, htot⟩
  rw [hn, scalar_histogram_bin image h2 size v hv]
  omega

/-- Witness for C37: 40 pixels `0, 1, 2, 0, 1, 2, ...` (two chunks and a tail of 8), the
bin 1. -/
theorem neon_histogram_matches_scalar_witness :
    40 ≤ 65535 ∧ 1 < 256
    ∧ neon_histogram (fun i => i % 3) (fun _ => 5) 40 1
        = scalar_histogram (fun i => i % 3) (fun _ => 0) 40 1 :=
  ⟨by decide, by decide,
    (neon_histogram_matches_scalar (fun i => i % 3) (fun _ => 5) (fun _ => 0) 40 1
      (by decide) (by decide)).1⟩

/-! ## Sobel: the formulas of the two paths -/

theorem kernel_index (n : Nat) : n + 0 - 1 = n - 1 ∧ n + 1 - 1 = n ∧ n + 2 - 1 = n + 1 :=
  ⟨rfl, rfl, rfl⟩

/-- The kernel loops of `scalar_sobel_edge` compute the responses of the two kernels. -/
theorem scalar_sobel_gradient_eq (input : Buf Nat) (width y x : Nat) :
    scalar_sobel_gradient input width y x
      = (sobel_gx_spec input width y x, sobel_gy_spec input width y x) := by
  unfold scalar_sobel_gradient forRange sobel_gx_spec sobel_gy_spec
  simp only [Nat.sub_zero, forLoop, Nat.zero_add, Nat.reduceAdd, sobel_x, sobel_y,
    (kernel_index _).1, (kernel_index _).2.1, (kernel_index _).2.2]
  refine Prod.ext ?_ ?_
  · simp only
    ring
  · simp only
    ring

theorem scalar_sobel_magnitude_eq (g : Int × Int) :
    wrapU8 (scalar_sobel_magnitude g) = min 255 (Nat.sqrt (g.1 ^ 2 + g.2 ^ 2).toNat) := by
  unfold scalar_sobel_magnitude wrapU8
  simp only [pow_two, Nat.min_def]
  split_ifs <;> omega

/-- C36. For every interior pixel `(y, x)` of an image (so width and height are at least
3), `scalar_sobel_edge` stores `min(255, floor(sqrt(Gx^2 + Gy^2)))`, where `Gx` and `Gy`,
computed by the kernel loops, are the responses of the kernels `[-1 0 1; -2 0 2; -1 0 1]`
and `[-1 -2 -1; 0 0 0; 1 2 1]` on the neighbourhood of the pixel; the integer square root
`r` of `n = Gx^2 + Gy^2` is the floor of the real one, `r^2 ≤ n < (r + 1)^2`. -/
theorem scalar_sobel_edge_formula (input output : Buf Nat) (width height y x : Nat)
    (hy1 : 1 ≤ y) (hy2 : y + 1 < height) (hx1 : 1 ≤ x) (hx2 : x + 1 < width) :
    scalar_sobel_gradient input width y x
      = (sobel_gx_spec input width y x, sobel_gy_spec input width y x)
    ∧ scalar_sobel_edge input output width height (y * width + x)
      = min 255
          (Nat.sqrt (sobel_gx_spec input width y x ^ 2 + sobel_gy_spec input width y x ^ 2).toNat)
    ∧ Nat.sqrt (sobel_gx_spec input width y x ^ 2 + sobel_gy_spec input width y x ^ 2).toNat ^ 2
      ≤ (sobel_gx_spec input width y x ^ 2 + sobel_gy_spec input width y x ^ 2).toNat
    ∧ (sobel_gx_spec input width y x ^ 2 + sobel_gy_spec input width y x ^ 2).toNat
      < (Nat.sqrt (sobel_gx_spec input width y x ^ 2
          + sobel_gy_spec input width y x ^ 2).toNat + 1) ^ 2 := by
  refine ⟨scalar_sobel_gradient_eq input width y x, ?_, Nat.sqrt_le' _, Nat.lt_succ_sqrt' _⟩
  rw [scalar_sobel_edge_interior input output width height y x hy1 hy2 hx1 hx2,
    scalar_sobel_magnitude_eq, scalar_sobel_gradient_eq]

/-- Witness for C36: the 3 x 3 image whose right column is 25, its single interior pixel,
where `Gx = 100` and `Gy = 0`. -/
theorem scalar_sobel_edge_formula_witness :
    1 ≤ 1 ∧ 1 + 1 < 3
    ∧ sobel_gx_spec edge_image_3 3 1 1 = 100 ∧ sobel_gy_spec edge_image_3 3 1 1 = 0
    ∧ scalar_sobel_edge edge_image_3 (fun _ => 7) 3 3 (1 * 3 + 1)
      = min 255
          (Nat.sqrt (sobel_gx_spec edge_image_3 3 1 1 ^ 2
            + sobel_gy_spec edge_image_3 3 1 1 ^ 2).toNat) :=
  ⟨by decide, by decide, by decide, by decide,
    (scalar_sobel_edge_formula edge_image_3 (fun _ => 7) 3 3 1 1
      (by decide) (by decide) (by decide) (by decide)).2.1⟩

/-- The tail loop's value: half the sum of the absolute kernel responses, clamped to 255. -/
theorem neon_sobel_tail_eq (input : Buf Nat) (width y x : Nat) :
    neon_sobel_tail input width y x
      = min 255 (((sobel_gx_spec input width y x).natAbs
          + (sobel_gy_spec input width y x).natAbs) >>> 1) := by
  unfold neon_sobel_tail sobel_gx_spec sobel_gy_spec wrapU8
  simp only [Nat.shiftRight_eq_div_pow, pow_one, Nat.min_def]
  split_ifs <;> omega

/-- A lane of `vext_u8` applied to the two halves of a 16-byte load. -/
theorem vext_vld1 (input : Buf Nat) (off n : Nat) (l : Fin 8) (hn : n ≤ 8) :
    vext_u8 (vget_low16 (vld1 16 input off)) (vget_high16 (vld1 16 input off)) n l
      = input (off + (l.val + n)) := by
  unfold vext_u8
  by_cases h : l.val + n < 8
  · rw [dif_pos h]
    rfl
  · rw [dif_neg h]
    simp only [vget_high16, vld1]
    congr 1
    have := l.isLt
    omega

/-- The int16 lane arithmetic for `gx` on six bytes: no intermediate wraps. -/
theorem sobel_gx_lane (a c d f g i : Nat) (ha : a < 256) (hc : c < 256) (hd : d < 256)
    (hf : f < 256) (hg : g < 256) (hi : i < 256) :
    wrapS16 (wrapS16 (wrapS16 (wrapS16 (wrapS16 (wrapS16 (-wrapS16 (a : Int))
        + wrapS16 (c : Int)) - wrapS16 (wrapS16 (d : Int) * 2 ^ 1))
        + wrapS16 (wrapS16 (f : Int) * 2 ^ 1)) - wrapS16 (g : Int)) + wrapS16 (i : Int))
      = -(a : Int) + c - 2 * d + 2 * f - g + i := by
  unfold wrapS16
  omega

/-- The int16 lane arithmetic for `gy` on six bytes: no intermediate wraps. -/
theorem sobel_gy_lane (a b c g h i : Nat) (ha : a < 256) (hb : b < 256) (hc : c < 256)
    (hg : g < 256) (hh : h < 256) (hi : i < 256) :
    wrapS16 (wrapS16 (wrapS16 (wrapS16 (wrapS16 (wrapS16 (-wrapS16 (a : Int))
        - wrapS16 (wrapS16 (b : Int) * 2 ^ 1)) - wrapS16 (c : Int))
        + wrapS16 (g : Int)) + wrapS16 (wrapS16 (h : Int) * 2 ^ 1)) + wrapS16 (i : Int))
      = -(a : Int) - 2 * b - c + g + 2 * h + i := by
  unfold wrapS16
  omega

/-- Absolute values, sum, shift and saturating narrow of a lane, for gradients of
magnitude at most 1020: no intermediate wraps and the result is the clamped half sum. -/
theorem sobel_lane_magnitude (gx gy : Int) (hx1 : -1020 ≤ gx) (hx2 : gx ≤ 1020)
    (hy1 : -1020 ≤ gy) (hy2 : gy ≤ 1020) :
    (if wrapS16 (wrapS16 (gx.natAbs : Nat) + wrapS16 (gy.natAbs : Nat)) >>> (1 : Nat) < 0
      then 0
      else if wrapS16 (wrapS16 (gx.natAbs : Nat) + wrapS16 (gy.natAbs : Nat)) >>> (1 : Nat)
          > 255 then 255
      else (wrapS16 (wrapS16 (gx.natAbs : Nat) + wrapS16 (gy.natAbs : Nat))
          >>> (1 : Nat)).toNat)
      = min 255 ((gx.natAbs + gy.natAbs) >>> 1) := by
  have e3 : wrapS16 ((gx.natAbs : Nat) : Int) = gx.natAbs := by unfold wrapS16; omega
  have e4 : wrapS16 ((gy.natAbs : Nat) : Int) = gy.natAbs := by unfold wrapS16; omega
  have e5 : wrapS16 (((gx.natAbs : Nat) : Int) + ((gy.natAbs : Nat) : Int))
      = ((gx.natAbs : Nat) : Int) + ((gy.natAbs : Nat) : Int) := by unfold wrapS16; omega
  rw [e3, e4, e5]
  simp only [Int.shiftRight_eq_div_pow, Nat.shiftRight_eq_div_pow, pow_one, Nat.min_def,
    Nat.cast_ofNat]
  split_ifs <;> omega

/-- The kernel responses on bytes are at most `4 * 255 = 1020` in magnitude. -/
theorem sobel_spec_bounds (input : Buf Nat) (width y x : Nat) (hbytes : ∀ p, input p < 256) :
    (-1020 ≤ sobel_gx_spec input width y x ∧ sobel_gx_spec input width y x ≤ 1020)
    ∧ (-1020 ≤ sobel_gy_spec input width y x ∧ sobel_gy_spec input width y x ≤ 1020) := by
  unfold sobel_gx_spec sobel_gy_spec
  have h1 := hbytes ((y - 1) * width + (x - 1))
  have h2 := hbytes ((y - 1) * width + x)
  have h3 := hbytes ((y - 1) * width + (x + 1))
  have h4 := hbytes (y * width + (x - 1))
  have h5 := hbytes (y * width + (x + 1))
  have h6 := hbytes ((y + 1) * width + (x - 1))
  have h7 := hbytes ((y + 1) * width + x)
  have h8 := hbytes ((y + 1) * width + (x + 1))
  omega


/-- Lane `l` of the 8-wide loop body at column `x ≥ 1` holds the clamped half sum of the
absolute kernel responses at pixel `(y, x + l)`. -/
theorem neon_sobel_vec_lane (input : Buf Nat) (width y x : Nat) (l : Fin 8) (hx : 1 ≤ x)
    (hbytes : ∀ p, input p < 256) :
    neon_sobel_vec input width y x l
      = min 255 (((sobel_gx_spec input width y (x + l.val)).natAbs
          + (sobel_gy_spec input width y (x + l.val)).natAbs) >>> 1) := by
  have hb := sobel_spec_bounds input width y (x + l.val) hbytes
  unfold neon_sobel_vec
  simp only [vqmovun_s16, vshrq_n_s16, vaddq_s16, vabsq_s16, vsubq_s16, vnegq_s16,
    vshlq_n_s16, vreinterpretq_s16_u16, vmovl_u8, vext_vld1 _ _ 1 _ (by decide),
    vext_vld1 _ _ 2 _ (by decide), vget_low16, vld1]
  have i0 : ∀ r, r + (x - 1) + l.val = r + (x + l.val - 1) := by intro r; omega
  have i1 : ∀ r, r + (x - 1) + (l.val + 1) = r + (x + l.val) := by intro r; omega
  have i2 : ∀ r, r + (x - 1) + (l.val + 2) = r + (x + l.val + 1) := by intro r; omega
  simp only [i0, i1, i2]
  rw [sobel_gx_lane _ _ _ _ _ _ (hbytes _) (hbytes _) (hbytes _) (hbytes _) (hbytes _)
      (hbytes _),
    sobel_gy_lane _ _ _ _ _ _ (hbytes _) (hbytes _) (hbytes _) (hbytes _) (hbytes _)
      (hbytes _)]
  have ex : sobel_gx_spec input width y (x + l.val)
      = -(input ((y - 1) * width + (x + l.val - 1)) : Int)
        + (input ((y - 1) * width + (x + l.val + 1)) : Int)
        - 2 * (input (y * width + (x + l.val - 1)) : Int)
        + 2 * (input (y * width + (x + l.val + 1)) : Int)
        - (input ((y + 1) * width + (x + l.val - 1)) : Int)
        + (input ((y + 1) * width + (x + l.val + 1)) : Int) := rfl
  have ey : sobel_gy_spec input width y (x + l.val)
      = -(input ((y - 1) * width + (x + l.val - 1)) : Int)
        - 2 * (input ((y - 1) * width + (x + l.val)) : Int)
        - (input ((y - 1) * width + (x + l.val + 1)) : Int)
        + (input ((y + 1) * width + (x + l.val - 1)) : Int)
        + 2 * (input ((y + 1) * width + (x + l.val)) : Int)
        + (input ((y + 1) * width + (x + l.val + 1)) : Int) := rfl
  rw [← ex, ← ey]
  exact sobel_lane_magnitude _ _ hb.1.1 hb.1.2 hb.2.1 hb.2.2

/-- C35. In `neon_sobel_edge`, for every neighbourhood of byte values, the value of lane `l`
of the 8-wide loop body at column `x ≥ 1` (int16 arithmetic for `Gx` and `Gy`, sum of the
absolute values, arithmetic shift right by 1, saturating narrow) is the value the tail
loop computes for the pixel `(y, x + l)`, namely `min(255, (|Gx| + |Gy|) >> 1)` with the
exact kernel responses `Gx`, `Gy`: no int16 intermediate wraps, `|Gx|` and `|Gy|` being at
most 1020. -/
theorem neon_sobel_lane_matches_tail (input : Buf Nat) (width y x : Nat) (l : Fin 8)
    (hx : 1 ≤ x) (hbytes : ∀ p, input p < 256) :
    neon_sobel_vec input width y x l = neon_sobel_tail input width y (x + l.val)
    ∧ neon_sobel_tail input width y (x + l.val)
      = min 255 (((sobel_gx_spec input width y (x + l.val)).natAbs
          + (sobel_gy_spec input width y (x + l.val)).natAbs) >>> 1)
    ∧ (sobel_gx_spec input width y (x + l.val)).natAbs ≤ 1020
    ∧ (sobel_gy_spec input width y (x + l.val)).natAbs ≤ 1020 := by
  have hb := sobel_spec_bounds input width y (x + l.val) hbytes
  refine ⟨?_, neon_sobel_tail_eq input width y (x + l.val), by omega, by omega⟩
  rw [neon_sobel_vec_lane input width y x l hx hbytes, neon_sobel_tail_eq]

theorem edge_image_11_bytes (p : Nat) : edge_image_11 p < 256 := by
  unfold edge_image_11
  split_ifs <;> decide

/-- Witness for C35: the 11 x 3 image with columns 5 to 10 equal to 25, row 1, the 8-wide
group at column 1, lane 3 (pixel `(1, 4)`), where both values are 50. -/
theorem neon_sobel_lane_matches_tail_witness :
    1 ≤ 1 ∧ (∀ p, edge_image_11 p < 256)
    ∧ neon_sobel_vec edge_image_11 11 1 1 3 = neon_sobel_tail edge_image_11 11 1 (1 + 3)
    ∧ neon_sobel_tail edge_image_11 11 1 (1 + 3) = 50 :=
  have h := neon_sobel_lane_matches_tail edge_image_11 11 1 1 3 (by decide)
    edge_image_11_bytes
  ⟨by decide, edge_image_11_bytes, h.1, by decide⟩

/-! ## Box blur: the formula of the scalar reference -/

/-- The accumulators of the blur hold the sum of the nine neighbours when the pixels are
bytes: neither the 32-bit nor the 16-bit accumulator wraps. -/
theorem blur_sum_eq_spec (input : Buf Nat) (width y x : Nat) (hbytes : ∀ p, input p < 256) :
    blur_sum_u32 input width y x = neighbourhood_sum_spec input width y x
    ∧ blur_sum_u16 input width y x = neighbourhood_sum_spec input width y x
    ∧ neighbourhood_sum_spec input width y x ≤ 2295 := by
  unfold blur_sum_u32 blur_sum_u16 forRange neighbourhood_sum_spec
  simp only [Nat.sub_zero, forLoop, Nat.zero_add, Nat.reduceAdd, (kernel_index _).1,
    (kernel_index _).2.1, (kernel_index _).2.2, wrapU32, wrapU16]
  have h1 := hbytes ((y - 1) * width + (x - 1))
  have h2 := hbytes ((y - 1) * width + x)
  have h3 := hbytes ((y - 1) * width + (x + 1))
  have h4 := hbytes (y * width + (x - 1))
  have h5 := hbytes (y * width + x)
  have h6 := hbytes (y * width + (x + 1))
  have h7 := hbytes ((y + 1) * width + (x - 1))
  have h8 := hbytes ((y + 1) * width + x)
  have h9 := hbytes ((y + 1) * width + (x + 1))
  refine ⟨?_, ?_, ?_⟩ <;> omega

/-- C31, counterexample. On the 3 x 3 image whose pixels are all 255 the neighbourhood sum
of the interior pixel is `S = 2295`; `scalar_blur_gray_3x3` stores `S / 9 = 255` there,
not `(S * 28) >> 8 = 251`. -/
theorem scalar_blur_is_not_multiply_shift :
    neighbourhood_sum_spec (fun _ => 255) 3 1 1 = 2295
    ∧ (2295 * 28) >>> 8 = 251
    ∧ scalar_blur_gray_3x3 (fun _ => 255) (fun _ => 0) 3 3 (1 * 3 + 1) = 255
    ∧ scalar_blur_gray_3x3 (fun _ => 255) (fun _ => 0) 3 3 (1 * 3 + 1)
      ≠ (neighbourhood_sum_spec (fun _ => 255) 3 1 1 * 28) >>> 8 := by
  decide

/-- C31, amended. For every interior pixel `(y, x)` of an image of bytes (so width and
height are at least 3), `scalar_blur_gray_3x3` stores the exact quotient `S / 9` rounded
down, where `S` is the sum of the 9 neighbours; the value is at least the multiply-shift
value `(S * 28) >> 8` of the 8-wide vector loop and at most 4 above it. -/
theorem scalar_blur_divides_by_nine (input output : Buf Nat) (width height y x : Nat)
    (hy1 : 1 ≤ y) (hy2 : y + 1 < height) (hx1 : 1 ≤ x) (hx2 : x + 1 < width)
    (hbytes : ∀ p, input p < 256) :
    scalar_blur_gray_3x3 input output width height (y * width + x)
      = neighbourhood_sum_spec input width y x / 9
    ∧ (neighbourhood_sum_spec input width y x * 28) >>> 8
      ≤ scalar_blur_gray_3x3 input output width height (y * width + x)
    ∧ scalar_blur_gray_3x3 input output width height (y * width + x)
      ≤ (neighbourhood_sum_spec input width y x * 28) >>> 8 + 4 := by
  have hs := blur_sum_eq_spec input width y x hbytes
  have hv : scalar_blur_gray_3x3 input output width height (y * width + x)
      = neighbourhood_sum_spec input width y x / 9 := by
    rw [scalar_blur_interior input output width height y x hy1 hy2 hx1 hx2, hs.1]
    unfold wrapU8
    omega
  rw [hv, Nat.shiftRight_eq_div_pow]
  refine ⟨rfl, ?_, ?_⟩ <;> omega

/-- Witness for C31 (amended): the 3 x 3 image of 255s, where the interior pixel
becomes 255. -/
theorem scalar_blur_divides_by_nine_witness :
    1 ≤ 1 ∧ 1 + 1 < 3 ∧ (∀ p, (fun _ => 255 : Buf Nat) p < 256)
    ∧ scalar_blur_gray_3x3 (fun _ => 255) (fun _ => 0) 3 3 (1 * 3 + 1)
      = neighbourhood_sum_spec (fun _ => 255) 3 1 1 / 9
    ∧ neighbourhood_sum_spec (fun _ => 255) 3 1 1 / 9 = 255 :=
  ⟨by decide, by decide, fun _ => (show 255 < 256 by decide),
    (scalar_blur_divides_by_nine (fun _ => 255) (fun _ => 0) 3 3 1 1 (by decide) (by decide)
      (by decide) (by decide) (fun _ => (show 255 < 256 by decide))).1, by decide⟩

/-! ## Images: rows handled by an 8-wide loop and a tail loop -/

/-- Two transformations of a buffer that set position sets to a value of the position,
one after the other. -/
theorem writes_comp {α : Type} (G : Nat → α) (S1 S2 : Nat → Prop) (T1 T2 : Buf α → Buf α)
    (h1 : ∀ c q, (S1 q → T1 c q = G q) ∧ (¬S1 q → T1 c q = c q))
    (h2 : ∀ c q, (S2 q → T2 c q = G q) ∧ (¬S2 q → T2 c q = c q)) (c : Buf α) (q : Nat) :
    ((S1 q ∨ S2 q) → T2 (T1 c) q = G q) ∧ (¬(S1 q ∨ S2 q) → T2 (T1 c) q = c q) := by
  by_cases hs2 : S2 q
  · exact ⟨fun _ => (h2 _ q).1 hs2, fun hn => absurd (Or.inr hs2) hn⟩
  · refine ⟨fun h => ?_, fun hn => ?_⟩
    · rw [(h2 _ q).2 hs2]
      exact (h1 c q).1 (h.resolve_right hs2)
    · rw [(h2 _ q).2 hs2]
      exact (h1 c q).2 (fun h => hn (Or.inl h))

/-- One row handled by an 8-wide loop `for (x = 1; x < hi; x += 8)` of vector stores and
then a tail loop `for (x = ts; x < width - 1; x++)` of scalar stores, both storing the
value `g y` of the column: the columns of the lane groups and of the tail hold `g y`,
every other position of the buffer is kept. -/
theorem vec_tail_row {α : Type} (fvec : Nat → Nat → Vec 8 α) (ftail : Nat → Nat → α)
    (g : Nat → Nat → α) (width hi ts y : Nat)
    (hcols : ∀ x, x < hi → x + 7 < width)
    (hvec : ∀ x (l : Fin 8), x % 8 = 1 → x < hi → fvec y x l = g y (x + l.val))
    (htail : ∀ x, ts ≤ x → x + 1 < width → ftail y x = g y x)
    (out : Buf α) (q : Nat) :
    (((∃ t, t < (hi - 1 + 8 - 1) / 8 ∧ y * width + (1 + 8 * t) ≤ q
          ∧ q < y * width + (1 + 8 * t) + 8)
        ∨ (∃ x, ts ≤ x ∧ x + 1 < width ∧ q = y * width + x)) →
      forRange ts (width - 1) (fun x out => store out (y * width + x) (ftail y x))
        (forStep 1 hi 8 (fun x out => vst1 out (y * width + x) (fvec y x)) out) q
        = g (q / width) (q % width))
    ∧ (¬((∃ t, t < (hi - 1 + 8 - 1) / 8 ∧ y * width + (1 + 8 * t) ≤ q
          ∧ q < y * width + (1 + 8 * t) + 8)
        ∨ (∃ x, ts ≤ x ∧ x + 1 < width ∧ q = y * width + x)) →
      forRange ts (width - 1) (fun x out => store out (y * width + x) (ftail y x))
        (forStep 1 hi 8 (fun x out => vst1 out (y * width + x) (fvec y x)) out) q
        = out q) := by
  unfold forRange forStep
  refine writes_comp (fun q => g (q / width) (q % width))
    (fun q => ∃ t, t < (hi - 1 + 8 - 1) / 8 ∧ y * width + (1 + 8 * t) ≤ q
      ∧ q < y * width + (1 + 8 * t) + 8)
    (fun q => ∃ x, ts ≤ x ∧ x + 1 < width ∧ q = y * width + x)
    (fun out => forLoop ((hi - 1 + 8 - 1) / 8) 0
      (fun t => (fun x out => vst1 out (y * width + x) (fvec y x)) (1 + 8 * t)) out)
    (fun out => forLoop (width - 1 - ts) ts
      (fun x out => store out (y * width + x) (ftail y x)) out) ?_ ?_ out q
  · intro c q2
    have hw := forLoop_writes (fun q => g (q / width) (q % width))
      (fun t q => y * width + (1 + 8 * t) ≤ q ∧ q < y * width + (1 + 8 * t) + 8)
      (fun t => (fun x out => vst1 out (y * width + x) (fvec y x)) (1 + 8 * t))
      ((hi - 1 + 8 - 1) / 8) 0
      (by
        intro t d q3 _ ht
        have hx : 1 + 8 * t < hi := by omega
        have hc := hcols (1 + 8 * t) hx
        refine ⟨?_, ?_⟩
        · intro hq
          simp only [vst1]
          rw [dif_pos hq, hvec (1 + 8 * t) _ (by omega) hx]
          have e : q3 = y * width + (1 + 8 * t + (q3 - (y * width + (1 + 8 * t)))) := by omega
          have hlt : 1 + 8 * t + (q3 - (y * width + (1 + 8 * t))) < width := by omega
          have hd := div_mod_of_lt y (1 + 8 * t + (q3 - (y * width + (1 + 8 * t)))) width hlt
          rw [← e] at hd
          simp only [hd.1, hd.2]
        · intro hq
          exact vst1_outside _ _ _ _ hq) c q2
    exact ⟨fun ⟨t, ht, h1, h2⟩ => hw.1 ⟨t, Nat.zero_le _, by omega, h1, h2⟩,
      fun hn => hw.2 (fun t _ ht hq => hn ⟨t, by omega, hq.1, hq.2⟩)⟩
  · intro c q2
    have hw := forLoop_writes (fun q => g (q / width) (q % width))
      (fun x q => q = y * width + x)
      (fun x out => store out (y * width + x) (ftail y x)) (width - 1 - ts) ts
      (by
        intro x d q3 hx1 hx2
        refine ⟨?_, ?_⟩
        · intro e
          rw [e]
          beta_reduce
          rw [store_same, htail x hx1 (by omega), (div_mod_of_lt y x width (by omega)).1,
            (div_mod_of_lt y x width (by omega)).2]
        · intro ne
          beta_reduce
          exact store_other _ _ _ _ ne) c q2
    exact ⟨fun ⟨x, h1, h2, e⟩ => hw.1 ⟨x, h1, by omega, e⟩,
      fun hn => hw.2 (fun x h1 h2 e => hn ⟨x, h1, by omega, e⟩)⟩

/-- The interior rows of an image handled by an 8-wide loop and a tail loop: the pixel
`(y, c)` of an interior row holds `g y c` if column `c` lies in a lane group
(`1 ≤ c ≤ 8 * n`, `n` the number of iterations of the 8-wide loop) or in the tail
(`ts ≤ c < width - 1`); every other pixel keeps what the buffer held before. -/
theorem vec_tail_rows {α : Type} (fvec : Nat → Nat → Vec 8 α) (ftail : Nat → Nat → α)
    (g : Nat → Nat → α) (width height hi ts : Nat)
    (hcols : ∀ x, x < hi → x + 7 < width)
    (hvec : ∀ y x (l : Fin 8), x % 8 = 1 → x < hi → fvec y x l = g y (x + l.val))
    (htail : ∀ y x, ts ≤ x → x + 1 < width → ftail y x = g y x)
    (out : Buf α) :
    (∀ y c, 1 ≤ y → y + 1 < height → c < width →
      ((1 ≤ c ∧ c ≤ 8 * ((hi - 1 + 8 - 1) / 8)) ∨ (ts ≤ c ∧ c + 1 < width)) →
      forRange 1 (height - 1) (fun y out =>
        forRange ts (width - 1) (fun x out => store out (y * width + x) (ftail y x))
          (forStep 1 hi 8 (fun x out => vst1 out (y * width + x) (fvec y x)) out)) out
        (y * width + c) = g y c)
    ∧ (∀ y c, c < width →
      ¬(1 ≤ y ∧ y + 1 < height
        ∧ ((1 ≤ c ∧ c ≤ 8 * ((hi - 1 + 8 - 1) / 8)) ∨ (ts ≤ c ∧ c + 1 < width))) →
      forRange 1 (height - 1) (fun y out =>
        forRange ts (width - 1) (fun x out => store out (y * width + x) (ftail y x))
          (forStep 1 hi 8 (fun x out => vst1 out (y * width + x) (fvec y x)) out)) out
        (y * width + c) = out (y * width + c)) := by
  have hall : ∀ q, _ := fun q => forLoop_writes (fun q => g (q / width) (q % width))
    (fun y q => (∃ t, t < (hi - 1 + 8 - 1) / 8 ∧ y * width + (1 + 8 * t) ≤ q
        ∧ q < y * width + (1 + 8 * t) + 8)
      ∨ (∃ x, ts ≤ x ∧ x + 1 < width ∧ q = y * width + x))
    (fun y out =>
      forRange ts (width - 1) (fun x out => store out (y * width + x) (ftail y x))
        (forStep 1 hi 8 (fun x out => vst1 out (y * width + x) (fvec y x)) out))
    (height - 1 - 1) 1
    (fun y c q _ _ => vec_tail_row fvec ftail g width hi ts y hcols (hvec y) (htail y) c q)
    out q
  unfold forRange at hall ⊢
  refine ⟨?_, ?_⟩
  · intro y c hy1 hy2 hc hw
    have hd := div_mod_of_lt y c width hc
    have key := (hall (y * width + c)).1
    rw [hd.1, hd.2] at key
    apply key
    refine ⟨y, hy1, by omega, ?_⟩
    rcases hw with h | h
    · exact Or.inl ⟨(c - 1) / 8, by omega, by omega, by omega⟩
    · exact Or.inr ⟨c, h.1, h.2, rfl⟩
  · intro y c hc hn
    apply (hall (y * width + c)).2
    intro i hi1 hi2 hS
    rcases hS with ⟨t, ht, h1, h2⟩ | ⟨x, hx1, hx2, e⟩
    · have hx : 1 + 8 * t < hi := by omega
      have hcol := hcols (1 + 8 * t) hx
      have e : y * width + c = i * width + (y * width + c - i * width) := by omega
      have hu := row_col_unique width y c i (y * width + c - i * width) hc (by omega) e
      exact hn ⟨by omega, by omega, Or.inl ⟨by omega, by omega⟩⟩
    · have hu := row_col_unique width y c i x hc (by omega) e
      exact hn ⟨by omega, by omega, Or.inr ⟨by omega, by omega⟩⟩

/-! ## Sobel: the pixels the NEON path writes -/

/-- An interior pixel of the output of `neon_sobel_edge`, for an image of bytes: if its
column is one the loops store to, it holds the clamped half sum of the absolute kernel
responses; if not, it holds what the output buffer held before the call. -/
theorem neon_sobel_edge_pixel (input output : Buf Nat) (width height y x : Nat)
    (hy1 : 1 ≤ y) (hy2 : y + 1 < height) (hx1 : 1 ≤ x) (hx2 : x + 1 < width)
    (hbytes : ∀ p, input p < 256) :
    (neon_sobel_writes_column width x →
      neon_sobel_edge input output width height (y * width + x)
        = min 255 (((sobel_gx_spec input width y x).natAbs
            + (sobel_gy_spec input width y x).natAbs) >>> 1))
    ∧ (¬neon_sobel_writes_column width x →
      neon_sobel_edge input output width height (y * width + x) = output (y * width + x)) := by
  have hrows := vec_tail_rows (fun y x => neon_sobel_vec input width y x)
    (fun y x => neon_sobel_tail input width y x)
    (fun y c => neon_sobel_tail input width y c) width height (width - 9)
    (width - (width - 1) % 8) (fun x hx => by omega)
    (fun y x l hx _ => by
      beta_reduce
      rw [neon_sobel_vec_lane input width y x l (by omega) hbytes, neon_sobel_tail_eq])
    (fun _ _ _ _ => rfl) output
  unfold neon_sobel_edge sobel_zero_border
  rw [(border_loops (fun _ => (0 : Nat)) _ width height).2 y x hy1 hy2 hx1 hx2]
  unfold neon_sobel_rows neon_sobel_writes_column
  refine ⟨fun hw => ?_, fun hn => ?_⟩
  · rw [← neon_sobel_tail_eq]
    exact hrows.1 y x hy1 hy2 (by omega) hw
  · exact hrows.2 y x (by omega) (fun h => hn h.2.2)

/-- C33. On a 10 x 3 image the 8-wide loop of `neon_sobel_edge` runs no iteration
(`1 < 10 - 9` is false) and the tail loop starts at column `10 - 9 % 8 = 9`, past the last
interior column 8: none of the interior columns 1 to 8 is stored to, and each of these
pixels of the output holds what the buffer held before the call, 7 in one run and 0 in
another, for the same input. -/
theorem sobel_leaves_columns_unwritten :
    (∀ x, x < 8 → ¬neon_sobel_writes_column 10 (x + 1))
    ∧ (∀ x, x < 8 →
      neon_sobel_edge (fun _ => 255) (fun _ => 7) 10 3 (1 * 10 + (x + 1)) = 7)
    ∧ (∀ x, x < 8 →
      neon_sobel_edge (fun _ => 255) (fun _ => 0) 10 3 (1 * 10 + (x + 1)) = 0) := by
  decide

/-- C34. On an 11 x 3 image (33 bytes) the only iteration of the 8-wide loop of
`neon_sobel_edge` (row 1, column 1) loads 16 bytes from the start of each of the three
rows; the load of the bottom row reads the indices 22 to 37, of which 33 to 37 lie
beyond the image. -/
theorem neon_sobel_reads_past_image :
    37 ∈ neon_sobel_reads 11 3
    ∧ ¬(37 < 11 * 3)
    ∧ (neon_sobel_reads 11 3).all (fun p => decide (p < 11 * 3)) = false
    ∧ ((neon_sobel_reads 11 3).filter (fun p => decide (11 * 3 ≤ p))) = [33, 34, 35, 36, 37] := by
  decide

/-- Half the L1 norm, rounded down, is at most the integer square root of the sum of
squares. -/
theorem half_l1_le_sqrt (gx gy : Int) :
    (gx.natAbs + gy.natAbs) >>> 1 ≤ Nat.sqrt (gx ^ 2 + gy ^ 2).toNat := by
  have hn : (gx ^ 2 + gy ^ 2).toNat
      = gx.natAbs * gx.natAbs + gy.natAbs * gy.natAbs := by
    have e : gx ^ 2 + gy ^ 2
        = ((gx.natAbs * gx.natAbs + gy.natAbs * gy.natAbs : Nat) : Int) := by
      push_cast
      rw [abs_mul_abs_self, abs_mul_abs_self]
      ring
    rw [e, Int.toNat_natCast]
  rw [hn, Nat.shiftRight_eq_div_pow, pow_one, Nat.le_sqrt]
  generalize gx.natAbs = a
  generalize gy.natAbs = b
  have h2 : 2 * ((a + b) / 2) ≤ a + b := Nat.mul_div_le (a + b) 2
  generalize (a + b) / 2 = m at h2 ⊢
  nlinarith [sq_nonneg ((a : Int) - b), Nat.mul_le_mul h2 h2]

/-- C39. For every image of bytes and every interior pixel in a column that
`neon_sobel_edge` stores to, the output of `neon_sobel_edge` at the pixel is at most the
output of `scalar_sobel_edge` there; and for all integers `gx`, `gy` (in particular those
of magnitude at most 1020) `min(255, (|gx| + |gy|) >> 1) ≤ min(255, floor(sqrt(gx^2 + gy^2)))`. -/
theorem neon_sobel_le_scalar (input o1 o2 : Buf Nat) (width height y x : Nat)
    (hy1 : 1 ≤ y) (hy2 : y + 1 < height) (hx1 : 1 ≤ x) (hx2 : x + 1 < width)
    (hbytes : ∀ p, input p < 256) (hw : neon_sobel_writes_column width x) (gx gy : Int) :
    neon_sobel_edge input o1 width height (y * width + x)
      ≤ scalar_sobel_edge input o2 width height (y * width + x)
    ∧ neon_sobel_edge input o1 width height (y * width + x)
      = min 255 (((sobel_gx_spec input width y x).natAbs
          + (sobel_gy_spec input width y x).natAbs) >>> 1)
    ∧ scalar_sobel_edge input o2 width height (y * width + x)
      = min 255
          (Nat.sqrt (sobel_gx_spec input width y x ^ 2 + sobel_gy_spec input width y x ^ 2).toNat)
    ∧ min 255 ((gx.natAbs + gy.natAbs) >>> 1) ≤ min 255 (Nat.sqrt (gx ^ 2 + gy ^ 2).toNat) := by
  have hn := (neon_sobel_edge_pixel input o1 width height y x hy1 hy2 hx1 hx2 hbytes).1 hw
  have hs : scalar_sobel_edge input o2 width height (y * width + x)
      = min 255 (Nat.sqrt
          (sobel_gx_spec input width y x ^ 2 + sobel_gy_spec input width y x ^ 2).toNat) := by
    rw [scalar_sobel_edge_interior input o2 width height y x hy1 hy2 hx1 hx2,
      scalar_sobel_magnitude_eq, scalar_sobel_gradient_eq]
  refine ⟨?_, hn, hs, min_le_min_left 255 (half_l1_le_sqrt gx gy)⟩
  rw [hn, hs]
  exact min_le_min_left 255 (half_l1_le_sqrt _ _)

/-- Witness for C39: the 11 x 3 image with columns 5 to 10 equal to 25, pixel `(1, 4)`
in the lane group of the 8-wide loop, and the gradients `100`, `0`. -/
theorem neon_sobel_le_scalar_witness :
    1 ≤ 1 ∧ 1 + 1 < 3 ∧ 1 ≤ 4 ∧ 4 + 1 < 11 ∧ (∀ p, edge_image_11 p < 256)
    ∧ neon_sobel_writes_column 11 4
    ∧ neon_sobel_edge edge_image_11 (fun _ => 7) 11 3 (1 * 11 + 4)
      ≤ scalar_sobel_edge edge_image_11 (fun _ => 9) 11 3 (1 * 11 + 4)
    ∧ neon_sobel_edge edge_image_11 (fun _ => 7) 11 3 (1 * 11 + 4) = 50 :=
  have h := neon_sobel_le_scalar edge_image_11 (fun _ => 7) (fun _ => 9) 11 3 1 4
    (by decide) (by decide) (by decide) (by decide) edge_image_11_bytes (by decide) 100 0
  ⟨by decide, by decide, by decide, by decide, edge_image_11_bytes, by decide, h.1, by decide⟩

/-! ## Box blur: the pixels the vector path writes -/

/-- Lane `l` of the 8-wide accumulation at column `x ≥ 1` is the 16-bit accumulation of
the pixel `(y, x + l)`. -/
theorem blur_sum_vec_lane (input : Buf Nat) (width y x : Nat) (l : Fin 8) (hx : 1 ≤ x) :
    blur_sum_vec input width y x l = blur_sum_u16 input width y (x + l.val) := by
  unfold blur_sum_vec blur_sum_u16 forRange
  simp only [Nat.sub_zero, forLoop, Nat.zero_add, Nat.reduceAdd, vaddw_u8, vld1, vdupq_n_u16]
  have i0 : ∀ r, r + (x + 0 - 1) + l.val = r + (x + l.val + 0 - 1) := by intro r; omega
  have i1 : ∀ r, r + (x + 1 - 1) + l.val = r + (x + l.val + 1 - 1) := by intro r; omega
  have i2 : ∀ r, r + (x + 2 - 1) + l.val = r + (x + l.val + 2 - 1) := by intro r; omega
  simp only [i0, i1, i2]

/-- An interior pixel of the output of the vector path of the blur: if its column is one
the loops store to, it holds the multiply-shift value (columns of the lane groups, before
the tail start) or the quotient by 9 (columns of the tail); if not, it holds what the
output buffer held before the call. -/
theorem neon_blur_pixel (input output : Buf Nat) (width height y x : Nat)
    (hy1 : 1 ≤ y) (hy2 : y + 1 < height) (hx1 : 1 ≤ x) (hx2 : x + 1 < width) :
    (neon_blur_writes_column width x →
      neon_blur_gray_3x3 input output width height (y * width + x)
        = if x < width - (width - 1) % 8 then
            wrapU8 (wrapU16 (blur_sum_u16 input width y x * 28) >>> 8)
          else wrapU8 (blur_sum_u16 input width y x / 9))
    ∧ (¬neon_blur_writes_column width x →
      neon_blur_gray_3x3 input output width height (y * width + x) = output (y * width + x))
    ∧ simd_blur_gray_3x3 input output width height (y * width + x)
      = neon_blur_gray_3x3 input output width height (y * width + x) := by
  have hrows := vec_tail_rows
    (fun y x => vshrn_n_u16 (vmulq_n_u16 (blur_sum_vec input width y x) 28) 8)
    (fun y x => wrapU8 (blur_sum_u16 input width y x / 9))
    (fun y c => if c < width - (width - 1) % 8 then
        wrapU8 (wrapU16 (blur_sum_u16 input width y c * 28) >>> 8)
      else wrapU8 (blur_sum_u16 input width y c / 9))
    width height (width - 8) (width - (width - 1) % 8) (fun x hx => by omega)
    (fun y x l hx hlt => by
      have hl := l.isLt
      beta_reduce
      rw [if_pos (by omega)]
      simp only [vshrn_n_u16, vmulq_n_u16]
      rw [blur_sum_vec_lane input width y x l (by omega)])
    (fun y x h1 _ => by
      beta_reduce
      rw [if_neg (by omega)]) output
  refine ⟨?_, ?_, rfl⟩
  · intro hw
    unfold neon_blur_gray_3x3 blur_copy_border
    rw [(border_loops input _ width height).2 y x hy1 hy2 hx1 hx2]
    unfold neon_blur_rows
    exact hrows.1 y x hy1 hy2 (by omega) hw
  · intro hn
    unfold neon_blur_gray_3x3 blur_copy_border
    rw [(border_loops input _ width height).2 y x hy1 hy2 hx1 hx2]
    unfold neon_blur_rows
    exact hrows.2 y x (by omega) (fun h => hn h.2.2)

/-- The loops of the vector path of the blur store to every interior column when
`(width - 1) % 8` is not 0; when it is 0 (and `width ≥ 9`) they store to none of the last
seven interior columns. -/
theorem neon_blur_coverage (width x : Nat) (hx1 : 1 ≤ x) (hx2 : x + 1 < width) :
    ((width - 1) % 8 ≠ 0 → neon_blur_writes_column width x)
    ∧ ((width - 1) % 8 = 0 → width ≤ x + 8 → ¬neon_blur_writes_column width x) := by
  unfold neon_blur_writes_column
  refine ⟨fun h => ?_, fun h hw => ?_⟩ <;> omega

/-- The loops of `neon_sobel_edge` store to every interior column when `(width - 1) % 8` is
at least 2; when it is 0 or 1 (and `width ≥ 9`) they store to none of the last seven
interior columns. -/
theorem neon_sobel_coverage (width x : Nat) (hx1 : 1 ≤ x) (hx2 : x + 1 < width) :
    (2 ≤ (width - 1) % 8 → neon_sobel_writes_column width x)
    ∧ ((width - 1) % 8 < 2 → width ≤ x + 8 → ¬neon_sobel_writes_column width x) := by
  unfold neon_sobel_writes_column
  refine ⟨fun h => ?_, fun h hw => ?_⟩ <;> omega

/-- C32. On a 9 x 3 image the 8-wide loop of `neon_blur_gray_3x3` / `simd_blur_gray_3x3`
runs no iteration (`1 < 9 - 8` is false) and the tail loop starts at column
`9 - 8 % 8 = 9`, past the last interior column 7: none of the interior columns 1 to 7 is
stored to, and each of these pixels of the output holds what the buffer held before the
call, 7 in one run and 0 in another, for the same input. -/
theorem blur_leaves_columns_unwritten :
    (∀ x, x < 7 → ¬neon_blur_writes_column 9 (x + 1))
    ∧ (∀ x, x < 7 →
      neon_blur_gray_3x3 (fun _ => 255) (fun _ => 7) 9 3 (1 * 9 + (x + 1)) = 7)
    ∧ (∀ x, x < 7 →
      neon_blur_gray_3x3 (fun _ => 255) (fun _ => 0) 9 3 (1 * 9 + (x + 1)) = 0)
    ∧ (∀ x, x < 7 →
      simd_blur_gray_3x3 (fun _ => 255) (fun _ => 7) 9 3 (1 * 9 + (x + 1)) = 7)
    ∧ (∀ x, x < 7 →
      simd_blur_gray_3x3 (fun _ => 255) (fun _ => 0) 9 3 (1 * 9 + (x + 1)) = 0) := by
  decide

end NeonExplorer
